import Mathlib

/-!
# mandelbrot-c: escape-time kernel, colour mapping and TARGA renderers

A shallow embedding of `mandelbrotRender.c` and `targa.c`.

Modelling conventions.

* The arithmetic of the C type `double` is embedded twice.  The definitions
  `mandelbrot`, `escapeTime`, `escapeColor`, `scaleX`, ... compute with exact
  rational numbers (`ℚ`).  The definitions `arith.escapeTime`,
  `rounding.escapeColor`, `rounding.scaleX`, ... repeat them with the
  operations as a parameter: an `arith` is any set of values with a sum, a
  difference, a product and a comparison, so that rounding, infinities and
  NaN are instances; a `rounding` applies a function to the exact result of
  every sum, difference, product and quotient.  `noRounding` gives back the
  rational definitions, `binary64` rounds to nearest with a significand of 53
  bits.
* `libm` functions with an exact result (`fabs`, `fmod`, `ceil`) are defined;
  `pow` is a parameter of every function that reaches it.
* `int` loop counters and image dimensions are natural numbers.  The
  dimensions reach the renderers from `abs(atoi(..))`, so unpacking them into
  `int` locals does not change them; the byte counts handed to `malloc` are
  not represented, a granted block has every cell the image addresses.
* The output stream is the list of bytes written so far; the C heap is a log
  of `malloc`/`free` events together with the contents of the image blocks.
* The `omp parallel` block is a schedule: the list of thread numbers in the
  order in which the thread bodies run, each body being one step.
-/

namespace Mandelbrot

/-! ## Data model (`mandelbrotRender.h`, `targa.h`) -/

/-- A complex number, `tComplex`. -/
structure tComplex where
  real : ℚ
  imag : ℚ
deriving DecidableEq

/-- Settings of the low-level calculation, `calcSettings`. -/
structure calcSettings where
  juliaFlag : Int
  juliaConstant : tComplex
deriving DecidableEq

/-- Settings of the image geometry, `drawSettings`. -/
structure drawSettings where
  width : Nat
  height : Nat
  threadCount : Nat
  offset : tComplex
  zoomLevel : ℚ
deriving DecidableEq

/-- Settings of the colouring, `colorSettings`. -/
structure colorSettings where
  maxIterations : Int
  hueLimiter : ℚ
  hueOffset : ℚ
  constantLight : ℚ
  lightMax : ℚ
  lightDistribution : ℚ
deriving DecidableEq

/-- The renderer argument pack, `renderSettings`.  The `FILE *imageFile` handle
is not a field: the bytes of the stream live in the machine state. -/
structure renderSettings where
  draw : drawSettings
  color : colorSettings
  calcSet : calcSettings
deriving DecidableEq

/-- Packed 24-bit pixel, `tRGB`; every field is an 8-bit bit-field. -/
structure tRGB where
  r : Nat
  g : Nat
  b : Nat
deriving DecidableEq

/-! ## Escape-time kernel -/

/-- The transform `f(z) = z^2 + c` of `mandelbrot`. -/
def mandelbrot (c z : tComplex) : tComplex :=
  { real := z.real * z.real - z.imag * z.imag + c.real
    imag := 2 * z.real * z.imag + c.imag }

/-- The countdown loop of `escapeTime`:
`for (iterations = n; iterations > 0; iterations--)` with the step constant
`c` and the running iterate `z`; falling out of the loop returns `0`. -/
def escapeLoop (c : tComplex) : Nat → tComplex → Int
  | 0, _ => 0
  | iterations + 1, z =>
    let z := mandelbrot c z
    if z.real * z.real + z.imag * z.imag ≥ 4 then
      ((iterations + 1 : Nat) : Int)
    else
      escapeLoop c iterations z

/-- The function `escapeTime`: the Mandelbrot branch iterates from `(0, 0)` with
the point as constant, the Julia branch iterates from the point with
`calc.juliaConstant` as constant. -/
def escapeTime (maxIterations : Int) (c : tComplex) (calcSet : calcSettings) : Int :=
  if calcSet.juliaFlag = 0 then
    escapeLoop c maxIterations.toNat { real := 0, imag := 0 }
  else
    escapeLoop calcSet.juliaConstant maxIterations.toNat c

/-! ## Colour mapping -/

/-- The C library `fabs`. -/
def fabs (x : ℚ) : ℚ := |x|

/-- The C library `fmod`: `x - trunc(x / y) * y`, the quotient truncated
towards zero, so that the result has the sign of `x`. -/
def fmod (x y : ℚ) : ℚ :=
  let q := x / y
  x - ((if 0 ≤ q then ⌊q⌋ else ⌈q⌉ : Int) : ℚ) * y

/-- The conversion `((unsigned int) ceil(v)) & 0x00FF` followed by the store
into an 8-bit field.  The conversion to `unsigned int` is taken modulo `2^32`. -/
def toChannel (v : ℚ) : Nat :=
  ((⌈v⌉ % 4294967296).toNat &&& 0x00FF) % 256

/-- The function `escapeColor`. -/
def escapeColor (pow : ℚ → ℚ → ℚ) (escapeTime : Int) (color : colorSettings) : tRGB :=
  let maxIterations := color.maxIterations
  let constantLight := color.constantLight
  let hueLimiter := color.hueLimiter
  let hueOffset := color.hueOffset
  let lightMax := color.lightMax
  let lightDist := color.lightDistribution
  if escapeTime = 0 then
    { r := 0, g := 0, b := 0 }
  else
    let eTime : ℚ := (escapeTime : ℚ)
    let mIter : ℚ := (maxIterations : ℚ)
    let eRatio := eTime / mIter
    let hue := 360 - 360 * eRatio * hueLimiter
    let hue := fmod hue 360
    let hue := hue + hueOffset
    let hue := fmod hue 360
    let saturation : ℚ := 1
    let lightness :=
      if constantLight = 0 then lightMax - lightMax * pow eRatio lightDist
      else constantLight
    let chroma := (1 - fabs (2 * lightness - 1)) * saturation
    let hue := hue / 60
    let X := (1 - fabs (fmod hue 2 - 1)) * chroma
    let rgb : ℚ × ℚ × ℚ :=
      if hue < 1 then (chroma, X, 0)
      else if hue < 2 then (X, chroma, 0)
      else if hue < 3 then (0, chroma, X)
      else if hue < 4 then (0, X, chroma)
      else if hue < 5 then (X, 0, chroma)
      else if hue < 6 then (chroma, 0, X)
      else (0, 0, 0)
    let m := lightness - (1 / 2) * chroma
    let r := (rgb.1 + m) * 255
    let g := (rgb.2.1 + m) * 255
    let b := (rgb.2.2 + m) * 255
    { r := toChannel r, g := toChannel g, b := toChannel b }

/-- The function `escapePixel`. -/
def escapePixel (pow : ℚ → ℚ → ℚ) (c : tComplex) (color : colorSettings)
    (calcSet : calcSettings) : tRGB :=
  let eTime := escapeTime color.maxIterations c calcSet
  escapeColor pow eTime color

/-! ## Mapping pixels to the complex plane

Every renderer precomputes the same constants and declares the same nested
functions `scaleX` and `scaleY`. -/

/-- The constant `step = 4 / (dwidth * zoomLevel)`. -/
def step (draw : drawSettings) : ℚ :=
  4 / ((draw.width : ℚ) * draw.zoomLevel)

/-- The constant `realStart = (-2.0 / zoomLevel) + offset.real`. -/
def realStart (draw : drawSettings) : ℚ :=
  (-2 / draw.zoomLevel) + draw.offset.real

/-- The constant `imagStart = (2.0 / zoomLevel) * dheight / dwidth - offset.imag`. -/
def imagStart (draw : drawSettings) : ℚ :=
  (2 / draw.zoomLevel) * (draw.height : ℚ) / (draw.width : ℚ) - draw.offset.imag

/-- The nested function `scaleX`. -/
def scaleX (draw : drawSettings) (x : Nat) : ℚ :=
  realStart draw + step draw * (x : ℚ)

/-- The nested function `scaleY`. -/
def scaleY (draw : drawSettings) (y : Nat) : ℚ :=
  imagStart draw - step draw * (y : ℚ)

/-! ## The TARGA module (`targa.c`) -/

/-- One of the two blocks that `targaAllocateImage` obtains for grid number
`i`: the table of column pointers and the pixel data. -/
inductive memBlock where
  | table (i : Nat)
  | data (i : Nat)
deriving DecidableEq

/-- A heap event: a successful `malloc` of a block, or a `free` of it. -/
inductive memEvent where
  | malloc (b : memBlock)
  | free (b : memBlock)
deriving DecidableEq

/-- An image in memory: `table k` is the offset of `image[k]` inside
`imageData`, and `data n` is the cell `imageData[n]`. -/
structure tImage where
  table : Nat → Nat
  data : Nat → tRGB

/-- What the allocator answers to one call of `targaAllocateImage`: whether
each of the two `malloc` calls succeeds, and the contents of the fresh
(uninitialised) memory. -/
structure allocOracle where
  tableOK : Bool
  dataOK : Bool
  tableInit : Nat → Nat
  dataInit : Nat → tRGB

/-- The state the renderers act on: the bytes written to `imageFile` and the
log of heap events. -/
structure machine where
  file : List Nat
  heap : List memEvent
deriving DecidableEq

/-- The read `image[x][y]`. -/
def tImage.get (image : tImage) (x y : Nat) : tRGB :=
  image.data (image.table x + y)

/-- The write `image[x][y] = v`. -/
def tImage.set (image : tImage) (x y : Nat) (v : tRGB) : tImage :=
  { image with data := Function.update image.data (image.table x + y) v }

/-- The function `targaAllocateImage` for grid number `i`; `none` stands for
the `NULL` results. -/
def targaAllocateImage (alloc : allocOracle) (i : Nat) (width height : Nat)
    (heap : List memEvent) : Option tImage × List memEvent :=
  if alloc.tableOK = false then
    (none, heap)
  else
    let heap := heap ++ [memEvent.malloc (memBlock.table i)]
    if alloc.dataOK = false then
      (none, heap ++ [memEvent.free (memBlock.table i)])
    else
      let heap := heap ++ [memEvent.malloc (memBlock.data i)]
      let table := (List.range width).foldl
        (fun t k => Function.update t k (k * height)) alloc.tableInit
      (some { table := table, data := alloc.dataInit }, heap)

/-- The function `targaDeallocateImage` for grid number `i`. -/
def targaDeallocateImage (i : Nat) (heap : List memEvent) : List memEvent :=
  heap ++ [memEvent.free (memBlock.data i), memEvent.free (memBlock.table i)]

/-- The C library `fputc`: appends the value converted to `unsigned char`. -/
def fputc (c : Nat) (file : List Nat) : List Nat :=
  file ++ [c % 256]

/-- The function `targaWriteHeader_RGB24`. -/
def targaWriteHeader_RGB24 (width height : Nat) (file : List Nat) : List Nat :=
  let header : List Nat :=
    [0, 0, 2, 0, 0, 0, 0, 0, 0, 0, 0, 0,
     width &&& 0x00FF, (width &&& 0xFF00) / 256,
     height &&& 0x00FF, (height &&& 0xFF00) / 256,
     24, 0]
  header.foldl (fun file c => fputc c file) file

/-- The function `targaWritePixel_RGB24`. -/
def targaWritePixel_RGB24 (pixel : tRGB) (file : List Nat) : List Nat :=
  let file := fputc pixel.b file
  let file := fputc pixel.g file
  fputc pixel.r file

/-- The function `targaWriteImage_RGB24`. -/
def targaWriteImage_RGB24 (image : tImage) (width height : Nat)
    (file : List Nat) : List Nat :=
  let file := targaWriteHeader_RGB24 width height file
  (List.range height).foldl
    (fun file y => (List.range width).foldl
      (fun file x => targaWritePixel_RGB24 (image.get x y) file) file) file

/-! ## The renderers -/

/-- The function `renderToTarga`. -/
def renderToTarga (pow : ℚ → ℚ → ℚ) (alloc : allocOracle)
    (renderInput : renderSettings) (m : machine) : Int × machine :=
  let width := renderInput.draw.width
  let height := renderInput.draw.height
  let color := renderInput.color
  let calcSet := renderInput.calcSet
  match targaAllocateImage alloc 0 width height m.heap with
  | (none, heap) => (1, { m with heap := heap })
  | (some mandelbrot, heap) =>
    let mandelbrot := (List.range height).foldl
      (fun image y => (List.range width).foldl
        (fun image x =>
          let cursor : tComplex :=
            { real := scaleX renderInput.draw x, imag := scaleY renderInput.draw y }
          image.set x y (escapePixel pow cursor color calcSet)) image) mandelbrot
    let file := targaWriteImage_RGB24 mandelbrot width height m.file
    let heap := targaDeallocateImage 0 heap
    (0, { file := file, heap := heap })

/-- The allocation loop of `renderToTarga_parallel`, entered at index `i` with
`remaining` grids still to allocate.  On a failure the grids `0 .. i-1` are
deallocated and `none` is returned. -/
def allocateThreadImages (alloc : Nat → allocOracle) (width miniHeight : Nat) :
    (remaining : Nat) → (i : Nat) → (Nat → tImage) → List memEvent →
      Option (Nat → tImage) × List memEvent
  | 0, _, threadImages, heap => (some threadImages, heap)
  | remaining + 1, i, threadImages, heap =>
    match targaAllocateImage (alloc i) i width miniHeight heap with
    | (none, heap) =>
      (none, (List.range i).foldl (fun heap j => targaDeallocateImage j heap) heap)
    | (some image, heap) =>
      allocateThreadImages alloc width miniHeight remaining (i + 1)
        (Function.update threadImages i image) heap

/-- The body of the `omp parallel` block as run by the thread `threadID`. -/
def threadBody (pow : ℚ → ℚ → ℚ) (renderInput : renderSettings) (miniHeight : Nat)
    (threadID : Nat) (threadImages : Nat → tImage) : Nat → tImage :=
  let threadImage := threadImages threadID
  let threadHeight := miniHeight
  let threadWidth := renderInput.draw.width
  let threadColor := renderInput.color
  let threadCalc := renderInput.calcSet
  let threadThreadCount := renderInput.draw.threadCount
  let threadImage := (List.range threadHeight).foldl
    (fun image y => (List.range threadWidth).foldl
      (fun image x =>
        let threadCursor : tComplex :=
          { real := scaleX renderInput.draw x
            imag := scaleY renderInput.draw (y * threadThreadCount + threadID) }
        image.set x y (escapePixel pow threadCursor threadColor threadCalc)) image)
    threadImage
  Function.update threadImages threadID threadImage

/-- The function `renderToTarga_parallel`.  The list `order` is the schedule
of the parallel block: the thread numbers in the order in which the threads
run their bodies. -/
def renderToTarga_parallel (pow : ℚ → ℚ → ℚ) (alloc : Nat → allocOracle)
    (order : List Nat) (renderInput : renderSettings) (m : machine) : Int × machine :=
  let width := renderInput.draw.width
  let height := renderInput.draw.height
  let threadCount := renderInput.draw.threadCount
  let miniHeight := height / threadCount
  let uninitialised : Nat → tImage :=
    fun _ => { table := fun _ => 0, data := fun _ => { r := 0, g := 0, b := 0 } }
  match allocateThreadImages alloc width miniHeight threadCount 0 uninitialised m.heap with
  | (none, heap) => (1, { m with heap := heap })
  | (some threadImages, heap) =>
    let threadImages := order.foldl
      (fun images threadID => threadBody pow renderInput miniHeight threadID images)
      threadImages
    let file := targaWriteHeader_RGB24 width height m.file
    let file := (List.range miniHeight).foldl
      (fun file y => (List.range threadCount).foldl
        (fun file i => (List.range width).foldl
          (fun file x => targaWritePixel_RGB24 ((threadImages i).get x y) file) file)
        file) file
    let heap := (List.range threadCount).foldl
      (fun heap i => targaDeallocateImage i heap) heap
    (0, { file := file, heap := heap })

/-- The function `renderToTarga_lowMem`. -/
def renderToTarga_lowMem (pow : ℚ → ℚ → ℚ) (renderInput : renderSettings)
    (m : machine) : Int × machine :=
  let width := renderInput.draw.width
  let height := renderInput.draw.height
  let color := renderInput.color
  let calcSet := renderInput.calcSet
  let file := targaWriteHeader_RGB24 width height m.file
  let file := (List.range height).foldl
    (fun file y => (List.range width).foldl
      (fun file x =>
        let cursor : tComplex :=
          { real := scaleX renderInput.draw x, imag := scaleY renderInput.draw y }
        let pixel := escapePixel pow cursor color calcSet
        targaWritePixel_RGB24 pixel file) file) file
  (0, { m with file := file })

/-! ## Specification-side definitions

These follow the words of the specification and are what the code is compared
with. -/

/-- Squared magnitude `|z|^2` of a point. -/
def sqMag (z : tComplex) : ℚ :=
  z.real * z.real + z.imag * z.imag

/-- The step function of the specification,
`z' = (zr^2 - zi^2 + cr, 2*zr*zi + ci)`. -/
def specStep (c z : tComplex) : tComplex :=
  { real := z.real ^ 2 - z.imag ^ 2 + c.real
    imag := 2 * z.real * z.imag + c.imag }

/-- The step constant of the specification: the point itself for the
Mandelbrot kind, the Julia constant for the Julia kind. -/
def specConstant (calcSet : calcSettings) (p : tComplex) : tComplex :=
  if calcSet.juliaFlag = 0 then p else calcSet.juliaConstant

/-- The initial iterate of the specification: `(0, 0)` for the Mandelbrot
kind, the point itself for the Julia kind. -/
def specStart (calcSet : calcSettings) (p : tComplex) : tComplex :=
  if calcSet.juliaFlag = 0 then { real := 0, imag := 0 } else p

/-- A valid view: `width > 0`, `height > 0`, `zoom != 0`, `workerCount >= 1`. -/
def validView (draw : drawSettings) : Prop :=
  0 < draw.width ∧ 0 < draw.height ∧ draw.zoomLevel ≠ 0 ∧ 1 ≤ draw.threadCount

/-- The allocator grants both requests of one `targaAllocateImage` call. -/
def allocOracle.succeeds (alloc : allocOracle) : Prop :=
  alloc.tableOK = true ∧ alloc.dataOK = true

/-- The pixel of column `x` of the global row `y`: the colour of the point
that the view maps the pixel to. -/
def pixelAt (pow : ℚ → ℚ → ℚ) (renderInput : renderSettings) (x y : Nat) : tRGB :=
  escapePixel pow
    { real := scaleX renderInput.draw x, imag := scaleY renderInput.draw y }
    renderInput.color renderInput.calcSet

/-- The three bytes of a pixel in the order in which the sink receives them:
blue, green, red. -/
def pixelBytes (p : tRGB) : List Nat :=
  [p.b % 256, p.g % 256, p.r % 256]

/-- The bytes of the global row `y`, left to right. -/
def rowBytes (pow : ℚ → ℚ → ℚ) (renderInput : renderSettings) (y : Nat) : List Nat :=
  (List.range renderInput.draw.width).flatMap
    (fun x => pixelBytes (pixelAt pow renderInput x y))

/-- The bytes of the global rows `0, 1, ..., rows - 1`, top to bottom. -/
def rowsBytes (pow : ℚ → ℚ → ℚ) (renderInput : renderSettings) (rows : Nat) : List Nat :=
  (List.range rows).flatMap (rowBytes pow renderInput)

/-- The end-to-end scenario of the specification: `width = 4`, `height = 4`,
`zoom = 1`, `center = (0, 0)`, `maxIterations = 50`, `hueLimiter = 1`,
`hueOffset = 0`, `constantLightness = 0.5`, Mandelbrot kind.  What the scenario
leaves open is a parameter. -/
def scenario (threadCount : Nat) (lightMax lightDistribution : ℚ)
    (juliaConstant : tComplex) : renderSettings :=
  { draw := { width := 4, height := 4, threadCount := threadCount,
              offset := { real := 0, imag := 0 }, zoomLevel := 1 }
    color := { maxIterations := 50, hueLimiter := 1, hueOffset := 0,
               constantLight := 1 / 2, lightMax := lightMax,
               lightDistribution := lightDistribution }
    calcSet := { juliaFlag := 0, juliaConstant := juliaConstant } }

/-- An allocator answer that grants both requests and hands out zeroed memory. -/
def sampleAlloc : allocOracle :=
  { tableOK := true, dataOK := true, tableInit := fun _ => 0,
    dataInit := fun _ => { r := 0, g := 0, b := 0 } }

/-- A stand-in for `pow` on concrete inputs. -/
def samplePow : ℚ → ℚ → ℚ := fun _ _ => 1

/-- A small configuration with `workerCount` threads: two columns, ten rows,
the default colours of `main`. -/
def sampleInput (workerCount : Nat) : renderSettings :=
  { draw := { width := 2, height := 10, threadCount := workerCount,
              offset := { real := 0, imag := 0 }, zoomLevel := 1 }
    color := { maxIterations := 360, hueLimiter := 1, hueOffset := 0,
               constantLight := 1 / 2, lightMax := 1, lightDistribution := 4 }
    calcSet := { juliaFlag := 0, juliaConstant := { real := -4 / 5, imag := 39 / 250 } } }

/-- The empty sink and the empty heap log. -/
def emptyMachine : machine :=
  { file := [], heap := [] }

/-! ## Renderer selection (`main.c`) -/

/-- A call of one of the three renderers. -/
inductive rendererCall where
  | parallel
  | sequential
  | lowMem
deriving DecidableEq

/-- The renderer calls that the selection of `main` makes, in order: the
chain `if (threadCount > 1) .. else if (lowMemoryFlag == 0) .. else if
(lowMemoryFlag == 1) .. else` whose last branch only prints a message. -/
def mainCalls (threadCount : Nat) (lowMemoryFlag : Int) : List rendererCall :=
  if threadCount > 1 then
    [rendererCall.parallel]
  else if lowMemoryFlag = 0 then
    [rendererCall.sequential]
  else if lowMemoryFlag = 1 then
    [rendererCall.lowMem]
  else
    []

/-- The renderer that a call runs. -/
def rendererCall.run (pow : ℚ → ℚ → ℚ) (allocSeq : allocOracle)
    (allocPar : Nat → allocOracle) (order : List Nat) (renderInput : renderSettings)
    (call : rendererCall) (m : machine) : Int × machine :=
  match call with
  | rendererCall.parallel => renderToTarga_parallel pow allocPar order renderInput m
  | rendererCall.sequential => renderToTarga pow allocSeq renderInput m
  | rendererCall.lowMem => renderToTarga_lowMem pow renderInput m

/-- The rendering section of `main`: `status` starts at `0` and every call
made assigns it. -/
def mainRender (pow : ℚ → ℚ → ℚ) (allocSeq : allocOracle)
    (allocPar : Nat → allocOracle) (order : List Nat) (renderInput : renderSettings)
    (lowMemoryFlag : Int) (m : machine) : Int × machine :=
  (mainCalls renderInput.draw.threadCount lowMemoryFlag).foldl
    (fun state call =>
      rendererCall.run pow allocSeq allocPar order renderInput call state.2)
    (0, m)

/-! ## Intermediate values of `escapeColor` -/

/-- The value of the variable `hue` of `escapeColor` after the second `fmod`,
in degrees. -/
def escapeHue (escapeTime : Int) (color : colorSettings) : ℚ :=
  let eRatio := (escapeTime : ℚ) / (color.maxIterations : ℚ)
  let hue := 360 - 360 * eRatio * color.hueLimiter
  let hue := fmod hue 360
  let hue := hue + color.hueOffset
  fmod hue 360

/-- The value of the variable `lightness` of `escapeColor`. -/
def escapeLightness (pow : ℚ → ℚ → ℚ) (escapeTime : Int) (color : colorSettings) : ℚ :=
  let eRatio := (escapeTime : ℚ) / (color.maxIterations : ℚ)
  if color.constantLight = 0 then
    color.lightMax - color.lightMax * pow eRatio color.lightDistribution
  else color.constantLight

/-- The conversion from HSL that ends `escapeColor`, from the values of `hue`
(in degrees) and `lightness`, with the fixed saturation `1`. -/
def escapeColorHSL (hue lightness : ℚ) : tRGB :=
  let saturation : ℚ := 1
  let chroma := (1 - fabs (2 * lightness - 1)) * saturation
  let hue := hue / 60
  let X := (1 - fabs (fmod hue 2 - 1)) * chroma
  let rgb : ℚ × ℚ × ℚ :=
    if hue < 1 then (chroma, X, 0)
    else if hue < 2 then (X, chroma, 0)
    else if hue < 3 then (0, chroma, X)
    else if hue < 4 then (0, X, chroma)
    else if hue < 5 then (X, 0, chroma)
    else if hue < 6 then (chroma, 0, X)
    else (0, 0, 0)
  let m := lightness - (1 / 2) * chroma
  let r := (rgb.1 + m) * 255
  let g := (rgb.2.1 + m) * 255
  let b := (rgb.2.2 + m) * 255
  { r := toChannel r, g := toChannel g, b := toChannel b }

/-- The values of the variables `r`, `g`, `b` of `escapeColor` after the
scaling by `255`, before the conversion to integers, from the values of `hue`
(in degrees) and `lightness`. -/
def escapeScaled (hue lightness : ℚ) : ℚ × ℚ × ℚ :=
  let saturation : ℚ := 1
  let chroma := (1 - fabs (2 * lightness - 1)) * saturation
  let hue := hue / 60
  let X := (1 - fabs (fmod hue 2 - 1)) * chroma
  let rgb : ℚ × ℚ × ℚ :=
    if hue < 1 then (chroma, X, 0)
    else if hue < 2 then (X, chroma, 0)
    else if hue < 3 then (0, chroma, X)
    else if hue < 4 then (0, X, chroma)
    else if hue < 5 then (X, 0, chroma)
    else if hue < 6 then (chroma, 0, X)
    else (0, 0, 0)
  let m := lightness - (1 / 2) * chroma
  ((rgb.1 + m) * 255, (rgb.2.1 + m) * 255, (rgb.2.2 + m) * 255)

/-! ## Specification-side definitions of the colour mapping, the view and the heap -/

/-- The point of the pixel `(x, y)` in the words of the specification: real
part `(-2/zoom + center.real) + (4/(width*zoom))*x`, imaginary part
`((2/zoom)*(height/width) - center.imag) - (4/(width*zoom))*y`, the quotient
`height/width` being exact. -/
def specPoint (draw : drawSettings) (x y : Nat) : tComplex :=
  { real := (-2 / draw.zoomLevel + draw.offset.real) +
      (4 / ((draw.width : ℚ) * draw.zoomLevel)) * (x : ℚ)
    imag := ((2 / draw.zoomLevel) * ((draw.height : ℚ) / (draw.width : ℚ)) -
        draw.offset.imag) -
      (4 / ((draw.width : ℚ) * draw.zoomLevel)) * (y : ℚ) }

/-- The canonical table of the HSL conversion: the triple before translation
for the sextant `k`. -/
def specSextant (k : Int) (chroma X : ℚ) : ℚ × ℚ × ℚ :=
  if k = 0 then (chroma, X, 0)
  else if k = 1 then (X, chroma, 0)
  else if k = 2 then (0, chroma, X)
  else if k = 3 then (0, X, chroma)
  else if k = 4 then (X, 0, chroma)
  else if k = 5 then (chroma, 0, X)
  else (0, 0, 0)

/-- The final channel of the specification: the ceiling masked to a byte. -/
def specChannel (v : ℚ) : Nat :=
  (⌈v⌉ % 256).toNat

/-- The heap events of a successful allocation of grid `i`. -/
def allocEvents (i : Nat) : List memEvent :=
  [memEvent.malloc (memBlock.table i), memEvent.malloc (memBlock.data i)]

/-- The heap events of the release of grid `i`. -/
def freeEvents (i : Nat) : List memEvent :=
  [memEvent.free (memBlock.data i), memEvent.free (memBlock.table i)]

/-- The heap events of a failed allocation of grid `i`: nothing when the
table is refused, the table obtained and given back when the data is. -/
def failedEvents (alloc : allocOracle) (i : Nat) : List memEvent :=
  if alloc.tableOK = false then []
  else [memEvent.malloc (memBlock.table i), memEvent.free (memBlock.table i)]

/-- How many times the log obtains the block `b`. -/
def mallocCount (log : List memEvent) (b : memBlock) : Nat :=
  log.count (memEvent.malloc b)

/-- How many times the log releases the block `b`. -/
def freeCount (log : List memEvent) (b : memBlock) : Nat :=
  log.count (memEvent.free b)

/-- An allocator answer that refuses the pixel data. -/
def refusingAlloc : allocOracle :=
  { tableOK := true, dataOK := false, tableInit := fun _ => 0,
    dataInit := fun _ => { r := 0, g := 0, b := 0 } }

/-- The number of the grid that a block belongs to. -/
def memBlock.grid : memBlock → Nat
  | memBlock.table i => i
  | memBlock.data i => i

/-- An allocator that refuses the pixel data of grid `j` and grants every
other request. -/
def refusingAt (j : Nat) : Nat → allocOracle :=
  fun i => if i = j then refusingAlloc else sampleAlloc

/-- A four by four view at zoom `1` centred, by its settings, on the point
`(0, 1)`. -/
def offCentreView : drawSettings :=
  { width := 4, height := 4, threadCount := 1,
    offset := { real := 0, imag := 1 }, zoomLevel := 1 }

/-- The default colours of `main` with the hue limiter `-l 1.5`. -/
def wideHueColor : colorSettings :=
  { maxIterations := 360, hueLimiter := 3 / 2, hueOffset := 0,
    constantLight := 1 / 2, lightMax := 1, lightDistribution := 4 }

/-- The calculation settings of the Mandelbrot kind, with the Julia constant
that `main` sets. -/
def mandelbrotKind : calcSettings :=
  { juliaFlag := 0, juliaConstant := { real := -4 / 5, imag := 39 / 250 } }

/-- The orbit of `0` under `z -> z^2 + c`. -/
def orbitOfZero (c : tComplex) (k : Nat) : tComplex :=
  (specStep c)^[k] { real := 0, imag := 0 }

/-- The point `c` diverges: the orbit of `0` under `z -> z^2 + c` is
unbounded, that is `c` lies outside the Mandelbrot set. -/
def diverges (c : tComplex) : Prop :=
  ∀ B : ℚ, ∃ k : Nat, B < sqMag (orbitOfZero c k)

/-- The eighteen bytes of the header of the specification: the bytes `12, 13`
and `14, 15` are the low and the high byte of the width and of the height. -/
def specHeader (width height : Nat) : List Nat :=
  [0, 0, 2, 0, 0, 0, 0, 0, 0, 0, 0, 0,
   width % 256, width / 256 % 256, height % 256, height / 256 % 256, 24, 0]

/-! ## The arithmetic of the type `double`

The definitions above compute with exact rationals.  The definitions of this
section repeat the arithmetic of the program with the operations of the type
`double` as a parameter: what is proved of them for every arithmetic holds of
the rounded operations of the machine as well. -/

/-- The operations of `double` that the escape-time kernel uses: the
constants `0`, `2` and `4`, the sum, the difference, the product and the
comparison `>=`.  Nothing is assumed of them: rounding, the overflow to an
infinity and NaN (on which `>=` answers `false`) are instances. -/
structure arith (α : Type) where
  zero : α
  two : α
  four : α
  add : α → α → α
  sub : α → α → α
  mul : α → α → α
  ge : α → α → Bool

/-- A complex number, `tComplex`, over the values of an arithmetic. -/
structure tComplexF (α : Type) where
  real : α
  imag : α

/-- Settings of the low-level calculation, `calcSettings`, over the values of
an arithmetic. -/
structure calcSettingsF (α : Type) where
  juliaFlag : Int
  juliaConstant : tComplexF α

/-- The transform `f(z) = z^2 + c` of `mandelbrot`:
`z.real * z.real - z.imag * z.imag + c.real` and
`2 * z.real * z.imag + c.imag`, every operation that of the arithmetic, in the
order in which C evaluates them. -/
def arith.mandelbrot {α : Type} (A : arith α) (c z : tComplexF α) : tComplexF α :=
  { real := A.add (A.sub (A.mul z.real z.real) (A.mul z.imag z.imag)) c.real
    imag := A.add (A.mul (A.mul A.two z.real) z.imag) c.imag }

/-- The countdown loop of `escapeTime` with the test
`(z.real * z.real + z.imag * z.imag) >= 4` of the arithmetic. -/
def arith.escapeLoop {α : Type} (A : arith α) (c : tComplexF α) :
    Nat → tComplexF α → Int
  | 0, _ => 0
  | iterations + 1, z =>
    let z := A.mandelbrot c z
    if A.ge (A.add (A.mul z.real z.real) (A.mul z.imag z.imag)) A.four = true then
      ((iterations + 1 : Nat) : Int)
    else
      arith.escapeLoop A c iterations z

/-- The function `escapeTime` over an arithmetic. -/
def arith.escapeTime {α : Type} (A : arith α) (maxIterations : Int) (c : tComplexF α)
    (calcSet : calcSettingsF α) : Int :=
  if calcSet.juliaFlag = 0 then
    A.escapeLoop c maxIterations.toNat { real := A.zero, imag := A.zero }
  else
    A.escapeLoop calcSet.juliaConstant maxIterations.toNat c

/-- A rounding of `double`: the function that takes the exact result of an
operation on two values to the value that the operation returns. -/
structure rounding where
  rnd : ℚ → ℚ

/-- The sum `x + y` of two values, rounded. -/
def rounding.add (R : rounding) (x y : ℚ) : ℚ := R.rnd (x + y)

/-- The difference `x - y` of two values, rounded. -/
def rounding.sub (R : rounding) (x y : ℚ) : ℚ := R.rnd (x - y)

/-- The product `x * y` of two values, rounded. -/
def rounding.mul (R : rounding) (x y : ℚ) : ℚ := R.rnd (x * y)

/-- The quotient `x / y` of two values, rounded. -/
def rounding.div (R : rounding) (x y : ℚ) : ℚ := R.rnd (x / y)

/-- The arithmetic of the kernel under a rounding: the constants are exact,
every operation is rounded, the comparison is that of the values. -/
def rounding.toArith (R : rounding) : arith ℚ :=
  { zero := 0
    two := 2
    four := 4
    add := R.add
    sub := R.sub
    mul := R.mul
    ge := fun x y => decide (x ≥ y) }

/-- The rounding that leaves every result as it is: exact arithmetic. -/
def noRounding : rounding :=
  { rnd := fun q => q }

/-- Rounding to the nearest integer, a tie going to the even integer. -/
def roundHalfEven (n : ℚ) : Int :=
  let f : Int := ⌊n⌋
  let r : ℚ := n - (f : ℚ)
  if r < 1 / 2 then f
  else if 1 / 2 < r then f + 1
  else if f % 2 = 0 then f else f + 1

/-- Rounding to the nearest number with a significand of 53 bits, a tie going
to the even significand: the rounding of the binary64 format.  With `e` the
exponent of `q`, that is `2^e <= |q| < 2^(e+1)`, the significand
`q / 2^(e-52)` has a magnitude in `[2^52, 2^53)` and is rounded to the nearest
integer.  The exponent is not bounded, so the overflow to an infinity and the
subnormal numbers are not represented. -/
def roundBinary64 (q : ℚ) : ℚ :=
  let e : Int := Int.log 2 |q|
  let ulp : ℚ := (2 : ℚ) ^ (e - 52)
  (roundHalfEven (q / ulp) : ℚ) * ulp

/-- The rounding of binary64. -/
def binary64 : rounding :=
  { rnd := roundBinary64 }

/-- A point of the rational model as a point of an arithmetic on rationals. -/
def tComplex.toF (z : tComplex) : tComplexF ℚ :=
  { real := z.real, imag := z.imag }

/-- The calculation settings of the rational model as settings of an
arithmetic on rationals. -/
def calcSettings.toF (calcSet : calcSettings) : calcSettingsF ℚ :=
  { juliaFlag := calcSet.juliaFlag, juliaConstant := calcSet.juliaConstant.toF }

/-- The function `escapeColor` under a rounding.  The conversions of the two
integers to `double`, `fabs`, `fmod`, the comparisons and `ceil` are exact;
`pow` returns what the library returns. -/
def rounding.escapeColor (R : rounding) (pow : ℚ → ℚ → ℚ) (escapeTime : Int)
    (color : colorSettings) : tRGB :=
  let maxIterations := color.maxIterations
  let constantLight := color.constantLight
  let hueLimiter := color.hueLimiter
  let hueOffset := color.hueOffset
  let lightMax := color.lightMax
  let lightDist := color.lightDistribution
  if escapeTime = 0 then
    { r := 0, g := 0, b := 0 }
  else
    let eTime : ℚ := (escapeTime : ℚ)
    let mIter : ℚ := (maxIterations : ℚ)
    let eRatio := R.div eTime mIter
    let hue := R.sub 360 (R.mul (R.mul 360 eRatio) hueLimiter)
    let hue := fmod hue 360
    let hue := R.add hue hueOffset
    let hue := fmod hue 360
    let saturation : ℚ := 1
    let lightness :=
      if constantLight = 0 then
        let lightness := R.mul lightMax (pow eRatio lightDist)
        R.sub lightMax lightness
      else constantLight
    let chroma := R.sub 1 (fabs (R.sub (R.mul 2 lightness) 1))
    let chroma := R.mul chroma saturation
    let hue := R.div hue 60
    let X := R.sub 1 (fabs (R.sub (fmod hue 2) 1))
    let X := R.mul X chroma
    let rgb : ℚ × ℚ × ℚ :=
      if hue < 1 then (chroma, X, 0)
      else if hue < 2 then (X, chroma, 0)
      else if hue < 3 then (0, chroma, X)
      else if hue < 4 then (0, X, chroma)
      else if hue < 5 then (X, 0, chroma)
      else if hue < 6 then (chroma, 0, X)
      else (0, 0, 0)
    let m := R.sub lightness (R.mul (1 / 2) chroma)
    let r := R.add rgb.1 m
    let b := R.add rgb.2.2 m
    let g := R.add rgb.2.1 m
    let r := R.mul r 255
    let g := R.mul g 255
    let b := R.mul b 255
    { r := toChannel r, g := toChannel g, b := toChannel b }

/-- The function `escapePixel` under a rounding. -/
def rounding.escapePixel (R : rounding) (pow : ℚ → ℚ → ℚ) (c : tComplex)
    (color : colorSettings) (calcSet : calcSettings) : tRGB :=
  let eTime := R.toArith.escapeTime color.maxIterations c.toF calcSet.toF
  R.escapeColor pow eTime color

/-- The constant `step = 4 / (dwidth * zoomLevel)` under a rounding. -/
def rounding.step (R : rounding) (draw : drawSettings) : ℚ :=
  R.div 4 (R.mul (draw.width : ℚ) draw.zoomLevel)

/-- The constant `realStart = (-2.0 / zoomLevel) + offset.real` under a
rounding. -/
def rounding.realStart (R : rounding) (draw : drawSettings) : ℚ :=
  R.add (R.div (-2) draw.zoomLevel) draw.offset.real

/-- The constant `imagStart = (2.0 / zoomLevel) * dheight / dwidth - offset.imag`
under a rounding: C multiplies by `dheight` first and divides the product by
`dwidth`. -/
def rounding.imagStart (R : rounding) (draw : drawSettings) : ℚ :=
  R.sub (R.div (R.mul (R.div 2 draw.zoomLevel) (draw.height : ℚ)) (draw.width : ℚ))
    draw.offset.imag

/-- The nested function `scaleX` under a rounding. -/
def rounding.scaleX (R : rounding) (draw : drawSettings) (x : Nat) : ℚ :=
  R.add (R.realStart draw) (R.mul (R.step draw) (x : ℚ))

/-- The nested function `scaleY` under a rounding. -/
def rounding.scaleY (R : rounding) (draw : drawSettings) (y : Nat) : ℚ :=
  R.sub (R.imagStart draw) (R.mul (R.step draw) (y : ℚ))

/-- The function `renderToTarga` under a rounding. -/
def rounding.renderToTarga (R : rounding) (pow : ℚ → ℚ → ℚ) (alloc : allocOracle)
    (renderInput : renderSettings) (m : machine) : Int × machine :=
  let width := renderInput.draw.width
  let height := renderInput.draw.height
  let color := renderInput.color
  let calcSet := renderInput.calcSet
  match targaAllocateImage alloc 0 width height m.heap with
  | (none, heap) => (1, { m with heap := heap })
  | (some mandelbrot, heap) =>
    let mandelbrot := (List.range height).foldl
      (fun image y => (List.range width).foldl
        (fun image x =>
          let cursor : tComplex :=
            { real := R.scaleX renderInput.draw x, imag := R.scaleY renderInput.draw y }
          image.set x y (R.escapePixel pow cursor color calcSet)) image) mandelbrot
    let file := targaWriteImage_RGB24 mandelbrot width height m.file
    let heap := targaDeallocateImage 0 heap
    (0, { file := file, heap := heap })

/-- The body of the `omp parallel` block as run by the thread `threadID`,
under a rounding. -/
def rounding.threadBody (R : rounding) (pow : ℚ → ℚ → ℚ) (renderInput : renderSettings)
    (miniHeight : Nat) (threadID : Nat) (threadImages : Nat → tImage) : Nat → tImage :=
  let threadImage := threadImages threadID
  let threadHeight := miniHeight
  let threadWidth := renderInput.draw.width
  let threadColor := renderInput.color
  let threadCalc := renderInput.calcSet
  let threadThreadCount := renderInput.draw.threadCount
  let threadImage := (List.range threadHeight).foldl
    (fun image y => (List.range threadWidth).foldl
      (fun image x =>
        let threadCursor : tComplex :=
          { real := R.scaleX renderInput.draw x
            imag := R.scaleY renderInput.draw (y * threadThreadCount + threadID) }
        image.set x y (R.escapePixel pow threadCursor threadColor threadCalc)) image)
    threadImage
  Function.update threadImages threadID threadImage

/-- The function `renderToTarga_parallel` under a rounding, with the schedule
`order` of the parallel block. -/
def rounding.renderToTarga_parallel (R : rounding) (pow : ℚ → ℚ → ℚ)
    (alloc : Nat → allocOracle) (order : List Nat) (renderInput : renderSettings)
    (m : machine) : Int × machine :=
  let width := renderInput.draw.width
  let height := renderInput.draw.height
  let threadCount := renderInput.draw.threadCount
  let miniHeight := height / threadCount
  let uninitialised : Nat → tImage :=
    fun _ => { table := fun _ => 0, data := fun _ => { r := 0, g := 0, b := 0 } }
  match allocateThreadImages alloc width miniHeight threadCount 0 uninitialised m.heap with
  | (none, heap) => (1, { m with heap := heap })
  | (some threadImages, heap) =>
    let threadImages := order.foldl
      (fun images threadID => R.threadBody pow renderInput miniHeight threadID images)
      threadImages
    let file := targaWriteHeader_RGB24 width height m.file
    let file := (List.range miniHeight).foldl
      (fun file y => (List.range threadCount).foldl
        (fun file i => (List.range width).foldl
          (fun file x => targaWritePixel_RGB24 ((threadImages i).get x y) file) file)
        file) file
    let heap := (List.range threadCount).foldl
      (fun heap i => targaDeallocateImage i heap) heap
    (0, { file := file, heap := heap })

/-- The function `renderToTarga_lowMem` under a rounding. -/
def rounding.renderToTarga_lowMem (R : rounding) (pow : ℚ → ℚ → ℚ)
    (renderInput : renderSettings) (m : machine) : Int × machine :=
  let width := renderInput.draw.width
  let height := renderInput.draw.height
  let color := renderInput.color
  let calcSet := renderInput.calcSet
  let file := targaWriteHeader_RGB24 width height m.file
  let file := (List.range height).foldl
    (fun file y => (List.range width).foldl
      (fun file x =>
        let cursor : tComplex :=
          { real := R.scaleX renderInput.draw x, imag := R.scaleY renderInput.draw y }
        let pixel := R.escapePixel pow cursor color calcSet
        targaWritePixel_RGB24 pixel file) file) file
  (0, { m with file := file })

/-- The value of the variable `hue` of `escapeColor` after the second `fmod`,
in degrees, under a rounding. -/
def rounding.escapeHue (R : rounding) (escapeTime : Int) (color : colorSettings) : ℚ :=
  let eRatio := R.div (escapeTime : ℚ) (color.maxIterations : ℚ)
  let hue := R.sub 360 (R.mul (R.mul 360 eRatio) color.hueLimiter)
  let hue := fmod hue 360
  let hue := R.add hue color.hueOffset
  fmod hue 360

/-- The value of the variable `lightness` of `escapeColor` under a rounding. -/
def rounding.escapeLightness (R : rounding) (pow : ℚ → ℚ → ℚ) (escapeTime : Int)
    (color : colorSettings) : ℚ :=
  let eRatio := R.div (escapeTime : ℚ) (color.maxIterations : ℚ)
  if color.constantLight = 0 then
    R.sub color.lightMax (R.mul color.lightMax (pow eRatio color.lightDistribution))
  else color.constantLight

/-- The value of the variable `chroma` of `escapeColor` under a rounding, from
the value of `lightness`, after the multiplication by the saturation `1`. -/
def rounding.escapeChroma (R : rounding) (lightness : ℚ) : ℚ :=
  let saturation : ℚ := 1
  R.mul (R.sub 1 (fabs (R.sub (R.mul 2 lightness) 1))) saturation

/-- The values of the variables `r`, `g`, `b` of `escapeColor` under a
rounding after the scaling by `255`, before the conversion to integers, from
the values of `hue` (in degrees) and `lightness`. -/
def rounding.escapeScaled (R : rounding) (hue lightness : ℚ) : ℚ × ℚ × ℚ :=
  let chroma := R.escapeChroma lightness
  let hue := R.div hue 60
  let X := R.mul (R.sub 1 (fabs (R.sub (fmod hue 2) 1))) chroma
  let rgb : ℚ × ℚ × ℚ :=
    if hue < 1 then (chroma, X, 0)
    else if hue < 2 then (X, chroma, 0)
    else if hue < 3 then (0, chroma, X)
    else if hue < 4 then (0, X, chroma)
    else if hue < 5 then (X, 0, chroma)
    else if hue < 6 then (chroma, 0, X)
    else (0, 0, 0)
  let m := R.sub lightness (R.mul (1 / 2) chroma)
  (R.mul (R.add rgb.1 m) 255, R.mul (R.add rgb.2.1 m) 255, R.mul (R.add rgb.2.2 m) 255)

/-! ## Specification-side definitions over an arithmetic -/

/-- Squared magnitude `|z|^2` of a point, as the arithmetic computes it. -/
def arith.sqMag {α : Type} (A : arith α) (z : tComplexF α) : α :=
  A.add (A.mul z.real z.real) (A.mul z.imag z.imag)

/-- The step function of the specification,
`z' = (zr^2 - zi^2 + cr, 2*zr*zi + ci)`, over an arithmetic. -/
def arith.specStep {α : Type} (A : arith α) (c z : tComplexF α) : tComplexF α :=
  { real := A.add (A.sub (A.mul z.real z.real) (A.mul z.imag z.imag)) c.real
    imag := A.add (A.mul (A.mul A.two z.real) z.imag) c.imag }

/-- The `k`-th iterate of the orbit of the specification over an arithmetic:
from `(0, 0)` with the point as constant for the Mandelbrot kind, from the
point with the Julia constant for the Julia kind. -/
def arith.specOrbit {α : Type} (A : arith α) (calcSet : calcSettingsF α)
    (p : tComplexF α) (k : Nat) : tComplexF α :=
  (A.specStep (if calcSet.juliaFlag = 0 then p else calcSet.juliaConstant))^[k]
    (if calcSet.juliaFlag = 0 then { real := A.zero, imag := A.zero } else p)

/-- The point of the pixel `(x, y)` as the renderers compute it, every
operation rounded: real part `(-2/zoom + center.real) + (4/(width*zoom))*x`,
imaginary part `(((2/zoom)*height)/width - center.imag) - (4/(width*zoom))*y`,
the product `(2/zoom)*height` being formed before the division by `width`. -/
def rounding.specPoint (R : rounding) (draw : drawSettings) (x y : Nat) : tComplex :=
  { real := R.add (R.add (R.div (-2) draw.zoomLevel) draw.offset.real)
      (R.mul (R.div 4 (R.mul (draw.width : ℚ) draw.zoomLevel)) (x : ℚ))
    imag := R.sub
      (R.sub (R.div (R.mul (R.div 2 draw.zoomLevel) (draw.height : ℚ)) (draw.width : ℚ))
        draw.offset.imag)
      (R.mul (R.div 4 (R.mul (draw.width : ℚ) draw.zoomLevel)) (y : ℚ)) }

/-- The imaginary part of the pixel row `y` in the words of the
specification, every operation rounded:
`((2/zoom)*(height/width) - center.imag) - (4/(width*zoom))*y`, the quotient
`height/width` being formed first. -/
def rounding.quotientFirstImag (R : rounding) (draw : drawSettings) (y : Nat) : ℚ :=
  R.sub
    (R.sub (R.mul (R.div 2 draw.zoomLevel) (R.div (draw.height : ℚ) (draw.width : ℚ)))
      draw.offset.imag)
    (R.mul (R.div 4 (R.mul (draw.width : ℚ) draw.zoomLevel)) (y : ℚ))

/-- The colour of the specification for a hue in degrees and a lightness,
every operation rounded: `h' = hue/60`, `chroma = 1 - |2*lightness - 1|`,
`X = chroma * (1 - |h' mod 2 - 1|)`, `m = lightness - chroma/2`, and the
channels `ceil((v + m) * 255) & 0xFF` for `v` in the table entry of the
sextant `floor(h')`. -/
def rounding.specColor (R : rounding) (hue lightness : ℚ) : tRGB :=
  let h' := R.div hue 60
  let chroma := R.sub 1 |R.sub (R.mul 2 lightness) 1|
  let X := R.mul chroma (R.sub 1 |R.sub (h' - 2 * ((⌊h' / 2⌋ : Int) : ℚ)) 1|)
  let m := R.sub lightness (R.div chroma 2)
  let v := specSextant ⌊h'⌋ chroma X
  { r := specChannel (R.mul (R.add v.1 m) 255)
    g := specChannel (R.mul (R.add v.2.1 m) 255)
    b := specChannel (R.mul (R.add v.2.2 m) 255) }

/-- The pixel of column `x` of the global row `y` under a rounding. -/
def rounding.pixelAt (R : rounding) (pow : ℚ → ℚ → ℚ) (renderInput : renderSettings)
    (x y : Nat) : tRGB :=
  R.escapePixel pow (R.specPoint renderInput.draw x y)
    renderInput.color renderInput.calcSet

/-- The bytes of the global rows `0, 1, ..., rows - 1` under a rounding, each
row left to right. -/
def rounding.rowsBytes (R : rounding) (pow : ℚ → ℚ → ℚ) (renderInput : renderSettings)
    (rows : Nat) : List Nat :=
  (List.range rows).flatMap (fun y => (List.range renderInput.draw.width).flatMap
    (fun x => pixelBytes (R.pixelAt pow renderInput x y)))

/-- A view of eleven columns and one row at zoom `3`, centred on the origin. -/
def narrowView : drawSettings :=
  { width := 11, height := 1, threadCount := 1,
    offset := { real := 0, imag := 0 }, zoomLevel := 3 }

/-- The default view of 34 columns and 34 rows: zoom `1`, centred on the
origin. -/
def squareView : drawSettings :=
  { width := 34, height := 34, threadCount := 1,
    offset := { real := 0, imag := 0 }, zoomLevel := 1 }

/-- The exact results of the operations by which `scaleX` and `scaleY`
compute the point of the pixel `(width/2, height/2)`, in the order of the
computation. -/
def centreValues (draw : drawSettings) : List ℚ :=
  [-2 / draw.zoomLevel,
   -2 / draw.zoomLevel + draw.offset.real,
   (draw.width : ℚ) * draw.zoomLevel,
   4 / ((draw.width : ℚ) * draw.zoomLevel),
   4 / ((draw.width : ℚ) * draw.zoomLevel) * ((draw.width / 2 : Nat) : ℚ),
   -2 / draw.zoomLevel + draw.offset.real +
     4 / ((draw.width : ℚ) * draw.zoomLevel) * ((draw.width / 2 : Nat) : ℚ),
   2 / draw.zoomLevel,
   2 / draw.zoomLevel * (draw.height : ℚ),
   2 / draw.zoomLevel * (draw.height : ℚ) / (draw.width : ℚ),
   2 / draw.zoomLevel * (draw.height : ℚ) / (draw.width : ℚ) - draw.offset.imag,
   4 / ((draw.width : ℚ) * draw.zoomLevel) * ((draw.height / 2 : Nat) : ℚ),
   2 / draw.zoomLevel * (draw.height : ℚ) / (draw.width : ℚ) - draw.offset.imag -
     4 / ((draw.width : ℚ) * draw.zoomLevel) * ((draw.height / 2 : Nat) : ℚ)]

/-- The default colours of `main` with the constant lightness `-c 0.001`: the
binary64 number nearest to `0.001` is `1152921504606847 / 2^60`. -/
def dimColor : colorSettings :=
  { maxIterations := 360, hueLimiter := 1, hueOffset := 0,
    constantLight := 1152921504606847 / 1152921504606846976, lightMax := 1,
    lightDistribution := 4 }

/-- The properties of a rounding to nearest that the bound on the channels
rests on: the rounding is monotone and symmetric, it keeps its own results,
the numbers `1` and `255`, and the double of a number that it keeps; the
difference of two numbers that it keeps, neither more than twice the other,
is kept (the lemma of Sterbenz); a number of `[1/2, 1]` moves by at most
`2^-54`, half the spacing of the numbers kept there. -/
def rounding.toNearest (R : rounding) : Prop :=
  (∀ x y : ℚ, x ≤ y → R.rnd x ≤ R.rnd y) ∧
  (∀ x : ℚ, R.rnd (-x) = -R.rnd x) ∧
  (∀ x : ℚ, R.rnd (R.rnd x) = R.rnd x) ∧
  R.rnd 1 = 1 ∧
  R.rnd 255 = 255 ∧
  (∀ x : ℚ, R.rnd (2 * x) = 2 * R.rnd x) ∧
  (∀ x y : ℚ, R.rnd x = x → R.rnd y = y → y / 2 ≤ x → x ≤ 2 * y →
    R.rnd (x - y) = x - y) ∧
  (∀ x : ℚ, 1 / 2 ≤ x → x ≤ 1 → |R.rnd x - x| ≤ 1 / 2 ^ 54)

/-! ## Lemmas on the escape-time kernel -/

theorem mandelbrot_eq_specStep (c z : tComplex) : mandelbrot c z = specStep c z := by
  simp [mandelbrot, specStep, pow_two]

theorem escapeLoop_succ (c z : tComplex) (n : Nat) :
    escapeLoop c (n + 1) z =
      if 4 ≤ sqMag (mandelbrot c z) then ((n + 1 : Nat) : Int)
      else escapeLoop c n (mandelbrot c z) := by
  simp [escapeLoop, sqMag]

/-- The loop returns `0` when none of the first `n` iterates escapes. -/
theorem escapeLoop_none (c : tComplex) :
    ∀ (n : Nat) (z : tComplex),
      (∀ k, k < n → ¬ 4 ≤ sqMag ((mandelbrot c)^[k + 1] z)) →
      escapeLoop c n z = 0 := by
  intro n
  induction n with
  | zero => intro z _; rfl
  | succ n ih =>
    intro z hno
    rw [escapeLoop_succ]
    have h0 : ¬ 4 ≤ sqMag (mandelbrot c z) := by
      have := hno 0 (Nat.succ_pos n)
      simpa using this
    rw [if_neg h0]
    exact ih (mandelbrot c z) (fun k hk => by
      have := hno (k + 1) (by omega)
      simpa [Function.iterate_succ_apply] using this)

/-- The loop result lies between `0` and the iteration budget. -/
theorem escapeLoop_range (c : tComplex) :
    ∀ (n : Nat) (z : tComplex), 0 ≤ escapeLoop c n z ∧ escapeLoop c n z ≤ (n : Int) := by
  intro n
  induction n with
  | zero => intro z; simp [escapeLoop]
  | succ n ih =>
    intro z
    rw [escapeLoop_succ]
    split
    · constructor
      · exact Int.natCast_nonneg _
      · exact le_refl _
    · have := ih (mandelbrot c z)
      constructor
      · exact this.1
      · have h2 : ((n : Nat) : Int) ≤ ((n + 1 : Nat) : Int) := by push_cast; omega
        exact le_trans this.2 h2

/-- The loop returns its full budget exactly when the first step escapes. -/
theorem escapeLoop_eq_budget (c z : tComplex) (n : Nat) (hn : 1 ≤ n) :
    escapeLoop c n z = (n : Int) ↔ 4 ≤ sqMag (mandelbrot c z) := by
  obtain ⟨m, rfl⟩ : ∃ m, n = m + 1 := ⟨n - 1, by omega⟩
  rw [escapeLoop_succ]
  constructor
  · intro h
    by_contra hc
    rw [if_neg hc] at h
    have := (escapeLoop_range c m (mandelbrot c z)).2
    rw [h] at this
    push_cast at this
    omega
  · intro h
    rw [if_pos h]

theorem escapeTime_eq_loop (n : Int) (p : tComplex) (calcSet : calcSettings) :
    escapeTime n p calcSet =
      escapeLoop (specConstant calcSet p) n.toNat (specStart calcSet p) := by
  unfold escapeTime specConstant specStart
  split <;> rfl

/-! ## The rounding of binary64 -/

/-- The nearest integer is within one half. -/
theorem roundHalfEven_near (n : ℚ) : |n - (roundHalfEven n : ℚ)| ≤ 1 / 2 := by
  have hf1 := Int.floor_le n
  have hf2 := Int.lt_floor_add_one n
  unfold roundHalfEven
  simp only
  rw [abs_le]
  split_ifs with h1 h2 h3
  · constructor <;> linarith
  · push_cast; constructor <;> linarith
  · constructor <;> linarith
  · push_cast; constructor <;> linarith

/-- An integer strictly within one half is the nearest integer. -/
theorem roundHalfEven_of_near (n : ℚ) (k : Int)
    (h : -(1 / 2) < n - (k : ℚ) ∧ n - (k : ℚ) < 1 / 2) : roundHalfEven n = k := by
  obtain ⟨h3a, h3b⟩ := h
  unfold roundHalfEven
  simp only
  by_cases hge : (k : ℚ) ≤ n
  · have hfloor : ⌊n⌋ = k := Int.floor_eq_iff.mpr ⟨hge, by linarith⟩
    rw [hfloor, if_pos h3b]
  · push_neg at hge
    have hfloor : ⌊n⌋ = k - 1 :=
      Int.floor_eq_iff.mpr ⟨by push_cast; linarith, by push_cast; linarith⟩
    rw [hfloor]
    have hnot : ¬ n - ((k - 1 : Int) : ℚ) < 1 / 2 := by
      push_cast; linarith
    have hgt : 1 / 2 < n - ((k - 1 : Int) : ℚ) := by
      push_cast; linarith
    rw [if_neg hnot, if_pos hgt]
    omega

theorem roundHalfEven_intCast (k : Int) : roundHalfEven (k : ℚ) = k :=
  roundHalfEven_of_near _ k (by constructor <;> norm_num)

/-- Rounding to the nearest integer is monotone. -/
theorem roundHalfEven_mono (n n' : ℚ) (h : n ≤ n') : roundHalfEven n ≤ roundHalfEven n' := by
  have hff : ⌊n⌋ ≤ ⌊n'⌋ := Int.floor_mono h
  have hlo : ∀ a : ℚ, ⌊a⌋ ≤ roundHalfEven a := by
    intro a
    unfold roundHalfEven
    simp only
    split_ifs <;> omega
  have hhi : ∀ a : ℚ, roundHalfEven a ≤ ⌊a⌋ + 1 := by
    intro a
    unfold roundHalfEven
    simp only
    split_ifs <;> omega
  rcases lt_or_eq_of_le hff with hlt | heq
  · have := hhi n
    have := hlo n'
    omega
  · unfold roundHalfEven
    simp only
    rw [heq]
    have hr : n - ((⌊n'⌋ : Int) : ℚ) ≤ n' - ((⌊n'⌋ : Int) : ℚ) := by linarith
    split_ifs <;> first | omega | (exfalso; linarith)

/-- Rounding to the nearest integer is symmetric. -/
theorem roundHalfEven_neg (n : ℚ) : roundHalfEven (-n) = -roundHalfEven n := by
  have hf1 := Int.floor_le n
  have hf2 := Int.lt_floor_add_one n
  by_cases hint : n = ((⌊n⌋ : Int) : ℚ)
  · rw [hint, ← Int.cast_neg, roundHalfEven_intCast, roundHalfEven_intCast]
  · have hlt : ((⌊n⌋ : Int) : ℚ) < n := lt_of_le_of_ne hf1 (fun h => hint h.symm)
    have hfloor : ⌊-n⌋ = -⌊n⌋ - 1 :=
      Int.floor_eq_iff.mpr ⟨by push_cast; linarith, by push_cast; linarith⟩
    unfold roundHalfEven
    simp only
    rw [hfloor]
    push_cast
    split_ifs <;> first | omega | (exfalso; linarith)

/-- The exponent of a number between two consecutive powers of two. -/
theorem log_of_bounds (q : ℚ) (e : Int) (h1 : (2 : ℚ) ^ e ≤ |q|)
    (h2 : |q| < (2 : ℚ) ^ (e + 1)) : Int.log 2 |q| = e := by
  have hpos : (0 : ℚ) < |q| := lt_of_lt_of_le (zpow_pos (by norm_num) e) h1
  apply le_antisymm
  · have := (Int.lt_zpow_iff_log_lt (by norm_num : 1 < 2) hpos).mp
      (by exact_mod_cast h2 : |q| < ((2 : ℕ) : ℚ) ^ (e + 1))
    omega
  · exact (Int.zpow_le_iff_le_log (by norm_num : 1 < 2) hpos).mp
      (by exact_mod_cast h1 : ((2 : ℕ) : ℚ) ^ e ≤ |q|)

/-- A number that is not zero lies between the power of two of its exponent
and the next one. -/
theorem bounds_of_log (q : ℚ) (hq : q ≠ 0) :
    (2 : ℚ) ^ (Int.log 2 |q|) ≤ |q| ∧ |q| < (2 : ℚ) ^ (Int.log 2 |q| + 1) := by
  have hpos : (0 : ℚ) < |q| := abs_pos.mpr hq
  constructor
  · have := Int.zpow_log_le_self (by norm_num : 1 < 2) hpos
    exact_mod_cast this
  · have := Int.lt_zpow_succ_log_self (by norm_num : 1 < 2) |q|
    exact_mod_cast this

/-- The value of the rounding at a number that is not half way between two
neighbours: with `e` the exponent of `q`, the rounding returns `k * 2^(e-52)`
for the integer `k` within one half of the significand. -/
theorem roundBinary64_eq (q v : ℚ) (e k : Int)
    (h1 : (2 : ℚ) ^ e ≤ q ∨ (2 : ℚ) ^ e ≤ -q)
    (h2 : -(2 : ℚ) ^ (e + 1) < q ∧ q < (2 : ℚ) ^ (e + 1))
    (h3 : -(1 / 2) < q / (2 : ℚ) ^ (e - 52) - (k : ℚ) ∧
      q / (2 : ℚ) ^ (e - 52) - (k : ℚ) < 1 / 2)
    (hv : v = (k : ℚ) * (2 : ℚ) ^ (e - 52)) : roundBinary64 q = v := by
  have hlog : Int.log 2 |q| = e := log_of_bounds q e (le_abs.mpr h1) (abs_lt.mpr h2)
  unfold roundBinary64
  simp only [hlog]
  rw [hv, roundHalfEven_of_near _ k h3]

/-- The value of the rounding at a number half way between two neighbours:
the neighbour with the even significand. -/
theorem roundBinary64_tie (q v : ℚ) (e f k : Int)
    (h1 : (2 : ℚ) ^ e ≤ q ∨ (2 : ℚ) ^ e ≤ -q)
    (h2 : -(2 : ℚ) ^ (e + 1) < q ∧ q < (2 : ℚ) ^ (e + 1))
    (h3 : q / (2 : ℚ) ^ (e - 52) = (f : ℚ) + 1 / 2)
    (hk : k = f ∨ k = f + 1) (heven : k % 2 = 0)
    (hv : v = (k : ℚ) * (2 : ℚ) ^ (e - 52)) : roundBinary64 q = v := by
  have hlog : Int.log 2 |q| = e := log_of_bounds q e (le_abs.mpr h1) (abs_lt.mpr h2)
  have hfloor : ⌊(f : ℚ) + 1 / 2⌋ = f :=
    Int.floor_eq_iff.mpr ⟨by linarith, by linarith⟩
  have hr1 : ¬ ((f : ℚ) + 1 / 2 - (f : ℚ) < 1 / 2) := by
    rw [add_sub_cancel_left]
    exact lt_irrefl _
  have hr2 : ¬ (1 / 2 < (f : ℚ) + 1 / 2 - (f : ℚ)) := by
    rw [add_sub_cancel_left]
    exact lt_irrefl _
  unfold roundBinary64
  simp only [hlog]
  rw [hv, h3]
  unfold roundHalfEven
  simp only [hfloor, if_neg hr1, if_neg hr2]
  congr 1
  rcases hk with hk | hk
  · have : f % 2 = 0 := by rw [← hk]; exact heven
    rw [if_pos this, hk]
  · have : ¬ f % 2 = 0 := by omega
    rw [if_neg this, hk]

theorem roundBinary64_zero : roundBinary64 0 = 0 := by
  simp [roundBinary64, roundHalfEven]

/-- The power of two of an exponent is `2^52` units of the exponent, the next
power is `2^53` units. -/
theorem zpow_units (e : Int) :
    (2 : ℚ) ^ e = (2 : ℚ) ^ (52 : ℕ) * (2 : ℚ) ^ (e - 52) ∧
    (2 : ℚ) ^ (e + 1) = (2 : ℚ) ^ (53 : ℕ) * (2 : ℚ) ^ (e - 52) := by
  constructor
  · rw [← zpow_natCast, ← zpow_add₀ (by norm_num : (2 : ℚ) ≠ 0)]
    congr 1
    omega
  · rw [← zpow_natCast, ← zpow_add₀ (by norm_num : (2 : ℚ) ≠ 0)]
    congr 1
    omega

/-- The rounded significand of a number that is not zero has a magnitude
between `2^52` and `2^53`, and is within one half of the significand. -/
theorem significand_bounds (q : ℚ) (hq : q ≠ 0) :
    (2 : Int) ^ 52 ≤ |roundHalfEven (q / (2 : ℚ) ^ (Int.log 2 |q| - 52))| ∧
    |roundHalfEven (q / (2 : ℚ) ^ (Int.log 2 |q| - 52))| ≤ (2 : Int) ^ 53 := by
  obtain ⟨hlo, hhi⟩ := bounds_of_log q hq
  obtain ⟨he, he1⟩ := zpow_units (Int.log 2 |q|)
  have hu : (0 : ℚ) < (2 : ℚ) ^ (Int.log 2 |q| - 52) := zpow_pos (by norm_num) _
  have hnear := roundHalfEven_near (q / (2 : ℚ) ^ (Int.log 2 |q| - 52))
  have hn : |q / (2 : ℚ) ^ (Int.log 2 |q| - 52)| = |q| / (2 : ℚ) ^ (Int.log 2 |q| - 52) := by
    rw [abs_div, abs_of_pos hu]
  have hn1 : (2 : ℚ) ^ (52 : ℕ) ≤ |q / (2 : ℚ) ^ (Int.log 2 |q| - 52)| := by
    rw [hn, le_div_iff₀ hu, ← he]
    exact hlo
  have hn2 : |q / (2 : ℚ) ^ (Int.log 2 |q| - 52)| < (2 : ℚ) ^ (53 : ℕ) := by
    rw [hn, div_lt_iff₀ hu, ← he1]
    exact hhi
  set k := roundHalfEven (q / (2 : ℚ) ^ (Int.log 2 |q| - 52)) with hkdef
  have hk1 : (2 : ℚ) ^ (52 : ℕ) - 1 / 2 ≤ |(k : ℚ)| := by
    have := abs_sub_abs_le_abs_sub (q / (2 : ℚ) ^ (Int.log 2 |q| - 52)) (k : ℚ)
    linarith
  have hk2 : |(k : ℚ)| < (2 : ℚ) ^ (53 : ℕ) + 1 / 2 := by
    have := abs_sub_abs_le_abs_sub (k : ℚ) (q / (2 : ℚ) ^ (Int.log 2 |q| - 52))
    rw [abs_sub_comm] at this
    linarith
  constructor
  · have h : ((2 : Int) ^ 52 - 1 : ℚ) < ((|k| : Int) : ℚ) := by
      push_cast
      linarith
    have : (2 : Int) ^ 52 - 1 < |k| := by exact_mod_cast h
    omega
  · have h : ((|k| : Int) : ℚ) < ((2 : Int) ^ 53 + 1 : ℚ) := by
      push_cast
      linarith
    have : |k| < (2 : Int) ^ 53 + 1 := by exact_mod_cast h
    omega

/-- The rounding of a number that is not negative is not negative. -/
theorem roundBinary64_nonneg (q : ℚ) (hq : 0 ≤ q) : 0 ≤ roundBinary64 q := by
  have hu : (0 : ℚ) < (2 : ℚ) ^ (Int.log 2 |q| - 52) := zpow_pos (by norm_num) _
  have hn : 0 ≤ q / (2 : ℚ) ^ (Int.log 2 |q| - 52) := div_nonneg hq hu.le
  have hk : 0 ≤ roundHalfEven (q / (2 : ℚ) ^ (Int.log 2 |q| - 52)) := by
    have := roundHalfEven_mono 0 _ hn
    have h0 : roundHalfEven 0 = 0 := by
      have := roundHalfEven_intCast 0
      simpa using this
    omega
  unfold roundBinary64
  simp only
  exact mul_nonneg (by exact_mod_cast hk) hu.le

/-- A number with a significand of 53 bits is its own rounding: an integer
`k` with `2^52 <= |k| < 2^53` times a power of two. -/
theorem roundBinary64_of_significand (k e : Int) (h1 : (2 : Int) ^ 52 ≤ |k|)
    (h2 : |k| < (2 : Int) ^ 53) :
    roundBinary64 ((k : ℚ) * (2 : ℚ) ^ (e - 52)) = (k : ℚ) * (2 : ℚ) ^ (e - 52) := by
  have hu : (0 : ℚ) < (2 : ℚ) ^ (e - 52) := zpow_pos (by norm_num) _
  have hk1 : (2 : ℚ) ^ (52 : ℕ) ≤ |(k : ℚ)| := by
    have : (((2 : Int) ^ 52 : Int) : ℚ) ≤ ((|k| : Int) : ℚ) := by exact_mod_cast h1
    simpa using this
  have hk2 : |(k : ℚ)| < (2 : ℚ) ^ (53 : ℕ) := by
    have : ((|k| : Int) : ℚ) < (((2 : Int) ^ 53 : Int) : ℚ) := by exact_mod_cast h2
    simpa using this
  obtain ⟨he, he1⟩ := zpow_units e
  have habs : |(k : ℚ) * (2 : ℚ) ^ (e - 52)| = |(k : ℚ)| * (2 : ℚ) ^ (e - 52) := by
    rw [abs_mul, abs_of_pos hu]
  refine roundBinary64_eq _ _ e k (le_abs.mp ?_) (abs_lt.mp ?_) ?_ rfl
  · rw [habs, he]
    exact mul_le_mul_of_nonneg_right hk1 hu.le
  · rw [habs, he1]
    exact mul_lt_mul_of_pos_right hk2 hu
  · rw [mul_div_assoc, div_self hu.ne', mul_one, sub_self]
    constructor <;> norm_num

/-- A number with a significand of magnitude at most `2^53` is its own
rounding. -/
theorem roundBinary64_of_significand_le (k e : Int) (h1 : (2 : Int) ^ 52 ≤ |k|)
    (h2 : |k| ≤ (2 : Int) ^ 53) :
    roundBinary64 ((k : ℚ) * (2 : ℚ) ^ (e - 52)) = (k : ℚ) * (2 : ℚ) ^ (e - 52) := by
  rcases lt_or_eq_of_le h2 with hlt | heq
  · exact roundBinary64_of_significand k e h1 hlt
  · have hk53 : k = 2 ^ 53 ∨ k = -2 ^ 53 := by
      rcases abs_cases k with ⟨h, _⟩ | ⟨h, _⟩
      · left; omega
      · right; omega
    have hshift : (2 : ℚ) ^ (e - 52) = (2 : ℚ)⁻¹ * (2 : ℚ) ^ (e + 1 - 52) := by
      rw [← zpow_neg_one, ← zpow_add₀ (by norm_num : (2 : ℚ) ≠ 0)]
      congr 1
      omega
    rcases hk53 with h | h
    · have : ((k : ℚ)) * (2 : ℚ) ^ (e - 52) =
          (((2 : Int) ^ 52 : Int) : ℚ) * (2 : ℚ) ^ (e + 1 - 52) := by
        rw [h, hshift]
        push_cast
        ring
      rw [this]
      exact roundBinary64_of_significand _ _ (by norm_num) (by norm_num)
    · have : ((k : ℚ)) * (2 : ℚ) ^ (e - 52) =
          (((-(2 : Int) ^ 52 : Int)) : ℚ) * (2 : ℚ) ^ (e + 1 - 52) := by
        rw [h, hshift]
        push_cast
        ring
      rw [this]
      exact roundBinary64_of_significand _ _ (by norm_num) (by norm_num)

/-- Rounding twice is rounding once. -/
theorem roundBinary64_idem (q : ℚ) : roundBinary64 (roundBinary64 q) = roundBinary64 q := by
  by_cases hq : q = 0
  · rw [hq, roundBinary64_zero, roundBinary64_zero]
  obtain ⟨hk1, hk2⟩ := significand_bounds q hq
  have : roundBinary64 q =
      (roundHalfEven (q / (2 : ℚ) ^ (Int.log 2 |q| - 52)) : ℚ) *
        (2 : ℚ) ^ (Int.log 2 |q| - 52) := rfl
  rw [this]
  exact roundBinary64_of_significand_le _ _ hk1 hk2

/-- The rounding is symmetric. -/
theorem roundBinary64_neg (q : ℚ) : roundBinary64 (-q) = -roundBinary64 q := by
  unfold roundBinary64
  simp only [abs_neg, neg_div, roundHalfEven_neg]
  push_cast
  ring

/-- The double of a number is rounded to the double of its rounding. -/
theorem roundBinary64_double (q : ℚ) : roundBinary64 (2 * q) = 2 * roundBinary64 q := by
  by_cases hq : q = 0
  · rw [hq, mul_zero, roundBinary64_zero, mul_zero]
  obtain ⟨hlo, hhi⟩ := bounds_of_log q hq
  have h2 : (2 : ℚ) ^ (Int.log 2 |q| + 1) = 2 * (2 : ℚ) ^ (Int.log 2 |q|) := by
    rw [zpow_add_one₀ (by norm_num : (2 : ℚ) ≠ 0)]
    ring
  have h3 : (2 : ℚ) ^ (Int.log 2 |q| + 1 + 1) = 2 * (2 : ℚ) ^ (Int.log 2 |q| + 1) := by
    rw [zpow_add_one₀ (by norm_num : (2 : ℚ) ≠ 0)]
    ring
  have habs : |2 * q| = 2 * |q| := by
    rw [abs_mul]
    norm_num
  have hlog : Int.log 2 |2 * q| = Int.log 2 |q| + 1 :=
    log_of_bounds (2 * q) _ (by rw [habs, h2]; linarith) (by rw [habs, h3]; linarith)
  have hu : (2 : ℚ) ^ (Int.log 2 |q| + 1 - 52) = 2 * (2 : ℚ) ^ (Int.log 2 |q| - 52) := by
    have : Int.log 2 |q| + 1 - 52 = Int.log 2 |q| - 52 + 1 := by ring
    rw [this, zpow_add_one₀ (by norm_num : (2 : ℚ) ≠ 0)]
    ring
  have hpos : (0 : ℚ) < (2 : ℚ) ^ (Int.log 2 |q| - 52) := zpow_pos (by norm_num) _
  unfold roundBinary64
  simp only [hlog, hu]
  have hn : 2 * q / (2 * (2 : ℚ) ^ (Int.log 2 |q| - 52)) =
      q / (2 : ℚ) ^ (Int.log 2 |q| - 52) := by
    field_simp
    ring
  rw [hn]
  ring

/-- The rounding of a positive number lies between the power of two of its
exponent and the next one. -/
theorem roundBinary64_binade (q : ℚ) (hq : 0 < q) :
    (2 : ℚ) ^ (Int.log 2 |q|) ≤ roundBinary64 q ∧
    roundBinary64 q ≤ (2 : ℚ) ^ (Int.log 2 |q| + 1) := by
  obtain ⟨hk1, hk2⟩ := significand_bounds q hq.ne'
  obtain ⟨he, he1⟩ := zpow_units (Int.log 2 |q|)
  have hu : (0 : ℚ) < (2 : ℚ) ^ (Int.log 2 |q| - 52) := zpow_pos (by norm_num) _
  have hn : 0 ≤ q / (2 : ℚ) ^ (Int.log 2 |q| - 52) := div_nonneg hq.le hu.le
  have hk0 : 0 ≤ roundHalfEven (q / (2 : ℚ) ^ (Int.log 2 |q| - 52)) := by
    have := roundHalfEven_mono 0 _ hn
    have h0 : roundHalfEven 0 = 0 := by
      have := roundHalfEven_intCast 0
      simpa using this
    omega
  rw [abs_of_nonneg hk0] at hk1 hk2
  have c1 : ((2 : ℚ) ^ (52 : ℕ)) ≤ (roundHalfEven (q / (2 : ℚ) ^ (Int.log 2 |q| - 52)) : ℚ) := by
    have : (((2 : Int) ^ 52 : Int) : ℚ) ≤
        (roundHalfEven (q / (2 : ℚ) ^ (Int.log 2 |q| - 52)) : ℚ) := by exact_mod_cast hk1
    simpa using this
  have c2 : (roundHalfEven (q / (2 : ℚ) ^ (Int.log 2 |q| - 52)) : ℚ) ≤ ((2 : ℚ) ^ (53 : ℕ)) := by
    have : (roundHalfEven (q / (2 : ℚ) ^ (Int.log 2 |q| - 52)) : ℚ) ≤
        (((2 : Int) ^ 53 : Int) : ℚ) := by exact_mod_cast hk2
    simpa using this
  unfold roundBinary64
  simp only
  rw [he1]
  nth_rewrite 1 [he]
  exact ⟨mul_le_mul_of_nonneg_right c1 hu.le, mul_le_mul_of_nonneg_right c2 hu.le⟩

/-- The rounding is monotone on the positive numbers. -/
theorem roundBinary64_mono_pos (x y : ℚ) (hx : 0 < x) (h : x ≤ y) :
    roundBinary64 x ≤ roundBinary64 y := by
  have hy : 0 < y := lt_of_lt_of_le hx h
  have hlog : Int.log 2 |x| ≤ Int.log 2 |y| := by
    rw [abs_of_pos hx, abs_of_pos hy]
    exact Int.log_mono_right hx h
  rcases lt_or_eq_of_le hlog with hlt | heq
  · have h1 := (roundBinary64_binade x hx).2
    have h2 := (roundBinary64_binade y hy).1
    have h3 : (2 : ℚ) ^ (Int.log 2 |x| + 1) ≤ (2 : ℚ) ^ (Int.log 2 |y|) :=
      zpow_le_zpow_right₀ (by norm_num) (by omega)
    linarith
  · have hu : (0 : ℚ) < (2 : ℚ) ^ (Int.log 2 |y| - 52) := zpow_pos (by norm_num) _
    unfold roundBinary64
    simp only [heq]
    apply mul_le_mul_of_nonneg_right _ hu.le
    have := roundHalfEven_mono (x / (2 : ℚ) ^ (Int.log 2 |y| - 52))
      (y / (2 : ℚ) ^ (Int.log 2 |y| - 52)) (div_le_div_of_nonneg_right h hu.le)
    exact_mod_cast this

/-- The rounding is monotone. -/
theorem roundBinary64_mono (x y : ℚ) (h : x ≤ y) : roundBinary64 x ≤ roundBinary64 y := by
  rcases lt_trichotomy 0 x with hx | hx | hx
  · exact roundBinary64_mono_pos x y hx h
  · rw [← hx, roundBinary64_zero]
    exact roundBinary64_nonneg y (by linarith)
  · rcases le_or_lt 0 y with hy | hy
    · have h1 : roundBinary64 x ≤ 0 := by
        have := roundBinary64_nonneg (-x) (by linarith)
        rw [roundBinary64_neg] at this
        linarith
      have h2 := roundBinary64_nonneg y hy
      linarith
    · have := roundBinary64_mono_pos (-y) (-x) (by linarith) (by linarith)
      rw [roundBinary64_neg, roundBinary64_neg] at this
      linarith

/-- A number of `[1/2, 1]` moves by at most `2^-54`. -/
theorem roundBinary64_error (x : ℚ) (h1 : 1 / 2 ≤ x) (h2 : x ≤ 1) :
    |roundBinary64 x - x| ≤ 1 / 2 ^ 54 := by
  rcases lt_or_eq_of_le h2 with hlt | heq
  · have hlog : Int.log 2 |x| = -1 :=
      log_of_bounds x (-1) (by rw [abs_of_nonneg (by linarith)]; norm_num; linarith)
        (by rw [abs_of_nonneg (by linarith)]; norm_num; exact hlt)
    have hnear := roundHalfEven_near (x / (2 : ℚ) ^ ((-1 : Int) - 52))
    have hu : (2 : ℚ) ^ ((-1 : Int) - 52) = 1 / 2 ^ 53 := by norm_num
    unfold roundBinary64
    simp only [hlog]
    rw [hu] at hnear ⊢
    rw [abs_le] at hnear ⊢
    obtain ⟨ha, hb⟩ := hnear
    have hx : x / (1 / 2 ^ 53) = x * 2 ^ 53 := by field_simp
    rw [hx] at ha hb ⊢
    constructor
    · have : (0 : ℚ) < 1 / 2 ^ 53 := by positivity
      nlinarith
    · have : (0 : ℚ) < 1 / 2 ^ 53 := by positivity
      nlinarith
  · rw [heq]
    have h : roundBinary64 1 = 1 :=
      roundBinary64_eq _ _ (0) (4503599627370496) (by norm_num) (by norm_num)
        (by norm_num) (by norm_num)
    rw [h, sub_self, abs_zero]
    positivity

/-- An integer of magnitude below `2^53` times a power of two is its own
rounding. -/
theorem roundBinary64_of_int_mul (D j : Int) (h : |D| < (2 : Int) ^ 53) :
    roundBinary64 ((D : ℚ) * (2 : ℚ) ^ j) = (D : ℚ) * (2 : ℚ) ^ j := by
  by_cases hD : D = 0
  · rw [hD]
    simp [roundBinary64_zero]
  have hn0 : D.natAbs ≠ 0 := Int.natAbs_ne_zero.mpr hD
  have hlo : 2 ^ Nat.log 2 D.natAbs ≤ D.natAbs := Nat.pow_log_le_self 2 hn0
  have hhi : D.natAbs < 2 ^ (Nat.log 2 D.natAbs + 1) :=
    Nat.lt_pow_succ_log_self (by norm_num) D.natAbs
  have hn53 : D.natAbs < 2 ^ 53 := by
    have : (D.natAbs : Int) = |D| := Int.natCast_natAbs D
    omega
  have hL : Nat.log 2 D.natAbs ≤ 52 := by
    by_contra hc
    push_neg at hc
    have : 2 ^ 53 ≤ 2 ^ Nat.log 2 D.natAbs := Nat.pow_le_pow_right (by norm_num) hc
    omega
  obtain ⟨t, ht⟩ : ∃ t, Nat.log 2 D.natAbs + t = 52 := ⟨52 - Nat.log 2 D.natAbs, by omega⟩
  have hK1 : (2 : Int) ^ 52 ≤ |D * 2 ^ t| := by
    rw [abs_mul, abs_of_pos (by positivity : (0 : Int) < 2 ^ t), ← Int.natCast_natAbs D]
    have : 2 ^ 52 ≤ D.natAbs * 2 ^ t := by
      calc 2 ^ 52 = 2 ^ Nat.log 2 D.natAbs * 2 ^ t := by rw [← pow_add, ht]
        _ ≤ D.natAbs * 2 ^ t := Nat.mul_le_mul_right _ hlo
    exact_mod_cast this
  have hK2 : |D * 2 ^ t| < (2 : Int) ^ 53 := by
    rw [abs_mul, abs_of_pos (by positivity : (0 : Int) < 2 ^ t), ← Int.natCast_natAbs D]
    have : D.natAbs * 2 ^ t < 2 ^ 53 := by
      calc D.natAbs * 2 ^ t < 2 ^ (Nat.log 2 D.natAbs + 1) * 2 ^ t :=
            Nat.mul_lt_mul_of_pos_right hhi (by positivity)
        _ = 2 ^ 53 := by rw [← pow_add]; congr 1; omega
    exact_mod_cast this
  have hrep : (D : ℚ) * (2 : ℚ) ^ j =
      ((D * 2 ^ t : Int) : ℚ) * (2 : ℚ) ^ (j - (t : Int) + 52 - 52) := by
    have h1 : j - (t : Int) + 52 - 52 = j + (-(t : Int)) := by ring
    rw [h1, zpow_add₀ (by norm_num : (2 : ℚ) ≠ 0), zpow_neg, zpow_natCast]
    push_cast
    field_simp
    ring
  rw [hrep]
  exact roundBinary64_of_significand _ _ hK1 hK2

/-- A number that the rounding keeps is an integer multiple of every power
of two up to the unit of its exponent. -/
theorem kept_multiple (q : ℚ) (hk : roundBinary64 q = q) (j : Int)
    (hj : j ≤ Int.log 2 |q| - 52) : ∃ A : Int, q = (A : ℚ) * (2 : ℚ) ^ j := by
  obtain ⟨t, ht⟩ : ∃ t : Nat, Int.log 2 |q| - 52 = j + (t : Int) :=
    ⟨(Int.log 2 |q| - 52 - j).toNat, by omega⟩
  refine ⟨roundHalfEven (q / (2 : ℚ) ^ (Int.log 2 |q| - 52)) * 2 ^ t, ?_⟩
  have : roundBinary64 q =
      (roundHalfEven (q / (2 : ℚ) ^ (Int.log 2 |q| - 52)) : ℚ) *
        (2 : ℚ) ^ (Int.log 2 |q| - 52) := rfl
  rw [hk] at this
  nth_rewrite 1 [this]
  rw [ht, zpow_add₀ (by norm_num : (2 : ℚ) ≠ 0), zpow_natCast]
  push_cast
  ring

/-- The lemma of Sterbenz: the difference of two numbers that the rounding
keeps, neither more than twice the other, is kept. -/
theorem roundBinary64_sterbenz (x y : ℚ) (hx : roundBinary64 x = x)
    (hy : roundBinary64 y = y) (h1 : y / 2 ≤ x) (h2 : x ≤ 2 * y) :
    roundBinary64 (x - y) = x - y := by
  have hy0 : 0 ≤ y := by linarith
  rcases eq_or_lt_of_le hy0 with hy0 | hypos
  · have hx0 : x = 0 := by linarith
    rw [hx0, ← hy0, sub_zero, roundBinary64_zero]
  have hxpos : 0 < x := by linarith
  obtain ⟨hxlo, hxhi⟩ := bounds_of_log x hxpos.ne'
  obtain ⟨hylo, hyhi⟩ := bounds_of_log y hypos.ne'
  have hxhi' : x < (2 : ℚ) ^ (Int.log 2 |x| + 1) := lt_of_le_of_lt (le_abs_self x) hxhi
  have hyhi' : y < (2 : ℚ) ^ (Int.log 2 |y| + 1) := lt_of_le_of_lt (le_abs_self y) hyhi
  -- the common unit
  obtain ⟨A, hA⟩ := kept_multiple x hx
    (min (Int.log 2 |x|) (Int.log 2 |y|) - 52) (by have := min_le_left (Int.log 2 |x|) (Int.log 2 |y|); omega)
  obtain ⟨B, hB⟩ := kept_multiple y hy
    (min (Int.log 2 |x|) (Int.log 2 |y|) - 52) (by have := min_le_right (Int.log 2 |x|) (Int.log 2 |y|); omega)
  have hu : (0 : ℚ) < (2 : ℚ) ^ (min (Int.log 2 |x|) (Int.log 2 |y|) - 52) :=
    zpow_pos (by norm_num) _
  have hd : x - y = ((A - B : Int) : ℚ) *
      (2 : ℚ) ^ (min (Int.log 2 |x|) (Int.log 2 |y|) - 52) := by
    push_cast
    rw [sub_mul, ← hA, ← hB]
  -- the difference is below the smaller of the two numbers
  have hsmall : |x - y| < (2 : ℚ) ^ (min (Int.log 2 |x|) (Int.log 2 |y|) + 1) := by
    rcases le_total (Int.log 2 |x|) (Int.log 2 |y|) with hle | hle
    · rw [min_eq_left hle]
      have : |x - y| ≤ x := by
        rw [abs_le]
        constructor <;> linarith
      linarith
    · rw [min_eq_right hle]
      have : |x - y| ≤ y := by
        rw [abs_le]
        constructor <;> linarith
      linarith
  have hD : |A - B| < (2 : Int) ^ 53 := by
    have he1 := (zpow_units (min (Int.log 2 |x|) (Int.log 2 |y|))).2
    rw [hd, abs_mul, abs_of_pos hu, he1] at hsmall
    have := lt_of_mul_lt_mul_right hsmall hu.le
    exact_mod_cast this
  rw [hd]
  exact roundBinary64_of_int_mul _ _ hD

/-- The rounding of binary64 is a rounding to nearest. -/
theorem binary64_toNearest : binary64.toNearest :=
  ⟨roundBinary64_mono, roundBinary64_neg, roundBinary64_idem,
    roundBinary64_eq _ _ (0) (4503599627370496) (by norm_num) (by norm_num)
      (by norm_num) (by norm_num),
    roundBinary64_eq _ _ (7) (8972014882652160) (by norm_num) (by norm_num)
      (by norm_num) (by norm_num),
    roundBinary64_double, roundBinary64_sterbenz, roundBinary64_error⟩

/-! ## Lemmas on the escape-time kernel over an arithmetic -/

theorem arith_escapeLoop_succ {α : Type} (A : arith α) (c z : tComplexF α) (n : Nat) :
    A.escapeLoop c (n + 1) z =
      if A.ge (A.sqMag (A.mandelbrot c z)) A.four = true then ((n + 1 : Nat) : Int)
      else A.escapeLoop c n (A.mandelbrot c z) := by
  simp [arith.escapeLoop, arith.sqMag]

/-- The loop returns `n - k` at the least index `k < n` whose next iterate
passes the test. -/
theorem arith_escapeLoop_first {α : Type} (A : arith α) (c : tComplexF α) :
    ∀ (k n : Nat) (z : tComplexF α), k < n →
      A.ge (A.sqMag ((A.mandelbrot c)^[k + 1] z)) A.four = true →
      (∀ j, j < k → A.ge (A.sqMag ((A.mandelbrot c)^[j + 1] z)) A.four = false) →
      A.escapeLoop c n z = (n : Int) - (k : Int) := by
  intro k
  induction k with
  | zero =>
    intro n z hk hesc _
    obtain ⟨m, rfl⟩ : ∃ m, n = m + 1 := ⟨n - 1, by omega⟩
    rw [arith_escapeLoop_succ]
    simp only [Function.iterate_succ, Function.iterate_zero, Function.comp_apply,
      id_eq] at hesc
    simp [hesc]
  | succ k ih =>
    intro n z hk hesc hno
    obtain ⟨m, rfl⟩ : ∃ m, n = m + 1 := ⟨n - 1, by omega⟩
    rw [arith_escapeLoop_succ]
    have h0 : ¬ A.ge (A.sqMag (A.mandelbrot c z)) A.four = true := by
      have := hno 0 (Nat.succ_pos k)
      simpa using this
    rw [if_neg h0]
    have hrec := ih m (A.mandelbrot c z) (by omega)
      (by simpa [Function.iterate_succ_apply] using hesc)
      (fun j hj => by
        have := hno (j + 1) (by omega)
        simpa [Function.iterate_succ_apply] using this)
    rw [hrec]
    push_cast
    ring

/-- The loop returns `0` when none of the first `n` iterates passes the test. -/
theorem arith_escapeLoop_none {α : Type} (A : arith α) (c : tComplexF α) :
    ∀ (n : Nat) (z : tComplexF α),
      (∀ k, k < n → A.ge (A.sqMag ((A.mandelbrot c)^[k + 1] z)) A.four = false) →
      A.escapeLoop c n z = 0 := by
  intro n
  induction n with
  | zero => intro z _; rfl
  | succ n ih =>
    intro z hno
    rw [arith_escapeLoop_succ]
    have h0 : ¬ A.ge (A.sqMag (A.mandelbrot c z)) A.four = true := by
      have := hno 0 (Nat.succ_pos n)
      simpa using this
    rw [if_neg h0]
    exact ih (A.mandelbrot c z) (fun k hk => by
      have := hno (k + 1) (by omega)
      simpa [Function.iterate_succ_apply] using this)

/-- The loop result lies between `0` and the iteration budget. -/
theorem arith_escapeLoop_range {α : Type} (A : arith α) (c : tComplexF α) :
    ∀ (n : Nat) (z : tComplexF α),
      0 ≤ A.escapeLoop c n z ∧ A.escapeLoop c n z ≤ (n : Int) := by
  intro n
  induction n with
  | zero => intro z; simp [arith.escapeLoop]
  | succ n ih =>
    intro z
    rw [arith_escapeLoop_succ]
    split
    · constructor
      · exact Int.natCast_nonneg _
      · exact le_refl _
    · have := ih (A.mandelbrot c z)
      constructor
      · exact this.1
      · have h2 : ((n : Nat) : Int) ≤ ((n + 1 : Nat) : Int) := by push_cast; omega
        exact le_trans this.2 h2

/-- The loop returns its full budget exactly when the first step passes the
test. -/
theorem arith_escapeLoop_eq_budget {α : Type} (A : arith α) (c z : tComplexF α) (n : Nat)
    (hn : 1 ≤ n) :
    A.escapeLoop c n z = (n : Int) ↔ A.ge (A.sqMag (A.mandelbrot c z)) A.four = true := by
  obtain ⟨m, rfl⟩ : ∃ m, n = m + 1 := ⟨n - 1, by omega⟩
  rw [arith_escapeLoop_succ]
  constructor
  · intro h
    by_contra hc
    rw [if_neg hc] at h
    have := (arith_escapeLoop_range A c m (A.mandelbrot c z)).2
    rw [h] at this
    push_cast at this
    omega
  · intro h
    rw [if_pos h]

theorem arith_specOrbit_eq {α : Type} (A : arith α) (calcSet : calcSettingsF α)
    (p : tComplexF α) (k : Nat) :
    A.specOrbit calcSet p k =
      (A.mandelbrot (if calcSet.juliaFlag = 0 then p else calcSet.juliaConstant))^[k]
        (if calcSet.juliaFlag = 0 then { real := A.zero, imag := A.zero } else p) := rfl

theorem arith_escapeTime_eq_loop {α : Type} (A : arith α) (n : Int) (p : tComplexF α)
    (calcSet : calcSettingsF α) :
    A.escapeTime n p calcSet =
      A.escapeLoop (if calcSet.juliaFlag = 0 then p else calcSet.juliaConstant) n.toNat
        (if calcSet.juliaFlag = 0 then { real := A.zero, imag := A.zero } else p) := by
  unfold arith.escapeTime
  split <;> rfl

/-- The rational kernel is the kernel of the arithmetic without rounding. -/
theorem noRounding_escapeLoop (c : tComplex) (n : Nat) :
    ∀ z : tComplex, noRounding.toArith.escapeLoop c.toF n z.toF = escapeLoop c n z := by
  induction n with
  | zero => intro z; rfl
  | succ n ih =>
    intro z
    have hm : noRounding.toArith.mandelbrot c.toF z.toF = (mandelbrot c z).toF := rfl
    rw [arith_escapeLoop_succ, escapeLoop_succ, hm, ih]
    simp [arith.sqMag, sqMag, rounding.toArith, tComplex.toF, noRounding, rounding.add,
      rounding.mul]

/-- The rational `escapeTime` is `escapeTime` over the arithmetic without
rounding. -/
theorem noRounding_escapeTime (n : Int) (p : tComplex) (calcSet : calcSettings) :
    noRounding.toArith.escapeTime n p.toF calcSet.toF = escapeTime n p calcSet := by
  unfold arith.escapeTime escapeTime
  by_cases h : calcSet.juliaFlag = 0
  · simp only [calcSettings.toF, h, if_true]
    exact noRounding_escapeLoop p n.toNat { real := 0, imag := 0 }
  · simp only [calcSettings.toF, h, if_false]
    exact noRounding_escapeLoop calcSet.juliaConstant n.toNat p

/-! ## The kernel at the point `(1.75, 0.9682458365518541)`

The second coordinate is the binary64 number `8721183177395929 / 2^53`.  The
squared magnitude of the point is below four; rounded, it is four. -/

theorem roundBinary64_seven_quarters : roundBinary64 (7 / 4) = 7 / 4 :=
  roundBinary64_eq _ _ (0) (7881299347898368) (by norm_num) (by norm_num)
    (by norm_num) (by norm_num)

theorem roundBinary64_near_one :
    roundBinary64 (8721183177395929 / 9007199254740992) =
      8721183177395929 / 9007199254740992 :=
  roundBinary64_eq _ _ (-1) (8721183177395929) (by norm_num) (by norm_num)
    (by norm_num) (by norm_num)

theorem roundBinary64_square_real : roundBinary64 (49 / 16) = 49 / 16 :=
  roundBinary64_eq _ _ (1) (6896136929411072) (by norm_num) (by norm_num)
    (by norm_num) (by norm_num)

theorem roundBinary64_square_imag :
    roundBinary64
        (76059036013693751997329625773041 / 81129638414606681695789005144064) =
      8444249301319679 / 9007199254740992 :=
  roundBinary64_eq _ _ (-1) (8444249301319679) (by norm_num) (by norm_num)
    (by norm_num) (by norm_num)

theorem roundBinary64_sum_squares :
    roundBinary64 (36028797018963967 / 9007199254740992) = 4 :=
  roundBinary64_eq _ _ (1) (9007199254740992) (by norm_num) (by norm_num)
    (by norm_num) (by norm_num)

/-- In binary64 the first step from `(0, 0)` with the constant
`(1.75, 0.9682458365518541)` returns the constant. -/
theorem binary64_first_step :
    binary64.toArith.mandelbrot
        { real := 7 / 4, imag := 8721183177395929 / 9007199254740992 }
        { real := binary64.toArith.zero, imag := binary64.toArith.zero } =
      { real := 7 / 4, imag := 8721183177395929 / 9007199254740992 } := by
  simp [arith.mandelbrot, rounding.toArith, rounding.add, rounding.sub, rounding.mul,
    binary64, roundBinary64_zero, roundBinary64_seven_quarters, roundBinary64_near_one]

/-- In binary64 the squared magnitude of `(1.75, 0.9682458365518541)` is
four. -/
theorem binary64_sqMag_boundary :
    binary64.toArith.sqMag
        { real := 7 / 4, imag := 8721183177395929 / 9007199254740992 } = 4 := by
  have h1 : (7 / 4 : ℚ) * (7 / 4) = 49 / 16 := by norm_num
  have h2 : (8721183177395929 / 9007199254740992 : ℚ) *
      (8721183177395929 / 9007199254740992) =
      76059036013693751997329625773041 / 81129638414606681695789005144064 := by
    norm_num
  have h3 : (49 / 16 : ℚ) + 8444249301319679 / 9007199254740992 =
      36028797018963967 / 9007199254740992 := by norm_num
  simp only [arith.sqMag, rounding.toArith, rounding.add, rounding.mul, binary64, h1, h2,
    roundBinary64_square_real, roundBinary64_square_imag, h3, roundBinary64_sum_squares]

/-! ## The claims -/

/-- C1: in every arithmetic of `double`, `escapeTime` returns
`maxIterations - k` for the least index `k < maxIterations` such that the
`(k+1)`-th iterate of the step `z' = (zr^2 - zi^2 + cr, 2*zr*zi + ci)` has a
squared magnitude that passes the test `>= 4`, and `0` when none of the first
`maxIterations` iterates does; the orbit starts at `(0, 0)` with the point as
constant for the Mandelbrot kind and at the point with the Julia constant for
the Julia kind.  The iterates and the squared magnitude are those that the
arithmetic computes. -/
theorem escapeTime_countdown {α : Type} (A : arith α) (maxIterations : Int)
    (h : 1 ≤ maxIterations) (p : tComplexF α) (calcSet : calcSettingsF α) :
    (∀ k : Nat, (k : Int) < maxIterations →
        A.ge (A.sqMag (A.specOrbit calcSet p (k + 1))) A.four = true →
        (∀ j : Nat, j < k → A.ge (A.sqMag (A.specOrbit calcSet p (j + 1))) A.four = false) →
        A.escapeTime maxIterations p calcSet = maxIterations - (k : Int)) ∧
    ((∀ k : Nat, (k : Int) < maxIterations →
        A.ge (A.sqMag (A.specOrbit calcSet p (k + 1))) A.four = false) →
      A.escapeTime maxIterations p calcSet = 0) := by
  have hcast : ((maxIterations.toNat : Nat) : Int) = maxIterations :=
    Int.toNat_of_nonneg (by omega)
  constructor
  · intro k hk hesc hno
    rw [arith_escapeTime_eq_loop]
    rw [arith_specOrbit_eq] at hesc
    have := arith_escapeLoop_first A _ k maxIterations.toNat _ (by omega) hesc
      (fun j hj => by rw [← arith_specOrbit_eq]; exact hno j hj)
    rw [this, hcast]
  · intro hno
    rw [arith_escapeTime_eq_loop]
    exact arith_escapeLoop_none A _ _ _ (fun k hk => by
      rw [← arith_specOrbit_eq]; exact hno k (by omega))

/-- Witness of C1 in binary64: the point `(1.75, 0.9682458365518541)` passes
the test at index `0` with budget `50`, its rounded squared magnitude being
four, so `escapeTime` returns `50 - 0`. -/
theorem escapeTime_countdown_witness :
    (1 : Int) ≤ 50 ∧
    binary64.toArith.ge (binary64.toArith.sqMag (binary64.toArith.specOrbit
      { juliaFlag := 0, juliaConstant := { real := 0, imag := 0 } }
      { real := 7 / 4, imag := 8721183177395929 / 9007199254740992 } (0 + 1)))
      binary64.toArith.four = true ∧
    binary64.toArith.escapeTime 50
      { real := 7 / 4, imag := 8721183177395929 / 9007199254740992 }
      { juliaFlag := 0, juliaConstant := { real := 0, imag := 0 } } =
        50 - ((0 : Nat) : Int) :=
  have hesc : binary64.toArith.ge (binary64.toArith.sqMag (binary64.toArith.specOrbit
      { juliaFlag := 0, juliaConstant := { real := 0, imag := 0 } }
      { real := 7 / 4, imag := 8721183177395929 / 9007199254740992 } (0 + 1)))
      binary64.toArith.four = true := by
    have hstep : binary64.toArith.specOrbit
        { juliaFlag := 0, juliaConstant := { real := 0, imag := 0 } }
        { real := 7 / 4, imag := 8721183177395929 / 9007199254740992 } (0 + 1) =
        { real := 7 / 4, imag := 8721183177395929 / 9007199254740992 } :=
      binary64_first_step
    rw [hstep, binary64_sqMag_boundary]
    simp [rounding.toArith]
  ⟨by decide, hesc,
    (escapeTime_countdown binary64.toArith 50 (by decide)
      { real := 7 / 4, imag := 8721183177395929 / 9007199254740992 }
      { juliaFlag := 0, juliaConstant := { real := 0, imag := 0 } }).1 0 (by decide) hesc
      (fun j hj => absurd hj (Nat.not_lt_zero j))⟩

/-- C2: for every `maxIterations >= 1`, every point and both fractal kinds,
`escapeTime` returns an integer between `0` and `maxIterations`. -/
theorem escapeTime_range (maxIterations : Int) (h : 1 ≤ maxIterations)
    (p : tComplex) (calcSet : calcSettings) :
    0 ≤ escapeTime maxIterations p calcSet ∧
      escapeTime maxIterations p calcSet ≤ maxIterations := by
  have hcast : ((maxIterations.toNat : Nat) : Int) = maxIterations :=
    Int.toNat_of_nonneg (by omega)
  rw [escapeTime_eq_loop]
  have := escapeLoop_range (specConstant calcSet p) maxIterations.toNat (specStart calcSet p)
  rw [hcast] at this
  exact this

/-- Witness of C2 at budget `360` (the default), a Julia point. -/
theorem escapeTime_range_witness :
    (1 : Int) ≤ 360 ∧
    (0 ≤ escapeTime 360 { real := 1 / 2, imag := 1 / 3 }
        { juliaFlag := 1, juliaConstant := { real := -4 / 5, imag := 39 / 250 } } ∧
      escapeTime 360 { real := 1 / 2, imag := 1 / 3 }
        { juliaFlag := 1, juliaConstant := { real := -4 / 5, imag := 39 / 250 } } ≤ 360) :=
  ⟨by decide, escapeTime_range 360 (by decide) _ _⟩

/-- C3: in every arithmetic of `double`, for every `n >= 1` and every point
`c`, in Mandelbrot mode `escapeTime n c = n` exactly when the squared
magnitude of `mandelbrot(c, (0,0))` passes the test `>= 4`.  The first step
from `(0, 0)` returns the coordinates of `c` (up to the sign of a zero, so
with the same squares), and then this is exactly when
`c.real*c.real + c.imag*c.imag`, as the arithmetic computes it, passes the
test.  The point `(-2, 0)` returns `n` under every rounding that keeps the
numbers `0`, `-2` and `4`. -/
theorem escapeTime_mandelbrot_first {α : Type} (A : arith α) (n : Int) (h : 1 ≤ n)
    (c : tComplexF α) (calcSet : calcSettingsF α) (hkind : calcSet.juliaFlag = 0) :
    (A.escapeTime n c calcSet = n ↔
        A.ge (A.sqMag (A.mandelbrot c { real := A.zero, imag := A.zero })) A.four = true) ∧
    (A.mul (A.mandelbrot c { real := A.zero, imag := A.zero }).real
          (A.mandelbrot c { real := A.zero, imag := A.zero }).real = A.mul c.real c.real →
      A.mul (A.mandelbrot c { real := A.zero, imag := A.zero }).imag
          (A.mandelbrot c { real := A.zero, imag := A.zero }).imag = A.mul c.imag c.imag →
      (A.escapeTime n c calcSet = n ↔
        A.ge (A.add (A.mul c.real c.real) (A.mul c.imag c.imag)) A.four = true)) ∧
    (∀ R : rounding, R.rnd 0 = 0 → R.rnd (-2) = -2 → R.rnd 4 = 4 →
      R.toArith.escapeTime n { real := -2, imag := 0 }
        { juliaFlag := 0, juliaConstant := { real := 0, imag := 0 } } = n) := by
  have hcast : ((n.toNat : Nat) : Int) = n := Int.toNat_of_nonneg (by omega)
  have hloop : ∀ {β : Type} (B : arith β) (q : tComplexF β) (s : calcSettingsF β),
      s.juliaFlag = 0 →
      (B.escapeTime n q s = n ↔
        B.ge (B.sqMag (B.mandelbrot q { real := B.zero, imag := B.zero })) B.four = true) := by
    intro β B q s hs
    have := arith_escapeLoop_eq_budget B q { real := B.zero, imag := B.zero } n.toNat
      (by omega)
    rw [hcast] at this
    simpa [arith.escapeTime, hs] using this
  refine ⟨hloop A c calcSet hkind, ?_, ?_⟩
  · intro hreal himag
    rw [hloop A c calcSet hkind]
    unfold arith.sqMag
    rw [hreal, himag]
  · intro R h0 h2 h4
    rw [hloop R.toArith _ _ rfl]
    have hm0 : R.rnd (0 * 0) = 0 := by rw [mul_zero]; exact h0
    have hs0 : R.rnd (0 - 0) = 0 := by rw [sub_zero]; exact h0
    have ha2 : R.rnd (0 + -2) = -2 := by rw [zero_add]; exact h2
    have hm2 : R.rnd (2 * 0) = 0 := by rw [mul_zero]; exact h0
    have ha0 : R.rnd (0 + 0) = 0 := by rw [add_zero]; exact h0
    have hsq : R.rnd (-2 * -2) = 4 := by
      have : (-2 : ℚ) * -2 = 4 := by norm_num
      rw [this]; exact h4
    have h40 : R.rnd (4 + 0) = 4 := by rw [add_zero]; exact h4
    simp only [arith.sqMag, arith.mandelbrot, rounding.toArith, rounding.add, rounding.sub,
      rounding.mul, hm0, hs0, ha2, hm2, ha0, hsq, h40]
    simp

/-- Witness of C3 in binary64 at `n = 50` and the point
`(1.75, 0.9682458365518541)`, whose rounded squared magnitude is four: the
first step returns the point, the test passes and `escapeTime` returns `50`. -/
theorem escapeTime_mandelbrot_first_witness :
    (1 : Int) ≤ 50 ∧
    (binary64.toArith.escapeTime 50
        { real := 7 / 4, imag := 8721183177395929 / 9007199254740992 }
        { juliaFlag := 0, juliaConstant := { real := 0, imag := 0 } } = 50 ↔
      binary64.toArith.ge
        (binary64.toArith.add
          (binary64.toArith.mul (7 / 4) (7 / 4))
          (binary64.toArith.mul (8721183177395929 / 9007199254740992)
            (8721183177395929 / 9007199254740992)))
        binary64.toArith.four = true) ∧
    binary64.toArith.ge
        (binary64.toArith.add
          (binary64.toArith.mul (7 / 4) (7 / 4))
          (binary64.toArith.mul (8721183177395929 / 9007199254740992)
            (8721183177395929 / 9007199254740992)))
        binary64.toArith.four = true :=
  ⟨by decide,
    (escapeTime_mandelbrot_first binary64.toArith 50 (by decide)
      { real := 7 / 4, imag := 8721183177395929 / 9007199254740992 }
      { juliaFlag := 0, juliaConstant := { real := 0, imag := 0 } } rfl).2.1
      (by rw [binary64_first_step]) (by rw [binary64_first_step]),
    by
      have := binary64_sqMag_boundary
      unfold arith.sqMag at this
      simp only at this
      rw [this]
      simp [rounding.toArith]⟩

/-- C4: in every arithmetic of `double`, in Julia mode with constant `k` the
loop runs from the input point `p` with step constant `k`: for every
`n >= 1`, `escapeTime n p = n` exactly when the squared magnitude of
`mandelbrot(k, p)` passes the test `>= 4`; `mandelbrot(k, p)` is the step of
the specification at `p` with the constant `k`, which over exact arithmetic
is the complex number `p^2 + k`; the result is that of the loop from `p` with
the constant `k`, whatever the point. -/
theorem escapeTime_julia_first {α : Type} (A : arith α) (n : Int) (h : 1 ≤ n)
    (p : tComplexF α) (calcSet : calcSettingsF α) (hkind : calcSet.juliaFlag ≠ 0) :
    (A.escapeTime n p calcSet = n ↔
      A.ge (A.sqMag (A.mandelbrot calcSet.juliaConstant p)) A.four = true) ∧
    A.mandelbrot calcSet.juliaConstant p = A.specStep calcSet.juliaConstant p ∧
    (∀ q k : tComplex,
      (((noRounding.toArith.sqMag (noRounding.toArith.specStep k.toF q.toF) : ℚ)) : ℝ) =
        Complex.normSq
          ((Complex.mk (q.real : ℝ) (q.imag : ℝ)) ^ 2 +
            Complex.mk (k.real : ℝ) (k.imag : ℝ))) ∧
    A.escapeTime n p calcSet = A.escapeLoop calcSet.juliaConstant n.toNat p ∧
    (∀ j : Nat, A.specOrbit calcSet p j = (A.mandelbrot calcSet.juliaConstant)^[j] p) := by
  have hcast : ((n.toNat : Nat) : Int) = n := Int.toNat_of_nonneg (by omega)
  have hloop : A.escapeTime n p calcSet = A.escapeLoop calcSet.juliaConstant n.toNat p := by
    simp [arith.escapeTime, hkind]
  refine ⟨?_, rfl, ?_, hloop, ?_⟩
  · have := arith_escapeLoop_eq_budget A calcSet.juliaConstant p n.toNat (by omega)
    rw [hcast] at this
    rw [hloop]
    exact this
  · intro q k
    simp only [Complex.normSq_apply, pow_two, Complex.add_re, Complex.add_im,
      Complex.mul_re, Complex.mul_im, arith.sqMag, arith.specStep, rounding.toArith,
      rounding.add, rounding.sub, rounding.mul, noRounding, tComplex.toF]
    push_cast
    ring
  · intro j
    rw [arith_specOrbit_eq]
    simp [hkind]

/-- Witness of C4 in binary64 at `n = 50`, `p = (2, 1)` and a Julia
constant. -/
theorem escapeTime_julia_first_witness :
    (1 : Int) ≤ 50 ∧ (1 : Int) ≠ 0 ∧
    (binary64.toArith.escapeTime 50 { real := 2, imag := 1 }
        { juliaFlag := 1, juliaConstant := { real := -1, imag := 1 / 4 } } = 50 ↔
      binary64.toArith.ge
        (binary64.toArith.sqMag
          (binary64.toArith.mandelbrot { real := -1, imag := 1 / 4 } { real := 2, imag := 1 }))
        binary64.toArith.four = true) :=
  ⟨by decide, by decide,
    (escapeTime_julia_first binary64.toArith 50 (by decide) { real := 2, imag := 1 }
      { juliaFlag := 1, juliaConstant := { real := -1, imag := 1 / 4 } }
      (by decide)).1⟩

/-- C5: for every colour setting, `escapeColor` maps the escape value `0` to
the black pixel `(0, 0, 0)`. -/
theorem escapeColor_zero (pow : ℚ → ℚ → ℚ) (color : colorSettings) :
    escapeColor pow 0 color = { r := 0, g := 0, b := 0 } := by
  simp [escapeColor]

/-! ## Lemmas on the sink -/

theorem targaWritePixel_RGB24_eq (pixel : tRGB) (file : List Nat) :
    targaWritePixel_RGB24 pixel file = file ++ pixelBytes pixel := by
  simp [targaWritePixel_RGB24, fputc, pixelBytes]

theorem targaWriteHeader_RGB24_eq (width height : Nat) (file : List Nat) :
    targaWriteHeader_RGB24 width height file =
      file ++ targaWriteHeader_RGB24 width height [] := by
  simp [targaWriteHeader_RGB24, fputc]

theorem targaWriteHeader_RGB24_length (width height : Nat) :
    (targaWriteHeader_RGB24 width height []).length = 18 := by
  simp [targaWriteHeader_RGB24, fputc]

/-- A loop whose body appends to the sink appends the concatenation of what
the iterations append. -/
theorem foldl_write {α : Type} (l : List α) (w : List Nat → α → List Nat)
    (g : α → List Nat) (hw : ∀ file, ∀ a ∈ l, w file a = file ++ g a)
    (file : List Nat) : l.foldl w file = file ++ l.flatMap g := by
  induction l generalizing file with
  | nil => simp
  | cons a l ih =>
    rw [List.foldl_cons, hw file a (List.mem_cons_self a l),
      ih (fun f b hb => hw f b (List.mem_cons_of_mem a hb))]
    simp

/-- Rows handed out round-robin and visited local row by local row are the
global rows in ascending order. -/
theorem flatMap_interlace (g : Nat → List Nat) (threadCount : Nat) :
    ∀ miniHeight : Nat,
      (List.range miniHeight).flatMap
          (fun y => (List.range threadCount).flatMap (fun i => g (y * threadCount + i))) =
        (List.range (miniHeight * threadCount)).flatMap g := by
  intro miniHeight
  induction miniHeight with
  | zero => simp
  | succ n ih =>
    rw [List.range_succ, List.flatMap_append, ih, Nat.succ_mul, List.range_add,
      List.flatMap_append, List.flatMap_map]
    simp

theorem rowBytes_length (pow : ℚ → ℚ → ℚ) (renderInput : renderSettings) (y : Nat) :
    (rowBytes pow renderInput y).length = 3 * renderInput.draw.width := by
  unfold rowBytes
  generalize renderInput.draw.width = w
  induction w with
  | zero => simp
  | succ n ih =>
    rw [List.range_succ, List.flatMap_append, List.length_append, ih]
    simp [pixelBytes]
    omega

theorem rowsBytes_length (pow : ℚ → ℚ → ℚ) (renderInput : renderSettings) (rows : Nat) :
    (rowsBytes pow renderInput rows).length = 3 * (renderInput.draw.width * rows) := by
  unfold rowsBytes
  induction rows with
  | zero => simp
  | succ n ih =>
    rw [List.range_succ, List.flatMap_append, List.length_append, ih]
    simp [rowBytes_length]
    ring

/-- The bytes of the first `n` rows are a prefix of the bytes of the first
`rows` rows. -/
theorem rowsBytes_take (pow : ℚ → ℚ → ℚ) (renderInput : renderSettings)
    (n rows : Nat) (h : n ≤ rows) :
    (rowsBytes pow renderInput rows).take (3 * (renderInput.draw.width * n)) =
      rowsBytes pow renderInput n := by
  obtain ⟨d, rfl⟩ : ∃ d, rows = n + d := ⟨rows - n, by omega⟩
  have hsplit : rowsBytes pow renderInput (n + d) =
      rowsBytes pow renderInput n ++
        (List.map (fun x => n + x) (List.range d)).flatMap (rowBytes pow renderInput) := by
    unfold rowsBytes
    rw [List.range_add, List.flatMap_append]
  rw [hsplit]
  exact List.take_left' (rowsBytes_length pow renderInput n)

/-! ## Lemmas on the image memory -/

/-- A run of stores leaves a cell that no store addresses unchanged. -/
theorem foldl_update_other {α β : Type} (l : List α) (key : α → Nat) (val : α → β)
    (d : Nat → β) (n : Nat) (h : ∀ a ∈ l, key a ≠ n) :
    (l.foldl (fun d a => Function.update d (key a) (val a)) d) n = d n := by
  induction l generalizing d with
  | nil => rfl
  | cons b l ih =>
    rw [List.foldl_cons, ih _ (fun a ha => h a (List.mem_cons_of_mem b ha))]
    exact Function.update_noteq (fun hb => h b (List.mem_cons_self b l) hb.symm) _ _

/-- After a run of stores in which stores to the same cell store the same
value, every addressed cell holds the value stored to it. -/
theorem foldl_update_mem {α β : Type} (l : List α) (key : α → Nat) (val : α → β)
    (d : Nat → β) (hsame : ∀ a ∈ l, ∀ b ∈ l, key a = key b → val a = val b) :
    ∀ a ∈ l, (l.foldl (fun d a => Function.update d (key a) (val a)) d) (key a) = val a := by
  induction l generalizing d with
  | nil => intro a ha; simp at ha
  | cons b l ih =>
    intro a ha
    rw [List.foldl_cons]
    have hsame' : ∀ a ∈ l, ∀ c ∈ l, key a = key c → val a = val c :=
      fun a ha c hc => hsame a (List.mem_cons_of_mem b ha) c (List.mem_cons_of_mem b hc)
    by_cases hex : ∃ c ∈ l, key c = key a
    · obtain ⟨c, hc, hkey⟩ := hex
      have hval : val c = val a :=
        hsame c (List.mem_cons_of_mem b hc) a ha hkey
      rw [← hkey, ih _ hsame' c hc, hval]
    · have hne : ∀ c ∈ l, key c ≠ key a := fun c hc hk => hex ⟨c, hc, hk⟩
      rw [foldl_update_other l key val _ (key a) hne]
      have hab : a = b := by
        rcases List.mem_cons.mp ha with h | h
        · exact h
        · exact absurd rfl (hne a h)
      rw [hab]
      exact Function.update_same _ _ _

/-- A run of writes `image[x][y] = v x y` keeps the column table and stores
into the pixel data. -/
theorem foldl_set_eq (l : List (Nat × Nat)) (v : Nat → Nat → tRGB) (image : tImage) :
    l.foldl (fun image q => image.set q.1 q.2 (v q.1 q.2)) image =
      { table := image.table
        data := l.foldl
          (fun d q => Function.update d (image.table q.1 + q.2) (v q.1 q.2)) image.data } := by
  induction l generalizing image with
  | nil => rfl
  | cons q l ih =>
    rw [List.foldl_cons, ih]
    rfl

/-- The two nested loops over rows and columns visit the pixels in the
order of the list of the coordinate pairs. -/
theorem foldl_nested {σ : Type} (f : σ → Nat → Nat → σ) (cols : List Nat) (rows : List Nat)
    (s : σ) :
    rows.foldl (fun s y => cols.foldl (fun s x => f s x y) s) s =
      (rows.flatMap (fun y => cols.map (fun x => (x, y)))).foldl
        (fun s q => f s q.1 q.2) s := by
  induction rows generalizing s with
  | nil => rfl
  | cons y rows ih =>
    rw [List.foldl_cons, ih, List.flatMap_cons, List.foldl_append, List.foldl_map]

/-- The cell index `x * height + y` determines the pixel `(x, y)` when
`y < height`. -/
theorem cell_injective (height x y x' y' : Nat) (hy : y < height) (hy' : y' < height)
    (h : x * height + y = x' * height + y') : x = x' ∧ y = y' := by
  have hx : x = x' := by
    rcases Nat.lt_trichotomy x x' with hlt | heq | hgt
    · exfalso
      have : (x + 1) * height ≤ x' * height := Nat.mul_le_mul_right height hlt
      rw [Nat.succ_mul] at this
      omega
    · exact heq
    · exfalso
      have : (x' + 1) * height ≤ x * height := Nat.mul_le_mul_right height hgt
      rw [Nat.succ_mul] at this
      omega
  subst hx
  exact ⟨rfl, by omega⟩

/-- The fill loops of the renderers: when column `k` of the image starts at
cell `k * height`, the filled image has the same column table and holds
`v x y` at `image[x][y]` for every pixel of the grid. -/
theorem fill_get (v : Nat → Nat → tRGB) (width height : Nat) (image : tImage)
    (htable : ∀ k, k < width → image.table k = k * height) :
    ((List.range height).foldl
        (fun image y => (List.range width).foldl
          (fun image x => image.set x y (v x y)) image) image).table = image.table ∧
    ∀ x y, x < width → y < height →
      ((List.range height).foldl
        (fun image y => (List.range width).foldl
          (fun image x => image.set x y (v x y)) image) image).get x y = v x y := by
  have hflat := foldl_nested (fun image x y => tImage.set image x y (v x y))
    (List.range width) (List.range height) image
  simp only at hflat
  rw [hflat, foldl_set_eq]
  refine ⟨rfl, ?_⟩
  intro x y hx hy
  simp only [tImage.get]
  have hmem : (x, y) ∈ (List.range height).flatMap
      (fun y => (List.range width).map (fun x => (x, y))) := by
    simp only [List.mem_flatMap, List.mem_map, List.mem_range]
    exact ⟨y, hy, x, hx, rfl⟩
  apply foldl_update_mem _ (fun q : Nat × Nat => image.table q.1 + q.2)
    (fun q : Nat × Nat => v q.1 q.2) image.data _ (x, y) hmem
  intro a ha b hb hkey
  simp only [List.mem_flatMap, List.mem_map, List.mem_range] at ha hb
  obtain ⟨ya, hya, xa, hxa, rfl⟩ := ha
  obtain ⟨yb, hyb, xb, hxb, rfl⟩ := hb
  simp only [htable xa hxa, htable xb hxb] at hkey
  obtain ⟨h1, h2⟩ := cell_injective height xa ya xb yb hya hyb hkey
  rw [h1, h2]

/-- A successful `targaAllocateImage` returns an image whose column `k`
starts at cell `k * height`, and logs the two allocations. -/
theorem targaAllocateImage_succeeds (alloc : allocOracle) (i width height : Nat)
    (heap : List memEvent) (hok : alloc.succeeds) :
    ∃ image, targaAllocateImage alloc i width height heap =
        (some image,
          heap ++ [memEvent.malloc (memBlock.table i), memEvent.malloc (memBlock.data i)]) ∧
      ∀ k, k < width → image.table k = k * height := by
  obtain ⟨h1, h2⟩ := hok
  refine ⟨tImage.mk ((List.range width).foldl
      (fun t k => Function.update t k (k * height)) alloc.tableInit) alloc.dataInit, ?_, ?_⟩
  · simp [targaAllocateImage, h1, h2]
  · intro k hk
    exact foldl_update_mem (List.range width) (fun k => k) (fun k => k * height)
      alloc.tableInit (fun a _ b _ hab => by simp only at hab; rw [hab]) k
      (List.mem_range.mpr hk)

/-! ## What each renderer writes -/

/-- The function `targaWriteImage_RGB24` appends the header and then the
pixels of the image row by row. -/
theorem targaWriteImage_RGB24_eq (image : tImage) (width height : Nat) (file : List Nat)
    (v : Nat → Nat → tRGB)
    (hget : ∀ x y, x < width → y < height → image.get x y = v x y) :
    targaWriteImage_RGB24 image width height file =
      file ++ targaWriteHeader_RGB24 width height [] ++
        (List.range height).flatMap
          (fun y => (List.range width).flatMap (fun x => pixelBytes (v x y))) := by
  unfold targaWriteImage_RGB24
  simp only
  rw [targaWriteHeader_RGB24_eq]
  apply foldl_write
  intro f y hy
  apply foldl_write
  intro f' x hx
  rw [targaWritePixel_RGB24_eq, hget x y (List.mem_range.mp hx) (List.mem_range.mp hy)]

/-- With a successful allocation the sequential renderer returns `0`, appends
the header and the rows `0 .. height - 1`, and frees what it allocated. -/
theorem renderToTarga_eq (pow : ℚ → ℚ → ℚ) (alloc : allocOracle)
    (renderInput : renderSettings) (m : machine) (hok : alloc.succeeds) :
    renderToTarga pow alloc renderInput m =
      (0, { file := m.file ++
              targaWriteHeader_RGB24 renderInput.draw.width renderInput.draw.height [] ++
              rowsBytes pow renderInput renderInput.draw.height
            heap := m.heap ++
              [memEvent.malloc (memBlock.table 0), memEvent.malloc (memBlock.data 0),
               memEvent.free (memBlock.data 0), memEvent.free (memBlock.table 0)] }) := by
  obtain ⟨image, halloc, htable⟩ := targaAllocateImage_succeeds alloc 0
    renderInput.draw.width renderInput.draw.height m.heap hok
  unfold renderToTarga
  simp only [halloc]
  have hfill := fill_get
    (fun x y => escapePixel pow
      { real := scaleX renderInput.draw x, imag := scaleY renderInput.draw y }
      renderInput.color renderInput.calcSet)
    renderInput.draw.width renderInput.draw.height image htable
  rw [targaWriteImage_RGB24_eq _ _ _ _ _ (fun x y hx hy => hfill.2 x y hx hy)]
  simp [targaDeallocateImage, rowsBytes, rowBytes, pixelAt]
  rfl

/-- The streaming renderer returns `0`, appends the header and the rows
`0 .. height - 1`, and leaves the heap alone. -/
theorem renderToTarga_lowMem_eq (pow : ℚ → ℚ → ℚ) (renderInput : renderSettings)
    (m : machine) :
    renderToTarga_lowMem pow renderInput m =
      (0, { file := m.file ++
              targaWriteHeader_RGB24 renderInput.draw.width renderInput.draw.height [] ++
              rowsBytes pow renderInput renderInput.draw.height
            heap := m.heap }) := by
  unfold renderToTarga_lowMem
  simp only
  rw [targaWriteHeader_RGB24_eq]
  have hloop : ∀ file : List Nat,
      (List.range renderInput.draw.height).foldl
        (fun file y => (List.range renderInput.draw.width).foldl
          (fun file x => targaWritePixel_RGB24
            (escapePixel pow
              { real := scaleX renderInput.draw x, imag := scaleY renderInput.draw y }
              renderInput.color renderInput.calcSet) file) file) file =
        file ++ rowsBytes pow renderInput renderInput.draw.height := by
    intro file
    apply foldl_write
    intro f y _
    apply foldl_write
    intro f' x _
    rw [targaWritePixel_RGB24_eq]
    rfl
  rw [hloop]

/-- When the allocator grants every request, the allocation loop returns the
grids; each grid it allocated has column `k` at cell `k * miniHeight`, and
the grids with a smaller index are kept. -/
theorem allocateThreadImages_succeeds (alloc : Nat → allocOracle)
    (width miniHeight : Nat) :
    ∀ (remaining i : Nat) (threadImages : Nat → tImage) (heap : List memEvent),
      (∀ j, i ≤ j → j < i + remaining → (alloc j).succeeds) →
      ∃ images heap',
        allocateThreadImages alloc width miniHeight remaining i threadImages heap =
          (some images, heap') ∧
        (∀ j, i ≤ j → j < i + remaining →
          ∀ k, k < width → (images j).table k = k * miniHeight) ∧
        (∀ j, j < i → images j = threadImages j) := by
  intro remaining
  induction remaining with
  | zero =>
    intro i threadImages heap _
    exact ⟨threadImages, heap, rfl, fun j h1 h2 => by omega, fun _ _ => rfl⟩
  | succ n ih =>
    intro i threadImages heap hok
    obtain ⟨image, halloc, htable⟩ := targaAllocateImage_succeeds (alloc i) i width
      miniHeight heap (hok i (le_refl i) (by omega))
    obtain ⟨images, heap', hrec, htables, hkeep⟩ := ih (i + 1)
      (Function.update threadImages i image)
      (heap ++ [memEvent.malloc (memBlock.table i), memEvent.malloc (memBlock.data i)])
      (fun j h1 h2 => hok j (by omega) (by omega))
    refine ⟨images, heap', ?_, ?_, ?_⟩
    · simp only [allocateThreadImages, halloc]
      exact hrec
    · intro j h1 h2 k hk
      rcases Nat.eq_or_lt_of_le h1 with heq | hlt
      · subst heq
        rw [hkeep i (Nat.lt_succ_self i), Function.update_same]
        exact htable k hk
      · exact htables j hlt (by omega) k hk
    · intro j hj
      rw [hkeep j (by omega)]
      exact Function.update_noteq (by omega) _ _

/-- A thread leaves the grids of the other threads unchanged. -/
theorem threadBody_other (pow : ℚ → ℚ → ℚ) (renderInput : renderSettings)
    (miniHeight threadID : Nat) (threadImages : Nat → tImage) (j : Nat)
    (hj : j ≠ threadID) :
    threadBody pow renderInput miniHeight threadID threadImages j = threadImages j := by
  unfold threadBody
  exact Function.update_noteq hj _ _

/-- A thread keeps the column table of its grid and stores into
`image[x][y]` the pixel of the global row `y * threadCount + threadID`. -/
theorem threadBody_self (pow : ℚ → ℚ → ℚ) (renderInput : renderSettings)
    (miniHeight threadID : Nat) (threadImages : Nat → tImage)
    (htable : ∀ k, k < renderInput.draw.width →
      (threadImages threadID).table k = k * miniHeight) :
    (threadBody pow renderInput miniHeight threadID threadImages threadID).table =
        (threadImages threadID).table ∧
    ∀ x y, x < renderInput.draw.width → y < miniHeight →
      (threadBody pow renderInput miniHeight threadID threadImages threadID).get x y =
        pixelAt pow renderInput x (y * renderInput.draw.threadCount + threadID) := by
  have hfill := fill_get
    (fun x y => escapePixel pow
      { real := scaleX renderInput.draw x
        imag := scaleY renderInput.draw (y * renderInput.draw.threadCount + threadID) }
      renderInput.color renderInput.calcSet)
    renderInput.draw.width miniHeight (threadImages threadID) htable
  unfold threadBody
  simp only [Function.update_same]
  exact hfill

/-- After the parallel block, the grid of every thread that ran holds the
pixels of its rows, provided every scheduled thread owns an allocated grid. -/
theorem parallelBlock_get (pow : ℚ → ℚ → ℚ) (renderInput : renderSettings)
    (miniHeight : Nat) (good : Nat → Prop) :
    ∀ (order : List Nat) (threadImages : Nat → tImage),
      (∀ i, good i → ∀ k, k < renderInput.draw.width →
        (threadImages i).table k = k * miniHeight) →
      (∀ a ∈ order, good a) →
      ∀ i, good i →
        (i ∈ order ∨ ∀ x y, x < renderInput.draw.width → y < miniHeight →
          (threadImages i).get x y =
            pixelAt pow renderInput x (y * renderInput.draw.threadCount + i)) →
        ∀ x y, x < renderInput.draw.width → y < miniHeight →
          ((order.foldl
            (fun images threadID => threadBody pow renderInput miniHeight threadID images)
            threadImages) i).get x y =
            pixelAt pow renderInput x (y * renderInput.draw.threadCount + i) := by
  intro order
  induction order with
  | nil =>
    intro threadImages _ _ i _ hi
    rcases hi with hmem | hdone
    · simp at hmem
    · exact hdone
  | cons a order ih =>
    intro threadImages htables hgood i hi hcase
    rw [List.foldl_cons]
    have hga : good a := hgood a (List.mem_cons_self a order)
    have hself := threadBody_self pow renderInput miniHeight a threadImages (htables a hga)
    apply ih
    · intro j hj k hk
      by_cases hja : j = a
      · subst hja
        rw [hself.1]
        exact htables j hj k hk
      · rw [threadBody_other pow renderInput miniHeight a threadImages j hja]
        exact htables j hj k hk
    · exact fun b hb => hgood b (List.mem_cons_of_mem a hb)
    · exact hi
    · by_cases hia : i = a
      · subst hia
        exact Or.inr hself.2
      · rw [threadBody_other pow renderInput miniHeight a threadImages i hia]
        rcases hcase with hmem | hdone
        · rcases List.mem_cons.mp hmem with h | h
          · exact absurd h hia
          · exact Or.inl h
        · exact Or.inr hdone

/-- When every allocation succeeds and every thread number below
`threadCount` runs once, the parallel renderer returns `0` and appends the
header for `(width, height)` and the rows `0 .. miniHeight * threadCount - 1`. -/
theorem renderToTarga_parallel_eq (pow : ℚ → ℚ → ℚ) (alloc : Nat → allocOracle)
    (order : List Nat) (renderInput : renderSettings) (m : machine)
    (hok : ∀ i, i < renderInput.draw.threadCount → (alloc i).succeeds)
    (horder : order.Perm (List.range renderInput.draw.threadCount)) :
    (renderToTarga_parallel pow alloc order renderInput m).1 = 0 ∧
    (renderToTarga_parallel pow alloc order renderInput m).2.file =
      m.file ++ targaWriteHeader_RGB24 renderInput.draw.width renderInput.draw.height [] ++
        rowsBytes pow renderInput
          (renderInput.draw.height / renderInput.draw.threadCount *
            renderInput.draw.threadCount) := by
  obtain ⟨images, heap', halloc, htables, _⟩ := allocateThreadImages_succeeds alloc
    renderInput.draw.width (renderInput.draw.height / renderInput.draw.threadCount)
    renderInput.draw.threadCount 0
    (fun _ => { table := fun _ => 0, data := fun _ => { r := 0, g := 0, b := 0 } })
    m.heap (fun j _ h2 => hok j (by omega))
  have hget := parallelBlock_get pow renderInput
    (renderInput.draw.height / renderInput.draw.threadCount)
    (fun i => i < renderInput.draw.threadCount) order images
    (fun i hi k hk => htables i (Nat.zero_le i) (by omega) k hk)
    (fun a ha => List.mem_range.mp ((horder.mem_iff).mp ha))
  unfold renderToTarga_parallel
  simp only [halloc]
  refine ⟨trivial, ?_⟩
  rw [targaWriteHeader_RGB24_eq, rowsBytes, ← flatMap_interlace]
  apply foldl_write
  intro f y hy
  apply foldl_write
  intro f' i hi
  apply foldl_write
  intro f'' x hx
  rw [targaWritePixel_RGB24_eq,
    hget i (List.mem_range.mp hi) (Or.inl ((horder.mem_iff).mpr hi)) x y
      (List.mem_range.mp hx) (List.mem_range.mp hy)]

/-- What follows the existing bytes and the eighteen header bytes. -/
theorem drop_header (old header body : List Nat) (h : header.length = 18) :
    (old ++ header ++ body).drop (old.length + 18) = body := by
  rw [← h, ← List.length_append]
  exact List.drop_left _ _

/-! ## What each renderer writes under a rounding -/

/-- The nested functions `scaleX` and `scaleY` compute, operation by
operation, the point of the pixel. -/
theorem rounding_scale_eq_specPoint (R : rounding) (draw : drawSettings) (x y : Nat) :
    ({ real := R.scaleX draw x, imag := R.scaleY draw y } : tComplex) =
      R.specPoint draw x y := rfl

/-- With a successful allocation the sequential renderer returns `0`, appends
the header and the rows `0 .. height - 1`, and frees what it allocated. -/
theorem rounding_renderToTarga_eq (R : rounding) (pow : ℚ → ℚ → ℚ) (alloc : allocOracle)
    (renderInput : renderSettings) (m : machine) (hok : alloc.succeeds) :
    R.renderToTarga pow alloc renderInput m =
      (0, { file := m.file ++
              targaWriteHeader_RGB24 renderInput.draw.width renderInput.draw.height [] ++
              R.rowsBytes pow renderInput renderInput.draw.height
            heap := m.heap ++
              [memEvent.malloc (memBlock.table 0), memEvent.malloc (memBlock.data 0),
               memEvent.free (memBlock.data 0), memEvent.free (memBlock.table 0)] }) := by
  obtain ⟨image, halloc, htable⟩ := targaAllocateImage_succeeds alloc 0
    renderInput.draw.width renderInput.draw.height m.heap hok
  unfold rounding.renderToTarga
  simp only [halloc]
  have hfill := fill_get
    (fun x y => R.escapePixel pow
      { real := R.scaleX renderInput.draw x, imag := R.scaleY renderInput.draw y }
      renderInput.color renderInput.calcSet)
    renderInput.draw.width renderInput.draw.height image htable
  rw [targaWriteImage_RGB24_eq _ _ _ _ _ (fun x y hx hy => hfill.2 x y hx hy)]
  simp [targaDeallocateImage, rounding.rowsBytes, rounding.pixelAt,
    rounding_scale_eq_specPoint]

/-- The streaming renderer returns `0`, appends the header and the rows
`0 .. height - 1`, and leaves the heap alone. -/
theorem rounding_renderToTarga_lowMem_eq (R : rounding) (pow : ℚ → ℚ → ℚ)
    (renderInput : renderSettings) (m : machine) :
    R.renderToTarga_lowMem pow renderInput m =
      (0, { file := m.file ++
              targaWriteHeader_RGB24 renderInput.draw.width renderInput.draw.height [] ++
              R.rowsBytes pow renderInput renderInput.draw.height
            heap := m.heap }) := by
  unfold rounding.renderToTarga_lowMem
  simp only
  rw [targaWriteHeader_RGB24_eq]
  have hloop : ∀ file : List Nat,
      (List.range renderInput.draw.height).foldl
        (fun file y => (List.range renderInput.draw.width).foldl
          (fun file x => targaWritePixel_RGB24
            (R.escapePixel pow
              { real := R.scaleX renderInput.draw x, imag := R.scaleY renderInput.draw y }
              renderInput.color renderInput.calcSet) file) file) file =
        file ++ R.rowsBytes pow renderInput renderInput.draw.height := by
    intro file
    apply foldl_write
    intro f y _
    apply foldl_write
    intro f' x _
    rw [targaWritePixel_RGB24_eq]
    rfl
  rw [hloop]

/-- A thread leaves the grids of the other threads unchanged. -/
theorem rounding_threadBody_other (R : rounding) (pow : ℚ → ℚ → ℚ)
    (renderInput : renderSettings) (miniHeight threadID : Nat)
    (threadImages : Nat → tImage) (j : Nat) (hj : j ≠ threadID) :
    R.threadBody pow renderInput miniHeight threadID threadImages j = threadImages j := by
  unfold rounding.threadBody
  exact Function.update_noteq hj _ _

/-- A thread keeps the column table of its grid and stores into
`image[x][y]` the pixel of the global row `y * threadCount + threadID`. -/
theorem rounding_threadBody_self (R : rounding) (pow : ℚ → ℚ → ℚ)
    (renderInput : renderSettings) (miniHeight threadID : Nat)
    (threadImages : Nat → tImage)
    (htable : ∀ k, k < renderInput.draw.width →
      (threadImages threadID).table k = k * miniHeight) :
    (R.threadBody pow renderInput miniHeight threadID threadImages threadID).table =
        (threadImages threadID).table ∧
    ∀ x y, x < renderInput.draw.width → y < miniHeight →
      (R.threadBody pow renderInput miniHeight threadID threadImages threadID).get x y =
        R.pixelAt pow renderInput x (y * renderInput.draw.threadCount + threadID) := by
  have hfill := fill_get
    (fun x y => R.escapePixel pow
      { real := R.scaleX renderInput.draw x
        imag := R.scaleY renderInput.draw (y * renderInput.draw.threadCount + threadID) }
      renderInput.color renderInput.calcSet)
    renderInput.draw.width miniHeight (threadImages threadID) htable
  unfold rounding.threadBody
  simp only [Function.update_same]
  exact hfill

/-- After the parallel block, the grid of every thread that ran holds the
pixels of its rows, provided every scheduled thread owns an allocated grid. -/
theorem rounding_parallelBlock_get (R : rounding) (pow : ℚ → ℚ → ℚ)
    (renderInput : renderSettings) (miniHeight : Nat) (good : Nat → Prop) :
    ∀ (order : List Nat) (threadImages : Nat → tImage),
      (∀ i, good i → ∀ k, k < renderInput.draw.width →
        (threadImages i).table k = k * miniHeight) →
      (∀ a ∈ order, good a) →
      ∀ i, good i →
        (i ∈ order ∨ ∀ x y, x < renderInput.draw.width → y < miniHeight →
          (threadImages i).get x y =
            R.pixelAt pow renderInput x (y * renderInput.draw.threadCount + i)) →
        ∀ x y, x < renderInput.draw.width → y < miniHeight →
          ((order.foldl
            (fun images threadID => R.threadBody pow renderInput miniHeight threadID images)
            threadImages) i).get x y =
            R.pixelAt pow renderInput x (y * renderInput.draw.threadCount + i) := by
  intro order
  induction order with
  | nil =>
    intro threadImages _ _ i _ hi
    rcases hi with hmem | hdone
    · simp at hmem
    · exact hdone
  | cons a order ih =>
    intro threadImages htables hgood i hi hcase
    rw [List.foldl_cons]
    have hga : good a := hgood a (List.mem_cons_self a order)
    have hself := rounding_threadBody_self R pow renderInput miniHeight a threadImages
      (htables a hga)
    apply ih
    · intro j hj k hk
      by_cases hja : j = a
      · subst hja
        rw [hself.1]
        exact htables j hj k hk
      · rw [rounding_threadBody_other R pow renderInput miniHeight a threadImages j hja]
        exact htables j hj k hk
    · exact fun b hb => hgood b (List.mem_cons_of_mem a hb)
    · exact hi
    · by_cases hia : i = a
      · subst hia
        exact Or.inr hself.2
      · rw [rounding_threadBody_other R pow renderInput miniHeight a threadImages i hia]
        rcases hcase with hmem | hdone
        · rcases List.mem_cons.mp hmem with h | h
          · exact absurd h hia
          · exact Or.inl h
        · exact Or.inr hdone

/-- When every allocation succeeds and every thread number below
`threadCount` runs once, the parallel renderer returns `0` and appends the
header for `(width, height)` and, local row by local row and thread by
thread, the pixels of the global rows `localY * threadCount + threadID`. -/
theorem rounding_renderToTarga_parallel_eq (R : rounding) (pow : ℚ → ℚ → ℚ)
    (alloc : Nat → allocOracle) (order : List Nat) (renderInput : renderSettings)
    (m : machine)
    (hok : ∀ i, i < renderInput.draw.threadCount → (alloc i).succeeds)
    (horder : order.Perm (List.range renderInput.draw.threadCount)) :
    (R.renderToTarga_parallel pow alloc order renderInput m).1 = 0 ∧
    (R.renderToTarga_parallel pow alloc order renderInput m).2.file =
      m.file ++ targaWriteHeader_RGB24 renderInput.draw.width renderInput.draw.height [] ++
        (List.range (renderInput.draw.height / renderInput.draw.threadCount)).flatMap
          (fun localY => (List.range renderInput.draw.threadCount).flatMap
            (fun threadID => (List.range renderInput.draw.width).flatMap
              (fun x => pixelBytes (R.pixelAt pow renderInput x
                (localY * renderInput.draw.threadCount + threadID))))) := by
  obtain ⟨images, heap', halloc, htables, _⟩ := allocateThreadImages_succeeds alloc
    renderInput.draw.width (renderInput.draw.height / renderInput.draw.threadCount)
    renderInput.draw.threadCount 0
    (fun _ => { table := fun _ => 0, data := fun _ => { r := 0, g := 0, b := 0 } })
    m.heap (fun j _ h2 => hok j (by omega))
  have hget := rounding_parallelBlock_get R pow renderInput
    (renderInput.draw.height / renderInput.draw.threadCount)
    (fun i => i < renderInput.draw.threadCount) order images
    (fun i hi k hk => htables i (Nat.zero_le i) (by omega) k hk)
    (fun a ha => List.mem_range.mp ((horder.mem_iff).mp ha))
  unfold rounding.renderToTarga_parallel
  simp only [halloc]
  refine ⟨trivial, ?_⟩
  rw [targaWriteHeader_RGB24_eq]
  apply foldl_write
  intro f y hy
  apply foldl_write
  intro f' i hi
  apply foldl_write
  intro f'' x hx
  rw [targaWritePixel_RGB24_eq,
    hget i (List.mem_range.mp hi) (Or.inl ((horder.mem_iff).mpr hi)) x y
      (List.mem_range.mp hx) (List.mem_range.mp hy)]

/-! ## The rational model is the model without rounding -/

theorem noRounding_escapeColor (pow : ℚ → ℚ → ℚ) (e : Int) (color : colorSettings) :
    noRounding.escapeColor pow e color = escapeColor pow e color := by
  simp only [rounding.escapeColor, escapeColor, noRounding, rounding.add, rounding.sub,
    rounding.mul, rounding.div]

theorem noRounding_escapePixel (pow : ℚ → ℚ → ℚ) (c : tComplex) (color : colorSettings)
    (calcSet : calcSettings) :
    noRounding.escapePixel pow c color calcSet = escapePixel pow c color calcSet := by
  simp only [rounding.escapePixel, escapePixel, noRounding_escapeTime, noRounding_escapeColor]

theorem noRounding_scaleX (draw : drawSettings) (x : Nat) :
    noRounding.scaleX draw x = scaleX draw x := rfl

theorem noRounding_scaleY (draw : drawSettings) (y : Nat) :
    noRounding.scaleY draw y = scaleY draw y := rfl

theorem noRounding_renderToTarga (pow : ℚ → ℚ → ℚ) (alloc : allocOracle)
    (renderInput : renderSettings) (m : machine) :
    noRounding.renderToTarga pow alloc renderInput m =
      renderToTarga pow alloc renderInput m := by
  simp only [rounding.renderToTarga, renderToTarga, noRounding_escapePixel,
    noRounding_scaleX, noRounding_scaleY]

theorem noRounding_renderToTarga_lowMem (pow : ℚ → ℚ → ℚ) (renderInput : renderSettings)
    (m : machine) :
    noRounding.renderToTarga_lowMem pow renderInput m =
      renderToTarga_lowMem pow renderInput m := by
  simp only [rounding.renderToTarga_lowMem, renderToTarga_lowMem, noRounding_escapePixel,
    noRounding_scaleX, noRounding_scaleY]

theorem noRounding_threadBody (pow : ℚ → ℚ → ℚ) (renderInput : renderSettings)
    (miniHeight threadID : Nat) (threadImages : Nat → tImage) :
    noRounding.threadBody pow renderInput miniHeight threadID threadImages =
      threadBody pow renderInput miniHeight threadID threadImages := by
  simp only [rounding.threadBody, threadBody, noRounding_escapePixel,
    noRounding_scaleX, noRounding_scaleY]

theorem noRounding_renderToTarga_parallel (pow : ℚ → ℚ → ℚ) (alloc : Nat → allocOracle)
    (order : List Nat) (renderInput : renderSettings) (m : machine) :
    noRounding.renderToTarga_parallel pow alloc order renderInput m =
      renderToTarga_parallel pow alloc order renderInput m := by
  simp only [rounding.renderToTarga_parallel, renderToTarga_parallel, noRounding_threadBody]

/-! ## The claims on the renderers -/

/-- C6: in the end-to-end scenario the pixel `(0, 0)` maps to the point
`(-2, 2)`, `escapeTime` returns `50` there, `escapePixel` computes the pixel
`(255, 0, 0)`, and the first pixel that the renderer writes after the header
is that pixel (its bytes in the order blue, green, red). -/
theorem scenario_first_pixel (pow : ℚ → ℚ → ℚ) (alloc : allocOracle)
    (hok : alloc.succeeds) (threadCount : Nat) (lightMax lightDistribution : ℚ)
    (juliaConstant : tComplex) (m : machine) :
    scaleX (scenario threadCount lightMax lightDistribution juliaConstant).draw 0 = -2 ∧
    scaleY (scenario threadCount lightMax lightDistribution juliaConstant).draw 0 = 2 ∧
    escapeTime 50 { real := -2, imag := 2 }
      (scenario threadCount lightMax lightDistribution juliaConstant).calcSet = 50 ∧
    escapePixel pow
      { real := scaleX (scenario threadCount lightMax lightDistribution juliaConstant).draw 0
        imag := scaleY (scenario threadCount lightMax lightDistribution juliaConstant).draw 0 }
      (scenario threadCount lightMax lightDistribution juliaConstant).color
      (scenario threadCount lightMax lightDistribution juliaConstant).calcSet =
        { r := 255, g := 0, b := 0 } ∧
    (((renderToTarga pow alloc
        (scenario threadCount lightMax lightDistribution juliaConstant) m).2.file).drop
      (m.file.length + 18)).take 3 = [0, 0, 255] := by
  have hx : scaleX (scenario threadCount lightMax lightDistribution juliaConstant).draw 0
      = -2 := by
    norm_num [scenario, scaleX, realStart, step]
  have hy : scaleY (scenario threadCount lightMax lightDistribution juliaConstant).draw 0
      = 2 := by
    norm_num [scenario, scaleY, imagStart, step]
  have ht : escapeTime 50 { real := -2, imag := 2 }
      (scenario threadCount lightMax lightDistribution juliaConstant).calcSet = 50 := by
    have h := (escapeLoop_eq_budget { real := -2, imag := 2 } { real := 0, imag := 0 } 50
      (by decide)).mpr (by norm_num [sqMag, mandelbrot])
    simpa [scenario, escapeTime] using h
  have hc : escapeColor pow 50
      (scenario threadCount lightMax lightDistribution juliaConstant).color =
        { r := 255, g := 0, b := 0 } := by
    norm_num [scenario, escapeColor, fmod, fabs, toChannel]
    decide
  have hp : escapePixel pow
      { real := scaleX (scenario threadCount lightMax lightDistribution juliaConstant).draw 0
        imag := scaleY (scenario threadCount lightMax lightDistribution juliaConstant).draw 0 }
      (scenario threadCount lightMax lightDistribution juliaConstant).color
      (scenario threadCount lightMax lightDistribution juliaConstant).calcSet =
        { r := 255, g := 0, b := 0 } := by
    rw [hx, hy]
    unfold escapePixel
    have h50 : (scenario threadCount lightMax lightDistribution juliaConstant).color.maxIterations
        = 50 := rfl
    simp only [h50, ht, hc]
  refine ⟨hx, hy, ht, hp, ?_⟩
  rw [renderToTarga_eq pow alloc _ m hok]
  simp only
  rw [drop_header _ _ _ (targaWriteHeader_RGB24_length _ _)]
  have hrows : rowsBytes pow (scenario threadCount lightMax lightDistribution juliaConstant)
      (scenario threadCount lightMax lightDistribution juliaConstant).draw.height =
      pixelBytes (pixelAt pow
        (scenario threadCount lightMax lightDistribution juliaConstant) 0 0) ++
      ((List.range 3).map (fun x => 1 + x)).flatMap (fun x => pixelBytes (pixelAt pow
        (scenario threadCount lightMax lightDistribution juliaConstant) x 0)) ++
      ((List.range 3).map (fun y => 1 + y)).flatMap
        (rowBytes pow (scenario threadCount lightMax lightDistribution juliaConstant)) := by
    have h4 : (scenario threadCount lightMax lightDistribution juliaConstant).draw.height
        = 1 + 3 := rfl
    rw [rowsBytes, h4, List.range_add, List.flatMap_append]
    congr 1
  rw [hrows]
  have hpix : pixelAt pow (scenario threadCount lightMax lightDistribution juliaConstant) 0 0
      = { r := 255, g := 0, b := 0 } := hp
  rw [hpix]
  rfl

/-- Witness of C6 with the allocator answer `sampleAlloc`. -/
theorem scenario_first_pixel_witness :
    sampleAlloc.succeeds ∧
    (((renderToTarga samplePow sampleAlloc
        (scenario 1 1 4 { real := 0, imag := 0 }) emptyMachine).2.file).drop
      (emptyMachine.file.length + 18)).take 3 = [0, 0, 255] :=
  ⟨⟨rfl, rfl⟩,
    (scenario_first_pixel samplePow sampleAlloc ⟨rfl, rfl⟩ 1 1 4
      { real := 0, imag := 0 } emptyMachine).2.2.2.2⟩

/-- C7: for a valid view, when every allocation succeeds and each of the
`threadCount` threads runs once, the pixel bytes that `renderToTarga_parallel`
writes after the header are the first `width * (height / threadCount) *
threadCount` pixels (three bytes each) that `renderToTarga` writes after the
header; they are the global rows `0, 1, ..., miniHeight * threadCount - 1`
from top to bottom, each row from left to right. -/
theorem parallel_refines_sequential (pow : ℚ → ℚ → ℚ) (allocSeq : allocOracle)
    (allocPar : Nat → allocOracle) (order : List Nat) (renderInput : renderSettings)
    (m : machine) (hvalid : validView renderInput.draw)
    (hseq : allocSeq.succeeds)
    (hpar : ∀ i, i < renderInput.draw.threadCount → (allocPar i).succeeds)
    (horder : order.Perm (List.range renderInput.draw.threadCount)) :
    ((renderToTarga_parallel pow allocPar order renderInput m).2.file).drop
        (m.file.length + 18) =
      (((renderToTarga pow allocSeq renderInput m).2.file).drop (m.file.length + 18)).take
        (3 * (renderInput.draw.width *
          (renderInput.draw.height / renderInput.draw.threadCount) *
          renderInput.draw.threadCount)) ∧
    ((renderToTarga_parallel pow allocPar order renderInput m).2.file).drop
        (m.file.length + 18) =
      rowsBytes pow renderInput
        (renderInput.draw.height / renderInput.draw.threadCount *
          renderInput.draw.threadCount) := by
  obtain ⟨_, _, _, hthreads⟩ := hvalid
  have hle : renderInput.draw.height / renderInput.draw.threadCount *
      renderInput.draw.threadCount ≤ renderInput.draw.height :=
    Nat.div_mul_le_self _ _
  rw [(renderToTarga_parallel_eq pow allocPar order renderInput m hpar horder).2,
    renderToTarga_eq pow allocSeq renderInput m hseq]
  simp only
  rw [drop_header _ _ _ (targaWriteHeader_RGB24_length _ _),
    drop_header _ _ _ (targaWriteHeader_RGB24_length _ _), Nat.mul_assoc,
    rowsBytes_take pow renderInput _ _ hle]
  exact ⟨rfl, rfl⟩

/-- Witness of C7: ten rows on three threads scheduled as `2, 0, 1`. -/
theorem parallel_refines_sequential_witness :
    validView (sampleInput 3).draw ∧ sampleAlloc.succeeds ∧
    [2, 0, 1].Perm (List.range (sampleInput 3).draw.threadCount) ∧
    ((renderToTarga_parallel samplePow (fun _ => sampleAlloc) [2, 0, 1]
        (sampleInput 3) emptyMachine).2.file).drop (emptyMachine.file.length + 18) =
      (((renderToTarga samplePow sampleAlloc (sampleInput 3) emptyMachine).2.file).drop
        (emptyMachine.file.length + 18)).take
        (3 * ((sampleInput 3).draw.width *
          ((sampleInput 3).draw.height / (sampleInput 3).draw.threadCount) *
          (sampleInput 3).draw.threadCount)) :=
  have hvalid : validView (sampleInput 3).draw :=
    ⟨by decide, by decide, by norm_num [sampleInput], by decide⟩
  have horder : [2, 0, 1].Perm (List.range (sampleInput 3).draw.threadCount) := by decide
  ⟨hvalid, ⟨rfl, rfl⟩, horder,
    (parallel_refines_sequential samplePow sampleAlloc (fun _ => sampleAlloc) [2, 0, 1]
      (sampleInput 3) emptyMachine hvalid ⟨rfl, rfl⟩ (fun _ _ => ⟨rfl, rfl⟩) horder).1⟩

/-- C8: for a valid view with `threadCount = 1` and successful allocations,
`renderToTarga_parallel` writes exactly the bytes that `renderToTarga` writes:
the header followed by all pixels. -/
theorem parallel_single_thread (pow : ℚ → ℚ → ℚ) (allocSeq : allocOracle)
    (allocPar : Nat → allocOracle) (order : List Nat) (renderInput : renderSettings)
    (m : machine) (hvalid : validView renderInput.draw)
    (hone : renderInput.draw.threadCount = 1)
    (hseq : allocSeq.succeeds) (hpar : (allocPar 0).succeeds)
    (horder : order.Perm (List.range renderInput.draw.threadCount)) :
    (renderToTarga_parallel pow allocPar order renderInput m).2.file =
      (renderToTarga pow allocSeq renderInput m).2.file := by
  obtain ⟨_, _, _, _⟩ := hvalid
  have hpar' : ∀ i, i < renderInput.draw.threadCount → (allocPar i).succeeds := by
    intro i hi
    have : i = 0 := by omega
    rw [this]
    exact hpar
  rw [(renderToTarga_parallel_eq pow allocPar order renderInput m hpar' horder).2,
    renderToTarga_eq pow allocSeq renderInput m hseq, hone, Nat.div_one, Nat.mul_one]

/-- Witness of C8: ten rows on one thread. -/
theorem parallel_single_thread_witness :
    validView (sampleInput 1).draw ∧ (sampleInput 1).draw.threadCount = 1 ∧
    sampleAlloc.succeeds ∧ [0].Perm (List.range (sampleInput 1).draw.threadCount) ∧
    (renderToTarga_parallel samplePow (fun _ => sampleAlloc) [0] (sampleInput 1)
        emptyMachine).2.file =
      (renderToTarga samplePow sampleAlloc (sampleInput 1) emptyMachine).2.file :=
  have hvalid : validView (sampleInput 1).draw :=
    ⟨by decide, by decide, by norm_num [sampleInput], by decide⟩
  have horder : [0].Perm (List.range (sampleInput 1).draw.threadCount) := by decide
  ⟨hvalid, rfl, ⟨rfl, rfl⟩, horder,
    parallel_single_thread samplePow sampleAlloc (fun _ => sampleAlloc) [0]
      (sampleInput 1) emptyMachine hvalid rfl ⟨rfl, rfl⟩ ⟨rfl, rfl⟩ horder⟩

/-- C10: with `miniHeight = height / threadCount`, a successful
`renderToTarga_parallel` returns `0` and writes, after the header, exactly
`width * miniHeight * threadCount` pixels (three bytes each), namely the
global rows `0 .. miniHeight * threadCount - 1` and no other row; with
`height = 10` and `threadCount = 3` these are the rows `0 .. 8`, so row `9` is
not written. -/
theorem parallel_row_drop (pow : ℚ → ℚ → ℚ) (alloc : Nat → allocOracle)
    (order : List Nat) (renderInput : renderSettings) (m : machine)
    (hvalid : validView renderInput.draw)
    (hok : ∀ i, i < renderInput.draw.threadCount → (alloc i).succeeds)
    (horder : order.Perm (List.range renderInput.draw.threadCount)) :
    (renderToTarga_parallel pow alloc order renderInput m).1 = 0 ∧
    ((renderToTarga_parallel pow alloc order renderInput m).2.file).length =
      m.file.length + 18 +
        3 * (renderInput.draw.width *
          (renderInput.draw.height / renderInput.draw.threadCount) *
          renderInput.draw.threadCount) ∧
    (renderToTarga_parallel pow alloc order renderInput m).2.file =
      m.file ++ targaWriteHeader_RGB24 renderInput.draw.width renderInput.draw.height [] ++
        (List.range (renderInput.draw.height / renderInput.draw.threadCount *
          renderInput.draw.threadCount)).flatMap (rowBytes pow renderInput) ∧
    (∀ y ∈ List.range (renderInput.draw.height / renderInput.draw.threadCount *
          renderInput.draw.threadCount),
      y < renderInput.draw.height / renderInput.draw.threadCount *
          renderInput.draw.threadCount) ∧
    (renderInput.draw.height = 10 → renderInput.draw.threadCount = 3 →
      (renderToTarga_parallel pow alloc order renderInput m).2.file =
        m.file ++ targaWriteHeader_RGB24 renderInput.draw.width 10 [] ++
          [0, 1, 2, 3, 4, 5, 6, 7, 8].flatMap (rowBytes pow renderInput)) := by
  obtain ⟨_, _, _, _⟩ := hvalid
  obtain ⟨hstatus, hfile⟩ := renderToTarga_parallel_eq pow alloc order renderInput m hok horder
  refine ⟨hstatus, ?_, ?_, ?_, ?_⟩
  · rw [hfile, List.length_append, List.length_append, targaWriteHeader_RGB24_length,
      rowsBytes_length, Nat.mul_assoc]
  · rw [hfile]
    rfl
  · intro y hy
    exact List.mem_range.mp hy
  · intro h10 h3
    rw [hfile, h10, h3]
    rfl

/-- Witness of C10: ten rows on three threads. -/
theorem parallel_row_drop_witness :
    validView (sampleInput 3).draw ∧ sampleAlloc.succeeds ∧
    [0, 1, 2].Perm (List.range (sampleInput 3).draw.threadCount) ∧
    (renderToTarga_parallel samplePow (fun _ => sampleAlloc) [0, 1, 2] (sampleInput 3)
        emptyMachine).2.file =
      emptyMachine.file ++ targaWriteHeader_RGB24 (sampleInput 3).draw.width 10 [] ++
        [0, 1, 2, 3, 4, 5, 6, 7, 8].flatMap (rowBytes samplePow (sampleInput 3)) :=
  have hvalid : validView (sampleInput 3).draw :=
    ⟨by decide, by decide, by norm_num [sampleInput], by decide⟩
  have horder : [0, 1, 2].Perm (List.range (sampleInput 3).draw.threadCount) := by decide
  ⟨hvalid, ⟨rfl, rfl⟩, horder,
    (parallel_row_drop samplePow (fun _ => sampleAlloc) [0, 1, 2] (sampleInput 3)
      emptyMachine hvalid (fun _ _ => ⟨rfl, rfl⟩) horder).2.2.2.2 rfl rfl⟩

/-! ## Lemmas on the heap log -/

/-- A loop whose body appends to a log appends the concatenation of what the
iterations append. -/
theorem foldl_log {α β : Type} (l : List α) (w : List β → α → List β)
    (g : α → List β) (hw : ∀ log a, w log a = log ++ g a) (log : List β) :
    l.foldl w log = log ++ l.flatMap g := by
  induction l generalizing log with
  | nil => simp
  | cons a l ih => rw [List.foldl_cons, hw, ih]; simp

theorem deallocate_loop (n : Nat) (heap : List memEvent) :
    (List.range n).foldl (fun heap j => targaDeallocateImage j heap) heap =
      heap ++ (List.range n).flatMap freeEvents :=
  foldl_log _ _ freeEvents (fun _ _ => rfl) heap

/-- A refused allocation returns `NULL` and logs the events of the failure. -/
theorem targaAllocateImage_fails (alloc : allocOracle) (i width height : Nat)
    (heap : List memEvent) (hfail : ¬ alloc.succeeds) :
    targaAllocateImage alloc i width height heap = (none, heap ++ failedEvents alloc i) := by
  unfold allocOracle.succeeds at hfail
  unfold targaAllocateImage failedEvents
  cases h1 : alloc.tableOK
  · simp
  · cases h2 : alloc.dataOK
    · simp
    · exact absurd ⟨h1, h2⟩ hfail

/-- The allocation loop with its first refusal at grid `j`: the grids before
`j` are obtained, the failure of `j` is logged, and the grids `0 .. j - 1` are
released. -/
theorem allocateThreadImages_fails (alloc : Nat → allocOracle) (width miniHeight j : Nat)
    (heap0 : List memEvent) (hfail : ¬ (alloc j).succeeds) :
    ∀ (remaining i : Nat) (threadImages : Nat → tImage),
      i ≤ j → j < i + remaining →
      (∀ k, i ≤ k → k < j → (alloc k).succeeds) →
      allocateThreadImages alloc width miniHeight remaining i threadImages
          (heap0 ++ (List.range i).flatMap allocEvents) =
        (none, heap0 ++ (List.range j).flatMap allocEvents ++ failedEvents (alloc j) j ++
          (List.range j).flatMap freeEvents) := by
  intro remaining
  induction remaining with
  | zero => intro i _ h1 h2 _; omega
  | succ n ih =>
    intro i threadImages h1 h2 hok
    rcases Nat.eq_or_lt_of_le h1 with heq | hlt
    · subst heq
      simp only [allocateThreadImages,
        targaAllocateImage_fails (alloc i) i width miniHeight _ hfail, deallocate_loop]
    · obtain ⟨image, halloc, _⟩ := targaAllocateImage_succeeds (alloc i) i width miniHeight
        (heap0 ++ (List.range i).flatMap allocEvents) (hok i (le_refl i) hlt)
      simp only [allocateThreadImages, halloc]
      have hheap : heap0 ++ (List.range i).flatMap allocEvents ++
          [memEvent.malloc (memBlock.table i), memEvent.malloc (memBlock.data i)] =
          heap0 ++ (List.range (i + 1)).flatMap allocEvents := by
        rw [List.range_succ, List.flatMap_append]
        simp [allocEvents]
      rw [hheap]
      exact ih (i + 1) _ hlt (by omega) (fun k hk1 hk2 => hok k (by omega) hk2)

theorem mallocCount_allocEvents (j : Nat) (b : memBlock) :
    mallocCount ((List.range j).flatMap allocEvents) b = if b.grid < j then 1 else 0 := by
  unfold mallocCount
  induction j with
  | zero => simp
  | succ n ih =>
    rw [List.range_succ, List.flatMap_append, List.count_append, ih]
    cases b <;> simp [allocEvents, memBlock.grid, List.count_cons] <;> split_ifs <;> omega

theorem freeCount_allocEvents (j : Nat) (b : memBlock) :
    freeCount ((List.range j).flatMap allocEvents) b = 0 := by
  unfold freeCount
  induction j with
  | zero => simp
  | succ n ih =>
    rw [List.range_succ, List.flatMap_append, List.count_append, ih]
    simp [allocEvents, List.count_cons]

theorem freeCount_freeEvents (j : Nat) (b : memBlock) :
    freeCount ((List.range j).flatMap freeEvents) b = if b.grid < j then 1 else 0 := by
  unfold freeCount
  induction j with
  | zero => simp
  | succ n ih =>
    rw [List.range_succ, List.flatMap_append, List.count_append, ih]
    cases b <;> simp [freeEvents, memBlock.grid, List.count_cons] <;> split_ifs <;> omega

theorem mallocCount_freeEvents (j : Nat) (b : memBlock) :
    mallocCount ((List.range j).flatMap freeEvents) b = 0 := by
  unfold mallocCount
  induction j with
  | zero => simp
  | succ n ih =>
    rw [List.range_succ, List.flatMap_append, List.count_append, ih]
    simp [freeEvents, List.count_cons]

/-- A failed allocation gives back what it obtained. -/
theorem failedEvents_balanced (alloc : allocOracle) (i : Nat) (b : memBlock) :
    mallocCount (failedEvents alloc i) b = freeCount (failedEvents alloc i) b := by
  unfold mallocCount freeCount failedEvents
  cases alloc.tableOK <;> simp [List.count_cons]

/-- A failed allocation of grid `i` releases no block of another grid. -/
theorem freeCount_failedEvents (alloc : allocOracle) (i : Nat) (b : memBlock)
    (h : b.grid ≠ i) : freeCount (failedEvents alloc i) b = 0 := by
  unfold freeCount failedEvents
  cases alloc.tableOK <;> cases b <;> simp_all [List.count_cons, memBlock.grid]

/-! ## The claims on the pixel count and on allocation failure -/

/-- The sequential and the streaming renderer write the header and then all
`width * height` pixels in row-major order; the parallel renderer does so
when `threadCount` divides `height`. -/
theorem renderers_row_major (pow : ℚ → ℚ → ℚ) (allocSeq : allocOracle)
    (allocPar : Nat → allocOracle) (order : List Nat) (renderInput : renderSettings)
    (m : machine) (hseq : allocSeq.succeeds)
    (hpar : ∀ i, i < renderInput.draw.threadCount → (allocPar i).succeeds)
    (horder : order.Perm (List.range renderInput.draw.threadCount)) :
    (renderToTarga pow allocSeq renderInput m).2.file =
      m.file ++ targaWriteHeader_RGB24 renderInput.draw.width renderInput.draw.height [] ++
        rowsBytes pow renderInput renderInput.draw.height ∧
    (renderToTarga_lowMem pow renderInput m).2.file =
      m.file ++ targaWriteHeader_RGB24 renderInput.draw.width renderInput.draw.height [] ++
        rowsBytes pow renderInput renderInput.draw.height ∧
    (renderInput.draw.threadCount ∣ renderInput.draw.height →
      (renderToTarga_parallel pow allocPar order renderInput m).2.file =
        m.file ++ targaWriteHeader_RGB24 renderInput.draw.width renderInput.draw.height [] ++
          rowsBytes pow renderInput renderInput.draw.height) ∧
    (rowsBytes pow renderInput renderInput.draw.height).length =
      3 * (renderInput.draw.width * renderInput.draw.height) := by
  refine ⟨?_, ?_, ?_, rowsBytes_length _ _ _⟩
  · rw [renderToTarga_eq pow allocSeq renderInput m hseq]
  · rw [renderToTarga_lowMem_eq]
  · intro hdvd
    rw [(renderToTarga_parallel_eq pow allocPar order renderInput m hpar horder).2,
      Nat.div_mul_cancel hdvd]

/-- C11, evaluated at `width = 2`, `height = 10`, `threadCount = 3`: the
parallel renderer succeeds, writes the header for `(2, 10)` and then `18`
pixels, two short of `width * height = 20`; the sequential and the streaming
renderer write `20` pixels. -/
theorem parallel_short_of_pixels :
    (renderToTarga_parallel samplePow (fun _ => sampleAlloc) [0, 1, 2] (sampleInput 3)
        emptyMachine).1 = 0 ∧
    ((renderToTarga_parallel samplePow (fun _ => sampleAlloc) [0, 1, 2] (sampleInput 3)
        emptyMachine).2.file).take 18 = targaWriteHeader_RGB24 2 10 [] ∧
    ((renderToTarga_parallel samplePow (fun _ => sampleAlloc) [0, 1, 2] (sampleInput 3)
        emptyMachine).2.file).length = 18 + 3 * 18 ∧
    ((renderToTarga samplePow sampleAlloc (sampleInput 3) emptyMachine).2.file).length =
      18 + 3 * (2 * 10) ∧
    ((renderToTarga_lowMem samplePow (sampleInput 3) emptyMachine).2.file).length =
      18 + 3 * (2 * 10) := by
  have horder : [0, 1, 2].Perm (List.range (sampleInput 3).draw.threadCount) := by decide
  obtain ⟨hstatus, hfile⟩ := renderToTarga_parallel_eq samplePow (fun _ => sampleAlloc)
    [0, 1, 2] (sampleInput 3) emptyMachine (fun _ _ => ⟨rfl, rfl⟩) horder
  refine ⟨hstatus, ?_, ?_, ?_, ?_⟩
  · rw [hfile]
    have h18 : (emptyMachine.file ++ targaWriteHeader_RGB24 (sampleInput 3).draw.width
        (sampleInput 3).draw.height []).length = 18 := by
      rw [List.length_append, targaWriteHeader_RGB24_length]
      rfl
    rw [List.take_left' h18]
    rfl
  · rw [hfile, List.length_append, List.length_append, targaWriteHeader_RGB24_length,
      rowsBytes_length]
    rfl
  · rw [renderToTarga_eq samplePow sampleAlloc (sampleInput 3) emptyMachine ⟨rfl, rfl⟩]
    simp only
    rw [List.length_append, List.length_append, targaWriteHeader_RGB24_length,
      rowsBytes_length]
    rfl
  · rw [renderToTarga_lowMem_eq]
    simp only
    rw [List.length_append, List.length_append, targaWriteHeader_RGB24_length,
      rowsBytes_length]
    rfl

/-- C12: when the allocation of grid `j` (the `(j+1)`-th worker) is the first
that the allocator refuses, `renderToTarga_parallel` returns `1`, leaves the
sink unchanged, runs no thread body (the result is the same for every schedule
and every `pow`), and its heap events are: the grids `0 .. j - 1` obtained, the
failed allocation of grid `j`, the grids `0 .. j - 1` released; each block of
the grids before `j` is released exactly once, and every block is released as
often as it is obtained. -/
theorem parallel_alloc_rollback (pow : ℚ → ℚ → ℚ) (alloc : Nat → allocOracle)
    (order : List Nat) (renderInput : renderSettings) (m : machine) (j : Nat)
    (hj : j < renderInput.draw.threadCount)
    (hok : ∀ i, i < j → (alloc i).succeeds) (hfail : ¬ (alloc j).succeeds) :
    (renderToTarga_parallel pow alloc order renderInput m).1 = 1 ∧
    (renderToTarga_parallel pow alloc order renderInput m).2.file = m.file ∧
    (∀ (pow' : ℚ → ℚ → ℚ) (order' : List Nat),
      renderToTarga_parallel pow' alloc order' renderInput m =
        renderToTarga_parallel pow alloc order renderInput m) ∧
    (renderToTarga_parallel pow alloc order renderInput m).2.heap =
      m.heap ++ ((List.range j).flatMap allocEvents ++ failedEvents (alloc j) j ++
        (List.range j).flatMap freeEvents) ∧
    (∀ b : memBlock, b.grid < j →
      freeCount (((renderToTarga_parallel pow alloc order renderInput m).2.heap).drop
        m.heap.length) b = 1) ∧
    (∀ b : memBlock,
      mallocCount (((renderToTarga_parallel pow alloc order renderInput m).2.heap).drop
          m.heap.length) b =
        freeCount (((renderToTarga_parallel pow alloc order renderInput m).2.heap).drop
          m.heap.length) b) := by
  have hloop := allocateThreadImages_fails alloc renderInput.draw.width
    (renderInput.draw.height / renderInput.draw.threadCount) j m.heap hfail
    renderInput.draw.threadCount 0
    (fun _ => { table := fun _ => 0, data := fun _ => { r := 0, g := 0, b := 0 } })
    (Nat.zero_le j) (by omega) (fun k _ hk => hok k hk)
  simp only [List.range_zero, List.flatMap_nil, List.append_nil] at hloop
  have hall : ∀ (pow' : ℚ → ℚ → ℚ) (order' : List Nat),
      renderToTarga_parallel pow' alloc order' renderInput m =
        (1, { file := m.file
              heap := m.heap ++ ((List.range j).flatMap allocEvents ++
                failedEvents (alloc j) j ++ (List.range j).flatMap freeEvents) }) := by
    intro pow' order'
    unfold renderToTarga_parallel
    simp only [hloop, List.append_assoc]
  rw [hall pow order]
  refine ⟨rfl, rfl, fun pow' order' => hall pow' order', rfl, ?_, ?_⟩
  · intro b hb
    simp only [List.drop_left]
    unfold freeCount
    rw [List.count_append, List.count_append]
    have h1 := freeCount_allocEvents j b
    have h2 := freeCount_failedEvents (alloc j) j b (by omega)
    have h3 := freeCount_freeEvents j b
    unfold freeCount at h1 h2 h3
    rw [h1, h2, h3, if_pos hb]
  · intro b
    simp only [List.drop_left]
    unfold mallocCount freeCount
    rw [List.count_append, List.count_append, List.count_append, List.count_append]
    have h1 := freeCount_allocEvents j b
    have h2 := failedEvents_balanced (alloc j) j b
    have h3 := freeCount_freeEvents j b
    have h4 := mallocCount_allocEvents j b
    have h5 := mallocCount_freeEvents j b
    simp only [mallocCount, freeCount] at h1 h2 h3 h4 h5
    rw [h1, h2, h3, h4, h5]
    omega

/-- Witness of C12: three threads, the data of grid `1` refused. -/
theorem parallel_alloc_rollback_witness :
    1 < (sampleInput 3).draw.threadCount ∧ ¬ (refusingAt 1 1).succeeds ∧
    (renderToTarga_parallel samplePow (refusingAt 1) [0, 1, 2] (sampleInput 3)
        emptyMachine).1 = 1 ∧
    (renderToTarga_parallel samplePow (refusingAt 1) [0, 1, 2] (sampleInput 3)
        emptyMachine).2.file = emptyMachine.file :=
  have hj : 1 < (sampleInput 3).draw.threadCount := by decide
  have hfail : ¬ (refusingAt 1 1).succeeds := by
    simp [refusingAt, refusingAlloc, allocOracle.succeeds]
  have hok : ∀ i, i < 1 → (refusingAt 1 i).succeeds := by
    intro i hi
    have h0 : i = 0 := by omega
    subst h0
    simp [refusingAt, sampleAlloc, allocOracle.succeeds]
  have h := parallel_alloc_rollback samplePow (refusingAt 1) [0, 1, 2] (sampleInput 3)
    emptyMachine 1 hj hok hfail
  ⟨hj, hfail, h.1, h.2.1⟩

/-- Without rounding the centre pixel of a view of even width and height maps
to the point `(offset.real, -offset.imag)`: `imagStart` subtracts
`offset.imag`. -/
theorem centre_pixel_exact (draw : drawSettings) (hw : 0 < draw.width)
    (hwe : 2 ∣ draw.width) (hhe : 2 ∣ draw.height) (hz : draw.zoomLevel ≠ 0) :
    scaleX draw (draw.width / 2) = draw.offset.real ∧
    scaleY draw (draw.height / 2) = -draw.offset.imag := by
  obtain ⟨a, ha⟩ := hwe
  obtain ⟨b, hb⟩ := hhe
  have ha0 : (a : ℚ) ≠ 0 := by
    have : 0 < a := by omega
    exact_mod_cast this.ne'
  have hxa : draw.width / 2 = a := by omega
  have hyb : draw.height / 2 = b := by omega
  rw [hxa, hyb]
  simp only [scaleX, scaleY, realStart, imagStart, step, ha, hb]
  push_cast
  constructor
  · field_simp
    ring
  · field_simp
    ring

/-! ## The rounding of binary64 at the numbers of two views -/

theorem roundBinary64_one : roundBinary64 1 = 1 :=
  roundBinary64_eq _ _ (0) (4503599627370496) (by norm_num) (by norm_num)
    (by norm_num) (by norm_num)

theorem roundBinary64_two : roundBinary64 2 = 2 :=
  roundBinary64_eq _ _ (1) (4503599627370496) (by norm_num) (by norm_num)
    (by norm_num) (by norm_num)

theorem roundBinary64_four : roundBinary64 4 = 4 :=
  roundBinary64_eq _ _ (2) (4503599627370496) (by norm_num) (by norm_num)
    (by norm_num) (by norm_num)

theorem roundBinary64_eight : roundBinary64 8 = 8 :=
  roundBinary64_eq _ _ (3) (4503599627370496) (by norm_num) (by norm_num)
    (by norm_num) (by norm_num)

theorem roundBinary64_neg_one : roundBinary64 (-1) = -1 :=
  roundBinary64_eq _ _ (0) (-4503599627370496) (by norm_num) (by norm_num)
    (by norm_num) (by norm_num)

theorem roundBinary64_neg_two : roundBinary64 (-2) = -2 :=
  roundBinary64_eq _ _ (1) (-4503599627370496) (by norm_num) (by norm_num)
    (by norm_num) (by norm_num)

theorem roundBinary64_two_thirds :
    roundBinary64 (2 / 3) = 6004799503160661 / 9007199254740992 :=
  roundBinary64_eq _ _ (-1) (6004799503160661) (by norm_num) (by norm_num)
    (by norm_num) (by norm_num)

theorem roundBinary64_two_thirds_kept :
    roundBinary64 (6004799503160661 / 9007199254740992) =
      6004799503160661 / 9007199254740992 :=
  roundBinary64_eq _ _ (-1) (6004799503160661) (by norm_num) (by norm_num)
    (by norm_num) (by norm_num)

theorem roundBinary64_product_first :
    roundBinary64 (6004799503160661 / 99079191802150912) =
      8734253822779143 / 144115188075855872 :=
  roundBinary64_eq _ _ (-5) (8734253822779143) (by norm_num) (by norm_num)
    (by norm_num) (by norm_num)

theorem roundBinary64_product_first_kept :
    roundBinary64 (8734253822779143 / 144115188075855872) =
      8734253822779143 / 144115188075855872 :=
  roundBinary64_eq _ _ (-5) (8734253822779143) (by norm_num) (by norm_num)
    (by norm_num) (by norm_num)

theorem roundBinary64_thirty_three : roundBinary64 33 = 33 :=
  roundBinary64_eq _ _ (5) (4644337115725824) (by norm_num) (by norm_num)
    (by norm_num) (by norm_num)

theorem roundBinary64_step : roundBinary64 (4 / 33) = 1091781727847393 / 9007199254740992 :=
  roundBinary64_eq _ _ (-4) (8734253822779144) (by norm_num) (by norm_num)
    (by norm_num) (by norm_num)

theorem roundBinary64_eleventh :
    roundBinary64 (1 / 11) = 3275345183542179 / 36028797018963968 :=
  roundBinary64_eq _ _ (-4) (6550690367084358) (by norm_num) (by norm_num)
    (by norm_num) (by norm_num)

theorem roundBinary64_quotient_first :
    roundBinary64
        (19667791130813740471270107020319 / 324518553658426726783156020576256) =
      1091781727847393 / 18014398509481984 :=
  roundBinary64_eq _ _ (-5) (8734253822779144) (by norm_num) (by norm_num)
    (by norm_num) (by norm_num)

theorem roundBinary64_quotient_first_kept :
    roundBinary64 (1091781727847393 / 18014398509481984) =
      1091781727847393 / 18014398509481984 :=
  roundBinary64_eq _ _ (-5) (8734253822779144) (by norm_num) (by norm_num)
    (by norm_num) (by norm_num)

/-- In binary64 the row `0` of the view of eleven columns and one row at zoom
`3` has the imaginary part `8734253822779143 / 2^57`. -/
theorem binary64_scaleY_narrowView :
    binary64.scaleY narrowView 0 = 8734253822779143 / 144115188075855872 := by
  norm_num [rounding.scaleY, rounding.imagStart, rounding.step, rounding.sub, rounding.div,
    rounding.mul, binary64, narrowView, roundBinary64_zero, roundBinary64_two_thirds,
    roundBinary64_two_thirds_kept, roundBinary64_product_first,
    roundBinary64_product_first_kept, roundBinary64_thirty_three, roundBinary64_step]

/-- In binary64 the formula that divides `height` by `width` first gives the
imaginary part `8734253822779144 / 2^57` for the same row. -/
theorem binary64_quotientFirst_narrowView :
    binary64.quotientFirstImag narrowView 0 = 1091781727847393 / 18014398509481984 := by
  norm_num [rounding.quotientFirstImag, rounding.sub, rounding.div,
    rounding.mul, binary64, narrowView, roundBinary64_zero, roundBinary64_two_thirds,
    roundBinary64_eleventh, roundBinary64_quotient_first,
    roundBinary64_quotient_first_kept, roundBinary64_thirty_three, roundBinary64_step]

/-- C14 as stated fails in binary64 at `width = 11`, `height = 1`,
`zoom = 3`, `center = (0, 0)`, row `0`: the renderers evaluate the imaginary
part `8734253822779143 / 2^57`, the code dividing the product `(2/zoom)*height`
by `width`, where the formula `(2/zoom)*(height/width)` gives
`8734253822779144 / 2^57` in binary64 and `2/33` over the reals. -/
theorem renderers_quotient_order :
    (binary64.specPoint narrowView 0 0).imag = binary64.scaleY narrowView 0 ∧
    binary64.scaleY narrowView 0 = 8734253822779143 / 144115188075855872 ∧
    binary64.quotientFirstImag narrowView 0 = 8734253822779144 / 144115188075855872 ∧
    (specPoint narrowView 0 0).imag = 2 / 33 ∧
    binary64.scaleY narrowView 0 ≠ binary64.quotientFirstImag narrowView 0 ∧
    binary64.scaleY narrowView 0 ≠ (specPoint narrowView 0 0).imag := by
  have hexact : (specPoint narrowView 0 0).imag = 2 / 33 := by
    norm_num [specPoint, narrowView]
  refine ⟨rfl, binary64_scaleY_narrowView, ?_, hexact, ?_, ?_⟩
  · rw [binary64_quotientFirst_narrowView]
    norm_num
  · rw [binary64_scaleY_narrowView, binary64_quotientFirst_narrowView]
    norm_num
  · rw [binary64_scaleY_narrowView, hexact]
    norm_num

/-- C14, amended: under every rounding of `double`, for a valid view and
every pixel `(x, y)` the nested functions `scaleX` and `scaleY` give the point
with real part `(-2/zoom + center.real) + (4/(width*zoom))*x` and imaginary
part `(((2/zoom)*height)/width - center.imag) - (4/(width*zoom))*y`, every
operation rounded in this order, and each renderer colours the pixel from
that point: the sequential and the streaming renderer write, row by row, the
pixel of the point of `(x, y)`, and the parallel renderer writes, for the
local row `localY` of the thread `threadID`, the pixel of the point of
`(x, localY * threadCount + threadID)`.  Without rounding the imaginary part
is `((2/zoom)*(height/width) - center.imag) - (4/(width*zoom))*y`, the
quotient `height/width` being exact. -/
theorem renderers_evaluate_point (R : rounding) (pow : ℚ → ℚ → ℚ) (allocSeq : allocOracle)
    (allocPar : Nat → allocOracle) (order : List Nat) (renderInput : renderSettings)
    (m : machine) (hvalid : validView renderInput.draw) :
    (∀ x y : Nat, R.scaleX renderInput.draw x = (R.specPoint renderInput.draw x y).real ∧
      R.scaleY renderInput.draw y = (R.specPoint renderInput.draw x y).imag) ∧
    (allocSeq.succeeds →
      (R.renderToTarga pow allocSeq renderInput m).2.file =
        m.file ++ targaWriteHeader_RGB24 renderInput.draw.width renderInput.draw.height [] ++
          (List.range renderInput.draw.height).flatMap (fun y =>
            (List.range renderInput.draw.width).flatMap (fun x =>
              pixelBytes (R.escapePixel pow (R.specPoint renderInput.draw x y)
                renderInput.color renderInput.calcSet)))) ∧
    (R.renderToTarga_lowMem pow renderInput m).2.file =
      m.file ++ targaWriteHeader_RGB24 renderInput.draw.width renderInput.draw.height [] ++
        (List.range renderInput.draw.height).flatMap (fun y =>
          (List.range renderInput.draw.width).flatMap (fun x =>
            pixelBytes (R.escapePixel pow (R.specPoint renderInput.draw x y)
              renderInput.color renderInput.calcSet))) ∧
    ((∀ i, i < renderInput.draw.threadCount → (allocPar i).succeeds) →
      order.Perm (List.range renderInput.draw.threadCount) →
      (R.renderToTarga_parallel pow allocPar order renderInput m).2.file =
        m.file ++ targaWriteHeader_RGB24 renderInput.draw.width renderInput.draw.height [] ++
          (List.range (renderInput.draw.height / renderInput.draw.threadCount)).flatMap
            (fun localY => (List.range renderInput.draw.threadCount).flatMap
              (fun threadID => (List.range renderInput.draw.width).flatMap (fun x =>
                pixelBytes (R.escapePixel pow
                  (R.specPoint renderInput.draw x
                    (localY * renderInput.draw.threadCount + threadID))
                  renderInput.color renderInput.calcSet))))) ∧
    (∀ x y : Nat, noRounding.specPoint renderInput.draw x y =
      specPoint renderInput.draw x y) := by
  obtain ⟨_, _, _, _⟩ := hvalid
  refine ⟨fun x y => ⟨rfl, rfl⟩, ?_, ?_, ?_, ?_⟩
  · intro hseq
    rw [rounding_renderToTarga_eq R pow allocSeq renderInput m hseq]
    rfl
  · rw [rounding_renderToTarga_lowMem_eq]
    rfl
  · intro hpar horder
    rw [(rounding_renderToTarga_parallel_eq R pow allocPar order renderInput m hpar horder).2]
    rfl
  · intro x y
    simp only [rounding.specPoint, specPoint, noRounding, rounding.add, rounding.sub,
      rounding.mul, rounding.div, mul_div_assoc]

/-- Witness of C14, amended, in binary64 on the view of eleven columns and one
row at zoom `3`: the streaming renderer writes the pixels of the points whose
imaginary part is `8734253822779143 / 2^57`. -/
theorem renderers_evaluate_point_witness :
    validView narrowView ∧
    binary64.scaleY narrowView 0 = (binary64.specPoint narrowView 0 0).imag ∧
    (binary64.renderToTarga_lowMem samplePow
        { draw := narrowView, color := (sampleInput 1).color,
          calcSet := (sampleInput 1).calcSet } emptyMachine).2.file =
      emptyMachine.file ++ targaWriteHeader_RGB24 11 1 [] ++
        (List.range 1).flatMap (fun y =>
          (List.range 11).flatMap (fun x =>
            pixelBytes (binary64.escapePixel samplePow (binary64.specPoint narrowView x y)
              (sampleInput 1).color (sampleInput 1).calcSet))) :=
  have hvalid : validView narrowView :=
    ⟨by decide, by decide, by norm_num [narrowView], by decide⟩
  have h := renderers_evaluate_point binary64 samplePow sampleAlloc (fun _ => sampleAlloc)
    [0] { draw := narrowView, color := (sampleInput 1).color,
          calcSet := (sampleInput 1).calcSet } emptyMachine hvalid
  ⟨hvalid, (h.1 0 0).2, h.2.2.1⟩

/-- When the rounding leaves the results of the operations unchanged, the
centre pixel of a view of even width and height maps to the point
`(offset.real, -offset.imag)`: `imagStart` subtracts `offset.imag`. -/
theorem centre_of_exact (R : rounding) (draw : drawSettings) (hw : 0 < draw.width)
    (hwe : 2 ∣ draw.width) (hhe : 2 ∣ draw.height) (hz : draw.zoomLevel ≠ 0)
    (hexact : ∀ q ∈ centreValues draw, R.rnd q = q) :
    R.scaleX draw (draw.width / 2) = draw.offset.real ∧
    R.scaleY draw (draw.height / 2) = -draw.offset.imag := by
  have hx : R.scaleX draw (draw.width / 2) = scaleX draw (draw.width / 2) := by
    simp only [centreValues, List.mem_cons, List.mem_singleton, forall_eq_or_imp,
      forall_eq] at hexact
    obtain ⟨h1, h2, h3, h4, h5, h6, -⟩ := hexact
    simp only [rounding.scaleX, rounding.realStart, rounding.step, rounding.add,
      rounding.mul, rounding.div, scaleX, realStart, step, h1, h2, h3, h4, h5, h6]
  have hy : R.scaleY draw (draw.height / 2) = scaleY draw (draw.height / 2) := by
    simp only [centreValues, List.mem_cons, List.mem_singleton, forall_eq_or_imp,
      forall_eq] at hexact
    obtain ⟨-, -, h3, h4, -, -, h7, h8, h9, h10, h11, h12⟩ := hexact
    simp only [rounding.scaleY, rounding.imagStart, rounding.step, rounding.sub,
      rounding.mul, rounding.div, scaleY, imagStart, step, h3, h4, h7, h8, h9, h10, h11,
      h12]
  rw [hx, hy]
  exact centre_pixel_exact draw hw hwe hhe hz

/-- In binary64 no operation rounds in the computation of the centre of the
four by four view at zoom `1` with the offset `(0, 1)`. -/
theorem binary64_exact_offCentreView :
    ∀ q ∈ centreValues offCentreView, binary64.rnd q = q := by
  simp only [centreValues, List.mem_cons, List.mem_singleton, forall_eq_or_imp,
    forall_eq]
  norm_num [offCentreView, binary64, roundBinary64_zero, roundBinary64_one,
    roundBinary64_two, roundBinary64_four, roundBinary64_eight, roundBinary64_neg_one,
    roundBinary64_neg_two]

/-- C15 as stated fails at `width = 4`, `height = 4`, `zoom = 1`,
`offset = (0, 1)`, in binary64 as over the rationals: the pixel `(2, 2)` maps
to the point `(0, -1)`, whose imaginary part is not `offset.imag = 1`. -/
theorem centre_pixel_conjugate :
    binary64.scaleX offCentreView (offCentreView.width / 2) = offCentreView.offset.real ∧
    binary64.scaleY offCentreView (offCentreView.height / 2) = -1 ∧
    scaleX offCentreView (offCentreView.width / 2) = offCentreView.offset.real ∧
    scaleY offCentreView (offCentreView.height / 2) = -1 ∧
    offCentreView.offset.imag = 1 ∧
    binary64.scaleY offCentreView (offCentreView.height / 2) ≠ offCentreView.offset.imag ∧
    scaleY offCentreView (offCentreView.height / 2) ≠ offCentreView.offset.imag := by
  have hb := centre_of_exact binary64 offCentreView (by decide) (by decide) (by decide)
    (by norm_num [offCentreView]) binary64_exact_offCentreView
  have h := centre_pixel_exact offCentreView (by decide) (by decide) (by decide)
    (by norm_num [offCentreView])
  have himag : offCentreView.offset.imag = 1 := rfl
  refine ⟨hb.1, ?_, h.1, ?_, himag, ?_, ?_⟩
  · rw [hb.2, himag]
  · rw [h.2, himag]
  · rw [hb.2, himag]
    norm_num
  · rw [h.2, himag]
    norm_num

/-- C15, amended: for every even width and height and every non-zero zoom,
the pixel `(width/2, height/2)` maps to the point whose real part is
`offset.real` and whose imaginary part is `-offset.imag`, under every
rounding of `double` that leaves the results of the operations of the
computation unchanged, exact arithmetic among them. -/
theorem centre_pixel (R : rounding) (draw : drawSettings) (hw : 0 < draw.width)
    (hwe : 2 ∣ draw.width) (hhe : 2 ∣ draw.height) (hz : draw.zoomLevel ≠ 0)
    (hexact : ∀ q ∈ centreValues draw, R.rnd q = q) :
    R.scaleX draw (draw.width / 2) = draw.offset.real ∧
    R.scaleY draw (draw.height / 2) = -draw.offset.imag ∧
    (scaleX draw (draw.width / 2) = draw.offset.real ∧
      scaleY draw (draw.height / 2) = -draw.offset.imag) :=
  ⟨(centre_of_exact R draw hw hwe hhe hz hexact).1,
    (centre_of_exact R draw hw hwe hhe hz hexact).2,
    centre_pixel_exact draw hw hwe hhe hz⟩

/-- Witness of C15, amended, in binary64 on the four by four view at zoom `1`
with the offset `(0, 1)`. -/
theorem centre_pixel_witness :
    0 < offCentreView.width ∧ 2 ∣ offCentreView.width ∧ 2 ∣ offCentreView.height ∧
    offCentreView.zoomLevel ≠ 0 ∧
    (∀ q ∈ centreValues offCentreView, binary64.rnd q = q) ∧
    binary64.scaleX offCentreView (offCentreView.width / 2) = offCentreView.offset.real ∧
    binary64.scaleY offCentreView (offCentreView.height / 2) =
      -offCentreView.offset.imag :=
  have hz : offCentreView.zoomLevel ≠ 0 := by norm_num [offCentreView]
  have h := centre_pixel binary64 offCentreView (by decide) (by decide) (by decide) hz
    binary64_exact_offCentreView
  ⟨by decide, by decide, by decide, hz, binary64_exact_offCentreView, h.1, h.2.1⟩

/-! ## The claims on the colour mapping -/

/-- For a non-zero escape value `escapeColor` converts its hue and its
lightness from HSL. -/
theorem escapeColor_eq (pow : ℚ → ℚ → ℚ) (e : Int) (color : colorSettings) (he : e ≠ 0) :
    escapeColor pow e color =
      escapeColorHSL (escapeHue e color) (escapeLightness pow e color) := by
  simp only [escapeColor, escapeColorHSL, escapeHue, escapeLightness, if_neg he]

/-- For a non-negative dividend and a positive divisor `fmod` is the
remainder of the floored quotient and lies in `[0, y)`. -/
theorem fmod_of_nonneg (x y : ℚ) (hx : 0 ≤ x) (hy : 0 < y) :
    fmod x y = x - ((⌊x / y⌋ : Int) : ℚ) * y ∧ 0 ≤ fmod x y ∧ fmod x y < y := by
  have hq : 0 ≤ x / y := div_nonneg hx hy.le
  have heq : fmod x y = x - ((⌊x / y⌋ : Int) : ℚ) * y := by
    simp only [fmod, if_pos hq]
  have h1 : ((⌊x / y⌋ : Int) : ℚ) ≤ x / y := Int.floor_le _
  have h2 : x / y < ((⌊x / y⌋ : Int) : ℚ) + 1 := Int.lt_floor_add_one _
  have h3 : ((⌊x / y⌋ : Int) : ℚ) * y ≤ x := (le_div_iff₀ hy).mp h1
  have h4 : x < (((⌊x / y⌋ : Int) : ℚ) + 1) * y := (div_lt_iff₀ hy).mp h2
  refine ⟨heq, ?_, ?_⟩
  · rw [heq]; linarith
  · rw [heq]; linarith

/-- The hue lies in `[0, 360)` when the hue limiter is at most one and the hue
offset is not negative. -/
theorem escapeHue_range (e : Int) (color : colorSettings) (he : 1 ≤ e)
    (hmax : e ≤ color.maxIterations) (hlim : color.hueLimiter ≤ 1)
    (hoff : 0 ≤ color.hueOffset) :
    0 ≤ escapeHue e color ∧ escapeHue e color < 360 := by
  have hm : (0 : ℚ) < (color.maxIterations : ℚ) := by
    have : (0 : Int) < color.maxIterations := by omega
    exact_mod_cast this
  have he0 : (0 : ℚ) < (e : ℚ) := by
    have : (0 : Int) < e := by omega
    exact_mod_cast this
  have hr1 : (e : ℚ) / (color.maxIterations : ℚ) ≤ 1 := by
    rw [div_le_one hm]
    exact_mod_cast hmax
  have hr0 : 0 < (e : ℚ) / (color.maxIterations : ℚ) := div_pos he0 hm
  have hprod : (e : ℚ) / (color.maxIterations : ℚ) * color.hueLimiter ≤ 1 := by
    by_cases hl : 0 ≤ color.hueLimiter
    · calc (e : ℚ) / (color.maxIterations : ℚ) * color.hueLimiter
          ≤ 1 * color.hueLimiter := mul_le_mul_of_nonneg_right hr1 hl
        _ ≤ 1 := by linarith
    · have : (e : ℚ) / (color.maxIterations : ℚ) * color.hueLimiter ≤ 0 :=
        mul_nonpos_of_nonneg_of_nonpos hr0.le (by linarith)
      linarith
  have h1 : 0 ≤ 360 - 360 * ((e : ℚ) / (color.maxIterations : ℚ)) * color.hueLimiter := by
    nlinarith
  have hf1 := fmod_of_nonneg _ 360 h1 (by norm_num)
  have hf2 := fmod_of_nonneg
    (fmod (360 - 360 * ((e : ℚ) / (color.maxIterations : ℚ)) * color.hueLimiter) 360 +
      color.hueOffset) 360 (by linarith [hf1.2.1]) (by norm_num)
  exact ⟨hf2.2.1, hf2.2.2⟩

/-- C16, evaluated at the escape value `360` with `maxIterations = 360`,
`hueLimiter = 3/2`, `hueOffset = 0`: the hue that `escapeColor` computes is
`-180`, below the interval `[0, 360)`; the conversion then takes the first
branch with the negative intermediate value `X = -1`, and the green channel is
the byte of `-255`. -/
theorem escapeHue_negative :
    (1 : Int) ≤ 360 ∧ (360 : Int) ≤ wideHueColor.maxIterations ∧
    escapeHue 360 wideHueColor = -180 ∧ ¬ (0 ≤ escapeHue 360 wideHueColor) ∧
    escapeColor samplePow 360 wideHueColor = { r := 255, g := 1, b := 0 } := by
  have hceil : ⌈(-180 / 360 : ℚ)⌉ = 0 :=
    Int.ceil_eq_iff.mpr ⟨by norm_num, by norm_num⟩
  have hq : ¬ (0 : ℚ) ≤ -180 / 360 := by norm_num
  have hf : fmod (-180) 360 = -180 := by
    simp only [fmod, if_neg hq, hceil]
    norm_num
  have hhue : escapeHue 360 wideHueColor = -180 := by
    have h1 : (360 : ℚ) - 360 * (((360 : Int) : ℚ) / ((360 : Int) : ℚ)) * (3 / 2) = -180 := by
      norm_num
    simp only [escapeHue, wideHueColor, h1, hf]
    norm_num [hf]
  have hlight : escapeLightness samplePow 360 wideHueColor = 1 / 2 := by
    norm_num [escapeLightness, wideHueColor]
  have hq2 : ¬ (0 : ℚ) ≤ -180 / 60 / 2 := by norm_num
  have hceil2 : ⌈(-180 / 60 / 2 : ℚ)⌉ = -1 :=
    Int.ceil_eq_iff.mpr ⟨by norm_num, by norm_num⟩
  have hf2 : fmod (-180 / 60) 2 = -1 := by
    simp only [fmod, if_neg hq2, hceil2]
    norm_num
  have c1 : toChannel 255 = 255 := by
    norm_num [toChannel]
    decide
  have c2 : toChannel (-255) = 1 := by
    have hc : ⌈(-255 : ℚ)⌉ = -255 := by
      have := @Int.ceil_intCast ℚ _ _ (-255)
      simpa using this
    simp only [toChannel, hc]
    decide
  have c3 : toChannel 0 = 0 := by norm_num [toChannel]
  have hpixel : escapeColorHSL (-180) (1 / 2) = { r := 255, g := 1, b := 0 } := by
    simp only [escapeColorHSL, hf2, fabs]
    norm_num [c1, c2, c3]
  refine ⟨by decide, by decide, hhue, ?_, ?_⟩
  · rw [hhue]
    norm_num
  · rw [escapeColor_eq samplePow 360 wideHueColor (by decide), hhue, hlight, hpixel]

/-- C17: when `constantLight != 0` the lightness of `escapeColor` is
`constantLight`, and the pixel returned is the same for every choice of
`lightMax` and `lightDistribution` (and of `pow`), the escape value and the
other settings being fixed. -/
theorem escapeColor_constantLight (pow pow' : ℚ → ℚ → ℚ) (e : Int) (color : colorSettings)
    (lightMax lightDistribution : ℚ) (hconst : color.constantLight ≠ 0) :
    escapeLightness pow e color = color.constantLight ∧
    escapeColor pow' e
        { color with lightMax := lightMax, lightDistribution := lightDistribution } =
      escapeColor pow e color := by
  constructor
  · simp only [escapeLightness, if_neg hconst]
  · simp only [escapeColor, if_neg hconst]

/-- Witness of C17: constant lightness `1/2`, escape value `7`. -/
theorem escapeColor_constantLight_witness :
    (sampleInput 1).color.constantLight ≠ 0 ∧
    escapeColor (fun _ _ => 0) 7
        { (sampleInput 1).color with lightMax := 3, lightDistribution := 9 } =
      escapeColor samplePow 7 (sampleInput 1).color :=
  have hconst : (sampleInput 1).color.constantLight ≠ 0 := by norm_num [sampleInput]
  ⟨hconst,
    (escapeColor_constantLight samplePow (fun _ _ => 0) 7 (sampleInput 1).color 3 9 hconst).2⟩

/-- The conversion to a channel is the ceiling masked to a byte. -/
theorem toChannel_eq_specChannel (v : ℚ) : toChannel v = specChannel v := by
  unfold toChannel specChannel
  have hand : ∀ n : Nat, n &&& 0x00FF = n % 256 := fun n =>
    Nat.and_pow_two_sub_one_eq_mod n 8
  rw [hand]
  omega

/-- For `0 <= h' < 6` the chain of comparisons of `escapeColor` selects the
table entry of the sextant `floor(h')`. -/
theorem sextant_chain (h' chroma X : ℚ) (h0 : 0 ≤ h') (h6 : h' < 6) :
    (if h' < 1 then (chroma, X, (0 : ℚ))
      else if h' < 2 then (X, chroma, 0)
      else if h' < 3 then (0, chroma, X)
      else if h' < 4 then (0, X, chroma)
      else if h' < 5 then (X, 0, chroma)
      else if h' < 6 then (chroma, 0, X)
      else (0, 0, 0)) = specSextant ⌊h'⌋ chroma X := by
  have hk0 : 0 ≤ ⌊h'⌋ := Int.floor_nonneg.mpr h0
  have hk6 : ⌊h'⌋ < 6 := Int.floor_lt.mpr (by exact_mod_cast h6)
  have hlt : ∀ n : Int, (h' < (n : ℚ) ↔ ⌊h'⌋ < n) := fun n => Int.floor_lt.symm
  have c1 := hlt 1
  have c2 := hlt 2
  have c3 := hlt 3
  have c4 := hlt 4
  have c5 := hlt 5
  have c6 := hlt 6
  push_cast at c1 c2 c3 c4 c5 c6
  simp only [c1, c2, c3, c4, c5, c6, specSextant]
  generalize ⌊h'⌋ = k at hk0 hk6
  interval_cases k <;> simp

/-- For a non-zero escape value `escapeColor` converts the scaled values of
its hue and its lightness to channels. -/
theorem rounding_escapeColor_eq (R : rounding) (pow : ℚ → ℚ → ℚ) (e : Int)
    (color : colorSettings) (he : e ≠ 0) :
    R.escapeColor pow e color =
      { r := toChannel (R.escapeScaled (R.escapeHue e color)
          (R.escapeLightness pow e color)).1
        g := toChannel (R.escapeScaled (R.escapeHue e color)
          (R.escapeLightness pow e color)).2.1
        b := toChannel (R.escapeScaled (R.escapeHue e color)
          (R.escapeLightness pow e color)).2.2 } := by
  simp only [rounding.escapeColor, rounding.escapeScaled, rounding.escapeChroma,
    rounding.escapeHue, rounding.escapeLightness, if_neg he]

/-- For `0 <= h'` the chain of comparisons of `escapeColor` selects the table
entry of the sextant `floor(h')`, and the triple `(0, 0, 0)` from `6` on. -/
theorem sextant_chain_nonneg (h' chroma X : ℚ) (h0 : 0 ≤ h') :
    (if h' < 1 then (chroma, X, (0 : ℚ))
      else if h' < 2 then (X, chroma, 0)
      else if h' < 3 then (0, chroma, X)
      else if h' < 4 then (0, X, chroma)
      else if h' < 5 then (X, 0, chroma)
      else if h' < 6 then (chroma, 0, X)
      else (0, 0, 0)) = specSextant ⌊h'⌋ chroma X := by
  by_cases h6 : h' < 6
  · exact sextant_chain h' chroma X h0 h6
  · push_neg at h6
    have hk : (6 : Int) ≤ ⌊h'⌋ := Int.le_floor.mpr (by exact_mod_cast h6)
    have n1 : ¬ h' < 1 := by linarith
    have n2 : ¬ h' < 2 := by linarith
    have n3 : ¬ h' < 3 := by linarith
    have n4 : ¬ h' < 4 := by linarith
    have n5 : ¬ h' < 5 := by linarith
    have n6 : ¬ h' < 6 := by linarith
    have k0 : ¬ ⌊h'⌋ = 0 := by omega
    have k1 : ¬ ⌊h'⌋ = 1 := by omega
    have k2 : ¬ ⌊h'⌋ = 2 := by omega
    have k3 : ¬ ⌊h'⌋ = 3 := by omega
    have k4 : ¬ ⌊h'⌋ = 4 := by omega
    have k5 : ¬ ⌊h'⌋ = 5 := by omega
    simp only [specSextant, if_neg n1, if_neg n2, if_neg n3, if_neg n4, if_neg n5,
      if_neg n6, if_neg k0, if_neg k1, if_neg k2, if_neg k3, if_neg k4, if_neg k5]

/-- C18: under every rounding of `double` whose results are kept by a second
rounding and whose quotient of a hue of `[0, 360)` by `60` is not negative,
for an escape value in `[1, maxIterations]` whose computed hue lies in
`[0, 360)`, `escapeColor` returns the colour of the specification: with
`h' = hue/60`, `chroma = 1 - |2*lightness - 1|`,
`X = chroma*(1 - |h' mod 2 - 1|)` and `m = lightness - chroma/2`, every
operation rounded, the channels are `ceil((v + m)*255) & 0xFF` for `v` in the
table entry of the sextant `floor(h')`. -/
theorem escapeColor_sextant (R : rounding) (pow : ℚ → ℚ → ℚ) (e : Int)
    (color : colorSettings) (he : 1 ≤ e) (hmax : e ≤ color.maxIterations)
    (h0 : 0 ≤ R.escapeHue e color) (h360 : R.escapeHue e color < 360)
    (hkept : ∀ q : ℚ, R.rnd (R.rnd q) = R.rnd q)
    (hquot : ∀ hue : ℚ, 0 ≤ hue → hue < 360 → 0 ≤ R.rnd (hue / 60)) :
    R.escapeColor pow e color =
      R.specColor (R.escapeHue e color) (R.escapeLightness pow e color) := by
  have hmax' : 1 ≤ color.maxIterations := le_trans he hmax
  have hH0 : 0 ≤ R.div (R.escapeHue e color) 60 := hquot _ h0 h360
  have hfm : fmod (R.div (R.escapeHue e color) 60) 2 =
      R.div (R.escapeHue e color) 60 -
        2 * ((⌊R.div (R.escapeHue e color) 60 / 2⌋ : Int) : ℚ) := by
    rw [(fmod_of_nonneg _ 2 hH0 (by norm_num)).1]
    ring
  have hsat : ∀ q : ℚ, R.mul (R.sub 1 q) 1 = R.sub 1 q := by
    intro q
    simp only [rounding.mul, rounding.sub, mul_one, hkept]
  have hX : ∀ a b : ℚ, R.mul a b = R.mul b a := by
    intro a b
    simp only [rounding.mul, mul_comm]
  have hhalf : ∀ q : ℚ, R.mul (1 / 2) q = R.div q 2 := by
    intro q
    simp only [rounding.mul, rounding.div]
    congr 1
    ring
  rw [rounding_escapeColor_eq R pow e color (by omega)]
  simp only [rounding.escapeScaled, rounding.escapeChroma, rounding.specColor,
    sextant_chain_nonneg _ _ _ hH0, hfm, fabs, toChannel_eq_specChannel, hsat, hhalf,
    hX (R.sub 1 _) (R.sub 1 _)]

/-! ## The colour of the escape value `8` of `360` in binary64 -/

theorem roundBinary64_half : roundBinary64 (1 / 2) = 1 / 2 :=
  roundBinary64_eq _ _ (-1) (4503599627370496) (by norm_num) (by norm_num)
    (by norm_num) (by norm_num)

theorem roundBinary64_255 : roundBinary64 255 = 255 :=
  roundBinary64_eq _ _ (7) (8972014882652160) (by norm_num) (by norm_num)
    (by norm_num) (by norm_num)

theorem roundBinary64_352 : roundBinary64 352 = 352 :=
  roundBinary64_eq _ _ (8) (6192449487634432) (by norm_num) (by norm_num)
    (by norm_num) (by norm_num)

theorem roundBinary64_ratio : roundBinary64 (1 / 45) = 6405119470038039 / 288230376151711744 :=
  roundBinary64_eq _ _ (-6) (6405119470038039) (by norm_num) (by norm_num)
    (by norm_num) (by norm_num)

theorem roundBinary64_ratio_scaled :
    roundBinary64 (288230376151711755 / 36028797018963968) = 8 :=
  roundBinary64_eq _ _ (3) (4503599627370496) (by norm_num) (by norm_num)
    (by norm_num) (by norm_num)

theorem roundBinary64_sextant :
    roundBinary64 (88 / 15) = 6605279453476727 / 1125899906842624 :=
  roundBinary64_eq _ _ (2) (6605279453476727) (by norm_num) (by norm_num)
    (by norm_num) (by norm_num)

theorem roundBinary64_sextant_part :
    roundBinary64 (975779919263607 / 1125899906842624) =
      975779919263607 / 1125899906842624 :=
  roundBinary64_eq _ _ (-1) (7806239354108856) (by norm_num) (by norm_num)
    (by norm_num) (by norm_num)

theorem roundBinary64_second :
    roundBinary64 (150119987579017 / 1125899906842624) =
      150119987579017 / 1125899906842624 :=
  roundBinary64_eq _ _ (-3) (4803839602528544) (by norm_num) (by norm_num)
    (by norm_num) (by norm_num)

theorem roundBinary64_second_scaled :
    roundBinary64 (38280596832649335 / 1125899906842624) =
      4785074604081167 / 140737488355328 :=
  roundBinary64_eq _ _ (5) (4785074604081167) (by norm_num) (by norm_num)
    (by norm_num) (by norm_num)

theorem fmod_352 : fmod 352 360 = 352 := by
  have hfloor : ⌊(352 / 360 : ℚ)⌋ = 0 := Int.floor_eq_iff.mpr ⟨by norm_num, by norm_num⟩
  rw [(fmod_of_nonneg 352 360 (by norm_num) (by norm_num)).1, hfloor]
  norm_num

theorem fmod_sextant :
    fmod (6605279453476727 / 1125899906842624) 2 =
      2101679826106231 / 1125899906842624 := by
  have hfloor : ⌊(6605279453476727 / 1125899906842624 / 2 : ℚ)⌋ = 2 :=
    Int.floor_eq_iff.mpr ⟨by norm_num, by norm_num⟩
  rw [(fmod_of_nonneg _ 2 (by norm_num) (by norm_num)).1, hfloor]
  norm_num

/-- In binary64 the hue of the escape value `8` of `360` under the default
colours is `352`. -/
theorem binary64_escapeHue_eight : binary64.escapeHue 8 (sampleInput 1).color = 352 := by
  norm_num [rounding.escapeHue, rounding.div, rounding.sub, rounding.mul, rounding.add,
    binary64, sampleInput, roundBinary64_ratio, roundBinary64_ratio_scaled,
    roundBinary64_eight, roundBinary64_352, fmod_352]

/-- In binary64 the escape value `8` of `360` under the default colours has
the scaled values `255`, `0` and `4785074604081167 / 2^47`, the last just
above `34`, and `escapeColor` returns the pixel `(255, 0, 35)`; without
rounding the last scaled value is `34` and the pixel is `(255, 0, 34)`. -/
theorem binary64_escapeColor_eight :
    binary64.escapeScaled 352 (1 / 2) = (255, 0, 4785074604081167 / 140737488355328) ∧
    (34 : ℚ) < 4785074604081167 / 140737488355328 ∧
    binary64.escapeColor samplePow 8 (sampleInput 1).color = { r := 255, g := 0, b := 35 } ∧
    escapeScaled 352 (1 / 2) = (255, 0, 34) ∧
    escapeColor samplePow 8 (sampleInput 1).color = { r := 255, g := 0, b := 34 } := by
  have n1 : ¬ (6605279453476727 / 1125899906842624 : ℚ) < 1 := by norm_num
  have n2 : ¬ (6605279453476727 / 1125899906842624 : ℚ) < 2 := by norm_num
  have n3 : ¬ (6605279453476727 / 1125899906842624 : ℚ) < 3 := by norm_num
  have n4 : ¬ (6605279453476727 / 1125899906842624 : ℚ) < 4 := by norm_num
  have n5 : ¬ (6605279453476727 / 1125899906842624 : ℚ) < 5 := by norm_num
  have y6 : (6605279453476727 / 1125899906842624 : ℚ) < 6 := by norm_num
  have a1 : |(975779919263607 / 1125899906842624 : ℚ)| =
      975779919263607 / 1125899906842624 := abs_of_pos (by norm_num)
  have a2 : |(13 / 15 : ℚ)| = 13 / 15 := abs_of_pos (by norm_num)
  have hs : binary64.escapeScaled 352 (1 / 2) =
      (255, 0, 4785074604081167 / 140737488355328) := by
    norm_num [a1, rounding.escapeScaled, rounding.escapeChroma, rounding.div, rounding.sub,
      rounding.mul, rounding.add, binary64, fabs, roundBinary64_zero, roundBinary64_one,
      roundBinary64_half, roundBinary64_255, roundBinary64_sextant, fmod_sextant,
      roundBinary64_sextant_part, roundBinary64_second, roundBinary64_second_scaled,
      n1, n2, n3, n4, n5, y6]
  have hlight : binary64.escapeLightness samplePow 8 (sampleInput 1).color = 1 / 2 := by
    norm_num [rounding.escapeLightness, sampleInput]
  have c255 : toChannel 255 = 255 := by
    norm_num [toChannel]
    decide
  have c0 : toChannel 0 = 0 := by norm_num [toChannel]
  have c35 : toChannel (4785074604081167 / 140737488355328) = 35 := by
    have hc : ⌈(4785074604081167 / 140737488355328 : ℚ)⌉ = 35 :=
      Int.ceil_eq_iff.mpr ⟨by norm_num, by norm_num⟩
    simp only [toChannel, hc]
    decide
  have c34 : toChannel 34 = 34 := by
    norm_num [toChannel]
    decide
  have hf : fmod (352 / 60) 2 = 28 / 15 := by
    have hfloor : ⌊(352 / 60 / 2 : ℚ)⌋ = 2 := Int.floor_eq_iff.mpr ⟨by norm_num, by norm_num⟩
    rw [(fmod_of_nonneg _ 2 (by norm_num) (by norm_num)).1, hfloor]
    norm_num
  have hse : escapeScaled 352 (1 / 2) = (255, 0, 34) := by
    simp only [escapeScaled, hf, fabs]
    norm_num [a2]
  have hhue : escapeHue 8 (sampleInput 1).color = 352 := by
    norm_num [escapeHue, sampleInput, fmod_352]
  have hl : escapeLightness samplePow 8 (sampleInput 1).color = 1 / 2 := by
    norm_num [escapeLightness, sampleInput]
  refine ⟨hs, by norm_num, ?_, hse, ?_⟩
  · rw [rounding_escapeColor_eq binary64 samplePow 8 _ (by decide), binary64_escapeHue_eight,
      hlight, hs]
    simp only [c255, c0, c35]
  · rw [escapeColor_eq samplePow 8 _ (by decide), hhue, hl]
    have : escapeColorHSL 352 (1 / 2) =
        { r := toChannel (escapeScaled 352 (1 / 2)).1
          g := toChannel (escapeScaled 352 (1 / 2)).2.1
          b := toChannel (escapeScaled 352 (1 / 2)).2.2 } := rfl
    rw [this, hse]
    simp only [c255, c0, c34]

/-- Witness of C18 in binary64: the default colours, escape value `8` of
`360`, whose hue is `352`. -/
theorem escapeColor_sextant_witness :
    (1 : Int) ≤ 8 ∧ (8 : Int) ≤ (sampleInput 1).color.maxIterations ∧
    0 ≤ binary64.escapeHue 8 (sampleInput 1).color ∧
    binary64.escapeHue 8 (sampleInput 1).color < 360 ∧
    binary64.escapeColor samplePow 8 (sampleInput 1).color =
      binary64.specColor (binary64.escapeHue 8 (sampleInput 1).color)
        (binary64.escapeLightness samplePow 8 (sampleInput 1).color) :=
  have h0 : 0 ≤ binary64.escapeHue 8 (sampleInput 1).color := by
    rw [binary64_escapeHue_eight]; norm_num
  have h360 : binary64.escapeHue 8 (sampleInput 1).color < 360 := by
    rw [binary64_escapeHue_eight]; norm_num
  ⟨by decide, by decide, h0, h360,
    escapeColor_sextant binary64 samplePow 8 (sampleInput 1).color (by decide) (by decide)
      h0 h360 roundBinary64_idem
      (fun hue hh _ => roundBinary64_nonneg _ (div_nonneg hh (by norm_num)))⟩

/-! ## Two pixels of the image of 34 columns and 34 rows in binary64

The pixels `(2, 25)` and `(2, 9)` of the default view of 34 columns and 34
rows are the points `(-30/17, -16/17)` and `(-30/17, 16/17)` over the reals,
both of squared magnitude four.  In binary64 the two imaginary parts are not
opposite, the sum of the squares is half way between two neighbours at both
points and goes to the even one: below four at the row `25`, four at the row
`9`. -/

theorem roundBinary64_image_width : roundBinary64 34 = 34 :=
  roundBinary64_eq _ _ (5) (4785074604081152) (by norm_num) (by norm_num)
    (by norm_num) (by norm_num)

theorem roundBinary64_image_double_height : roundBinary64 68 = 68 :=
  roundBinary64_eq _ _ (6) (4785074604081152) (by norm_num) (by norm_num)
    (by norm_num) (by norm_num)

theorem roundBinary64_image_step : roundBinary64 (2 / 17) = 4238682002231055 / 36028797018963968 :=
  roundBinary64_eq _ _ (-4) (8477364004462110) (by norm_num) (by norm_num)
    (by norm_num) (by norm_num)

theorem roundBinary64_image_column :
    roundBinary64 (4238682002231055 / 18014398509481984) =
      4238682002231055 / 18014398509481984 :=
  roundBinary64_eq _ _ (-3) (8477364004462110) (by norm_num) (by norm_num)
    (by norm_num) (by norm_num)

theorem roundBinary64_image_real :
    roundBinary64 (31790115016732913 / 18014398509481984) =
      1986882188545807 / 1125899906842624 :=
  roundBinary64_eq _ _ (0) (7947528754183228) (by norm_num) (by norm_num)
    (by norm_num) (by norm_num)

theorem roundBinary64_image_real_kept :
    roundBinary64 (1986882188545807 / 1125899906842624) =
      1986882188545807 / 1125899906842624 :=
  roundBinary64_eq _ _ (0) (7947528754183228) (by norm_num) (by norm_num)
    (by norm_num) (by norm_num)

theorem roundBinary64_image_row :
    roundBinary64 (105967050055776375 / 36028797018963968) =
      6622940628486023 / 2251799813685248 :=
  roundBinary64_eq _ _ (1) (6622940628486023) (by norm_num) (by norm_num)
    (by norm_num) (by norm_num)

theorem roundBinary64_image_imag :
    roundBinary64 (2119341001115527 / 2251799813685248) =
      2119341001115527 / 2251799813685248 :=
  roundBinary64_eq _ _ (-1) (8477364004462108) (by norm_num) (by norm_num)
    (by norm_num) (by norm_num)

theorem roundBinary64_image_row_above :
    roundBinary64 (38148138020079495 / 36028797018963968) =
      4768517252509937 / 4503599627370496 :=
  roundBinary64_eq _ _ (0) (4768517252509937) (by norm_num) (by norm_num)
    (by norm_num) (by norm_num)

theorem roundBinary64_image_imag_above :
    roundBinary64 (4238682002231055 / 4503599627370496) =
      4238682002231055 / 4503599627370496 :=
  roundBinary64_eq _ _ (-1) (8477364004462110) (by norm_num) (by norm_num)
    (by norm_num) (by norm_num)

theorem roundBinary64_image_real_square :
    roundBinary64 (3947700831160575757069337281249 / 1267650600228229401496703205376) =
      3506262685669071 / 1125899906842624 :=
  roundBinary64_eq _ _ (1) (7012525371338142) (by norm_num) (by norm_num)
    (by norm_num) (by norm_num)

theorem roundBinary64_image_imag_square :
    roundBinary64 (4491606279009364216658400487729 / 5070602400912917605986812821504) =
      3989347766805697 / 4503599627370496 :=
  roundBinary64_eq _ _ (-1) (7978695533611394) (by norm_num) (by norm_num)
    (by norm_num) (by norm_num)

theorem roundBinary64_image_imag_above_square :
    roundBinary64 (17966425116037465343997606413025 / 20282409603651670423947251286016) =
      3989347766805699 / 4503599627370496 :=
  roundBinary64_eq _ _ (-1) (7978695533611398) (by norm_num) (by norm_num)
    (by norm_num) (by norm_num)

theorem roundBinary64_image_first_test :
    roundBinary64 (18014398509481981 / 4503599627370496) =
      4503599627370495 / 1125899906842624 :=
  roundBinary64_tie _ _ (1) (9007199254740990) (9007199254740990) (by norm_num) (by norm_num)
    (by norm_num) (by norm_num) (by norm_num) (by norm_num)

theorem roundBinary64_image_first_test_above :
    roundBinary64 (18014398509481983 / 4503599627370496) =
      4 :=
  roundBinary64_tie _ _ (1) (9007199254740991) (9007199254740992) (by norm_num) (by norm_num)
    (by norm_num) (by norm_num) (by norm_num) (by norm_num)

theorem roundBinary64_image_difference :
    roundBinary64 (10035702975870587 / 4503599627370496) =
      2508925743967647 / 1125899906842624 :=
  roundBinary64_tie _ _ (1) (5017851487935293) (5017851487935294) (by norm_num) (by norm_num)
    (by norm_num) (by norm_num) (by norm_num) (by norm_num)

theorem roundBinary64_image_second_real :
    roundBinary64 (32627722213865 / 70368744177664) =
      32627722213865 / 70368744177664 :=
  roundBinary64_eq _ _ (-2) (8352696886749440) (by norm_num) (by norm_num)
    (by norm_num) (by norm_num)

theorem roundBinary64_image_double :
    roundBinary64 (1986882188545807 / 562949953421312) =
      1986882188545807 / 562949953421312 :=
  roundBinary64_eq _ _ (1) (7947528754183228) (by norm_num) (by norm_num)
    (by norm_num) (by norm_num)

theorem roundBinary64_image_cross :
    roundBinary64 (4210880886571279880328938445289 / 1267650600228229401496703205376) =
      7480027062760683 / 2251799813685248 :=
  roundBinary64_eq _ _ (1) (7480027062760683) (by norm_num) (by norm_num)
    (by norm_num) (by norm_num)

theorem roundBinary64_image_second_imag :
    roundBinary64 (1340171515411289 / 562949953421312) =
      1340171515411289 / 562949953421312 :=
  roundBinary64_eq _ _ (1) (5360686061645156) (by norm_num) (by norm_num)
    (by norm_num) (by norm_num)

theorem roundBinary64_image_second_real_square :
    roundBinary64 (1064568256865139576798238225 / 4951760157141521099596496896) =
      7745753514355889 / 36028797018963968 :=
  roundBinary64_eq _ _ (-3) (7745753514355889) (by norm_num) (by norm_num)
    (by norm_num) (by norm_num)

theorem roundBinary64_image_second_imag_square :
    roundBinary64 (1796059690719790829634828641521 / 316912650057057350374175801344) =
      3190442915581199 / 562949953421312 :=
  roundBinary64_eq _ _ (2) (6380885831162398) (by norm_num) (by norm_num)
    (by norm_num) (by norm_num)

theorem roundBinary64_image_second_test :
    roundBinary64 (211934100111552625 / 36028797018963968) =
      1655735157121505 / 281474976710656 :=
  roundBinary64_eq _ _ (2) (6622940628486020) (by norm_num) (by norm_num)
    (by norm_num) (by norm_num)

theorem roundBinary64_image_ratio :
    roundBinary64 (359 / 360) =
      2245544814202789 / 2251799813685248 :=
  roundBinary64_eq _ _ (-1) (8982179256811156) (by norm_num) (by norm_num)
    (by norm_num) (by norm_num)

theorem roundBinary64_image_ratio_scaled :
    roundBinary64 (101049516639125505 / 281474976710656) =
      359 :=
  roundBinary64_eq _ _ (8) (6315594789945344) (by norm_num) (by norm_num)
    (by norm_num) (by norm_num)

theorem roundBinary64_image_359 : roundBinary64 359 = 359 :=
  roundBinary64_eq _ _ (8) (6315594789945344) (by norm_num) (by norm_num)
    (by norm_num) (by norm_num)

theorem roundBinary64_image_sextant :
    roundBinary64 (1 / 60) =
      4803839602528529 / 288230376151711744 :=
  roundBinary64_eq _ _ (-6) (4803839602528529) (by norm_num) (by norm_num)
    (by norm_num) (by norm_num)

theorem roundBinary64_image_sextant_kept :
    roundBinary64 (4803839602528529 / 288230376151711744) =
      4803839602528529 / 288230376151711744 :=
  roundBinary64_eq _ _ (-6) (4803839602528529) (by norm_num) (by norm_num)
    (by norm_num) (by norm_num)

theorem roundBinary64_image_part :
    roundBinary64 (283426536549183215 / 288230376151711744) =
      8857079267161975 / 9007199254740992 :=
  roundBinary64_eq _ _ (-1) (8857079267161975) (by norm_num) (by norm_num)
    (by norm_num) (by norm_num)

theorem roundBinary64_image_second :
    roundBinary64 (150119987579017 / 9007199254740992) =
      150119987579017 / 9007199254740992 :=
  roundBinary64_eq _ _ (-6) (4803839602528544) (by norm_num) (by norm_num)
    (by norm_num) (by norm_num)

theorem roundBinary64_image_green :
    roundBinary64 (38280596832649335 / 9007199254740992) =
      4785074604081167 / 1125899906842624 :=
  roundBinary64_eq _ _ (2) (4785074604081167) (by norm_num) (by norm_num)
    (by norm_num) (by norm_num)

/-- In binary64 the pixels `(2, 25)` and `(2, 9)` of the view of 34 columns
and 34 rows are the points `(-1986882188545807 / 2^50, -2119341001115527 / 2^51)`
and `(-1986882188545807 / 2^50, 4238682002231055 / 2^52)`; without rounding
they are `(-30/17, -16/17)` and `(-30/17, 16/17)`. -/
theorem binary64_specPoint_squareView :
    binary64.specPoint squareView 2 25 =
      { real := -(1986882188545807 / 1125899906842624),
        imag := -(2119341001115527 / 2251799813685248) } ∧
    binary64.specPoint squareView 2 9 =
      { real := -(1986882188545807 / 1125899906842624),
        imag := 4238682002231055 / 4503599627370496 } ∧
    specPoint squareView 2 25 = { real := -(30 / 17), imag := -(16 / 17) } ∧
    specPoint squareView 2 9 = { real := -(30 / 17), imag := 16 / 17 } := by
  refine ⟨?_, ?_, ?_, ?_⟩
  · norm_num [rounding.specPoint, rounding.add, rounding.sub, rounding.mul, rounding.div,
      binary64, squareView, roundBinary64_zero, roundBinary64_neg, roundBinary64_two,
      roundBinary64_image_width, roundBinary64_image_double_height, roundBinary64_image_step,
      roundBinary64_image_column, roundBinary64_image_real, roundBinary64_image_row,
      roundBinary64_image_imag]
  · norm_num [rounding.specPoint, rounding.add, rounding.sub, rounding.mul, rounding.div,
      binary64, squareView, roundBinary64_zero, roundBinary64_neg, roundBinary64_two,
      roundBinary64_image_width, roundBinary64_image_double_height, roundBinary64_image_step,
      roundBinary64_image_column, roundBinary64_image_real, roundBinary64_image_row_above,
      roundBinary64_image_imag_above]
  · norm_num [specPoint, squareView]
  · norm_num [specPoint, squareView]

/-- In binary64 the first step from `(0, 0)` returns the constant at both
pixels, the squared magnitude of the pixel `(2, 25)` is
`4503599627370495 / 2^50`, below four, that of the pixel `(2, 9)` is four, and
the second iterate of the pixel `(2, 25)` has a squared magnitude above
four. -/
theorem binary64_orbit_squareView :
    binary64.toArith.mandelbrot
        { real := -(1986882188545807 / 1125899906842624),
          imag := -(2119341001115527 / 2251799813685248) }
        { real := binary64.toArith.zero, imag := binary64.toArith.zero } =
      { real := -(1986882188545807 / 1125899906842624),
        imag := -(2119341001115527 / 2251799813685248) } ∧
    binary64.toArith.sqMag
        { real := -(1986882188545807 / 1125899906842624),
          imag := -(2119341001115527 / 2251799813685248) } =
      4503599627370495 / 1125899906842624 ∧
    binary64.toArith.mandelbrot
        { real := -(1986882188545807 / 1125899906842624),
          imag := -(2119341001115527 / 2251799813685248) }
        { real := -(1986882188545807 / 1125899906842624),
          imag := -(2119341001115527 / 2251799813685248) } =
      { real := 32627722213865 / 70368744177664,
        imag := 1340171515411289 / 562949953421312 } ∧
    binary64.toArith.sqMag
        { real := 32627722213865 / 70368744177664,
          imag := 1340171515411289 / 562949953421312 } =
      1655735157121505 / 281474976710656 ∧
    binary64.toArith.mandelbrot
        { real := -(1986882188545807 / 1125899906842624),
          imag := 4238682002231055 / 4503599627370496 }
        { real := binary64.toArith.zero, imag := binary64.toArith.zero } =
      { real := -(1986882188545807 / 1125899906842624),
        imag := 4238682002231055 / 4503599627370496 } ∧
    binary64.toArith.sqMag
        { real := -(1986882188545807 / 1125899906842624),
          imag := 4238682002231055 / 4503599627370496 } = 4 := by
  refine ⟨?_, ?_, ?_, ?_, ?_, ?_⟩
  · simp [arith.mandelbrot, rounding.toArith, rounding.add, rounding.sub, rounding.mul,
      binary64, roundBinary64_zero, roundBinary64_neg, roundBinary64_image_real_kept,
      roundBinary64_image_imag]
  · norm_num [arith.sqMag, rounding.toArith, rounding.add, rounding.mul, binary64,
      roundBinary64_image_real_square, roundBinary64_image_imag_square,
      roundBinary64_image_first_test]
  · norm_num [arith.mandelbrot, rounding.toArith, rounding.add, rounding.sub, rounding.mul,
      binary64, roundBinary64_neg, roundBinary64_image_real_square,
      roundBinary64_image_imag_square, roundBinary64_image_difference,
      roundBinary64_image_second_real, roundBinary64_image_double,
      roundBinary64_image_cross, roundBinary64_image_second_imag]
  · norm_num [arith.sqMag, rounding.toArith, rounding.add, rounding.mul, binary64,
      roundBinary64_image_second_real_square, roundBinary64_image_second_imag_square,
      roundBinary64_image_second_test]
  · simp [arith.mandelbrot, rounding.toArith, rounding.add, rounding.sub, rounding.mul,
      binary64, roundBinary64_zero, roundBinary64_neg, roundBinary64_image_real_kept,
      roundBinary64_image_imag_above]
  · norm_num [arith.sqMag, rounding.toArith, rounding.add, rounding.mul, binary64,
      roundBinary64_image_real_square, roundBinary64_image_imag_above_square,
      roundBinary64_image_first_test_above]

/-- With the budget `360` the pixel `(2, 25)` of the view of 34 columns and 34
rows has the escape value `359` in binary64, the squared magnitude of its
first iterate being rounded below four, and the pixel `(2, 9)` has the escape
value `360`; without rounding both have the escape value `360`. -/
theorem binary64_escapeTime_squareView :
    binary64.toArith.escapeTime 360 (binary64.specPoint squareView 2 25).toF
      (sampleInput 1).calcSet.toF = 359 ∧
    binary64.toArith.escapeTime 360 (binary64.specPoint squareView 2 9).toF
      (sampleInput 1).calcSet.toF = 360 ∧
    escapeTime 360 (specPoint squareView 2 25) (sampleInput 1).calcSet = 360 ∧
    escapeTime 360 (specPoint squareView 2 9) (sampleInput 1).calcSet = 360 := by
  obtain ⟨hlow, habove, hlow0, habove0⟩ := binary64_specPoint_squareView
  obtain ⟨s1, m1, s2, m2, s3, m3⟩ := binary64_orbit_squareView
  have hbudget : (360 : Int).toNat = 358 + 1 + 1 := by decide
  have hzero : ({ real := 0, imag := 0 } : tComplexF ℚ) =
      { real := binary64.toArith.zero, imag := binary64.toArith.zero } := rfl
  have hfour : binary64.toArith.four = 4 := rfl
  have hge : ∀ x y : ℚ, binary64.toArith.ge x y = decide (x ≥ y) := fun _ _ => rfl
  refine ⟨?_, ?_, ?_, ?_⟩
  · rw [hlow, arith_escapeTime_eq_loop]
    simp only [sampleInput, calcSettings.toF, tComplex.toF, if_true, hbudget]
    rw [arith_escapeLoop_succ, s1, m1, if_neg (by rw [hfour, hge]; norm_num),
      arith_escapeLoop_succ, s2, m2, if_pos (by rw [hfour, hge]; norm_num)]
    norm_num
  · rw [habove, arith_escapeTime_eq_loop]
    simp only [sampleInput, calcSettings.toF, tComplex.toF, if_true, hbudget]
    rw [arith_escapeLoop_succ, s3, m3, if_pos (by rw [hfour, hge]; norm_num)]
    norm_num
  · rw [hlow0]
    simp only [escapeTime, sampleInput, if_true, hbudget]
    rw [escapeLoop_succ, if_pos (by norm_num [sqMag, mandelbrot])]
    norm_num
  · rw [habove0]
    simp only [escapeTime, sampleInput, if_true, hbudget]
    rw [escapeLoop_succ, if_pos (by norm_num [sqMag, mandelbrot])]
    norm_num

theorem fmod_image_sextant :
    fmod (4803839602528529 / 288230376151711744) 2 =
      4803839602528529 / 288230376151711744 := by
  have hfloor : ⌊(4803839602528529 / 288230376151711744 / 2 : ℚ)⌋ = 0 :=
    Int.floor_eq_iff.mpr ⟨by norm_num, by norm_num⟩
  rw [(fmod_of_nonneg _ 2 (by norm_num) (by norm_num)).1, hfloor]
  norm_num

theorem fmod_one : fmod 1 360 = 1 := by
  have hfloor : ⌊(1 / 360 : ℚ)⌋ = 0 := Int.floor_eq_iff.mpr ⟨by norm_num, by norm_num⟩
  rw [(fmod_of_nonneg 1 360 (by norm_num) (by norm_num)).1, hfloor]
  norm_num

/-- In binary64 the escape value `359` of `360` under the default colours has
the hue `1` and the scaled values `255`, `4785074604081167 / 2^50` and `0`,
the second just above `4.25`, and `escapeColor` returns the pixel
`(255, 5, 0)`. -/
theorem binary64_escapeColor_359 :
    binary64.escapeHue 359 (sampleInput 1).color = 1 ∧
    binary64.escapeScaled 1 (1 / 2) = (255, 4785074604081167 / 1125899906842624, 0) ∧
    binary64.escapeColor samplePow 359 (sampleInput 1).color = { r := 255, g := 5, b := 0 } := by
  have y1 : (4803839602528529 / 288230376151711744 : ℚ) < 1 := by norm_num
  have a1 : |(8857079267161975 / 9007199254740992 : ℚ)| =
      8857079267161975 / 9007199254740992 := abs_of_pos (by norm_num)
  have hhue : binary64.escapeHue 359 (sampleInput 1).color = 1 := by
    norm_num [rounding.escapeHue, rounding.div, rounding.sub, rounding.mul, rounding.add,
      binary64, sampleInput, roundBinary64_image_ratio, roundBinary64_image_ratio_scaled,
      roundBinary64_image_359, roundBinary64_one, fmod_one]
  have hs : binary64.escapeScaled 1 (1 / 2) =
      (255, 4785074604081167 / 1125899906842624, 0) := by
    norm_num [a1, rounding.escapeScaled, rounding.escapeChroma, rounding.div, rounding.sub,
      rounding.mul, rounding.add, binary64, fabs, roundBinary64_zero, roundBinary64_one,
      roundBinary64_half, roundBinary64_255, roundBinary64_neg, roundBinary64_image_sextant,
      fmod_image_sextant, roundBinary64_image_part, roundBinary64_image_second,
      roundBinary64_image_green, y1]
  have hlight : binary64.escapeLightness samplePow 359 (sampleInput 1).color = 1 / 2 := by
    norm_num [rounding.escapeLightness, sampleInput]
  have c255 : toChannel 255 = 255 := by
    norm_num [toChannel]
    decide
  have c0 : toChannel 0 = 0 := by norm_num [toChannel]
  have c5 : toChannel (4785074604081167 / 1125899906842624) = 5 := by
    have hc : ⌈(4785074604081167 / 1125899906842624 : ℚ)⌉ = 5 :=
      Int.ceil_eq_iff.mpr ⟨by norm_num, by norm_num⟩
    simp only [toChannel, hc]
    decide
  refine ⟨hhue, hs, ?_⟩
  rw [rounding_escapeColor_eq binary64 samplePow 359 _ (by decide), hhue, hlight, hs]
  simp only [c255, c0, c5]

/-- In binary64 the renderers colour the pixel `(2, 25)` of the default image
of 34 columns and 34 rows `(255, 5, 0)`, the colour of the escape value
`359`. -/
theorem binary64_escapePixel_squareView :
    binary64.escapePixel samplePow (binary64.specPoint squareView 2 25) (sampleInput 1).color
      (sampleInput 1).calcSet = { r := 255, g := 5, b := 0 } := by
  have he : binary64.toArith.escapeTime (sampleInput 1).color.maxIterations
      (binary64.specPoint squareView 2 25).toF (sampleInput 1).calcSet.toF = 359 :=
    binary64_escapeTime_squareView.1
  unfold rounding.escapePixel
  simp only [he]
  exact binary64_escapeColor_359.2.2

/-! ## The claims on the schedule and on the selection of the renderer -/

/-- What a thread stores into its grid depends on that grid only. -/
theorem threadBody_local (pow : ℚ → ℚ → ℚ) (renderInput : renderSettings)
    (miniHeight threadID : Nat) (images images' : Nat → tImage)
    (h : images threadID = images' threadID) :
    threadBody pow renderInput miniHeight threadID images threadID =
      threadBody pow renderInput miniHeight threadID images' threadID := by
  unfold threadBody
  simp only [Function.update_same, h]

/-- A thread body is a store into the grid of the thread. -/
theorem threadBody_update (pow : ℚ → ℚ → ℚ) (renderInput : renderSettings)
    (miniHeight threadID : Nat) (images : Nat → tImage) :
    threadBody pow renderInput miniHeight threadID images =
      Function.update images threadID
        (threadBody pow renderInput miniHeight threadID images threadID) := by
  funext j
  by_cases hj : j = threadID
  · subst hj
    rw [Function.update_same]
  · rw [Function.update_noteq hj, threadBody_other pow renderInput miniHeight threadID images j hj]

/-- Two thread bodies commute. -/
theorem threadBody_comm (pow : ℚ → ℚ → ℚ) (renderInput : renderSettings)
    (miniHeight a b : Nat) (images : Nat → tImage) :
    threadBody pow renderInput miniHeight a (threadBody pow renderInput miniHeight b images) =
      threadBody pow renderInput miniHeight b
        (threadBody pow renderInput miniHeight a images) := by
  by_cases hab : a = b
  · subst hab
    rfl
  · have hba : b ≠ a := fun h => hab h.symm
    rw [threadBody_update pow renderInput miniHeight a (threadBody pow renderInput miniHeight b images),
      threadBody_update pow renderInput miniHeight b (threadBody pow renderInput miniHeight a images),
      threadBody_local pow renderInput miniHeight a _ images
        (threadBody_other pow renderInput miniHeight b images a hab),
      threadBody_local pow renderInput miniHeight b _ images
        (threadBody_other pow renderInput miniHeight a images b hba),
      threadBody_update pow renderInput miniHeight b images,
      threadBody_update pow renderInput miniHeight a images]
    simp only [Function.update_same]
    exact Function.update_comm hba _ _ _

/-- C19: the body of the thread `threadID` changes only the grid
`threadImages[threadID]`; hence two schedules that are permutations of each
other leave the same grids, and `renderToTarga_parallel` returns the same
status, writes the same bytes and logs the same heap events under both. -/
theorem parallel_order_independent (pow : ℚ → ℚ → ℚ) (alloc : Nat → allocOracle)
    (order order' : List Nat) (renderInput : renderSettings) (m : machine)
    (hperm : order.Perm order') :
    (∀ (miniHeight threadID j : Nat) (images : Nat → tImage), j ≠ threadID →
      threadBody pow renderInput miniHeight threadID images j = images j) ∧
    (∀ (miniHeight : Nat) (images : Nat → tImage),
      order.foldl
          (fun images threadID => threadBody pow renderInput miniHeight threadID images)
          images =
        order'.foldl
          (fun images threadID => threadBody pow renderInput miniHeight threadID images)
          images) ∧
    renderToTarga_parallel pow alloc order renderInput m =
      renderToTarga_parallel pow alloc order' renderInput m := by
  have hfold : ∀ (miniHeight : Nat) (images : Nat → tImage),
      order.foldl
          (fun images threadID => threadBody pow renderInput miniHeight threadID images)
          images =
        order'.foldl
          (fun images threadID => threadBody pow renderInput miniHeight threadID images)
          images := by
    intro miniHeight images
    exact List.Perm.foldl_eq' hperm
      (fun x _ y _ z => threadBody_comm pow renderInput miniHeight y x z) images
  refine ⟨?_, hfold, ?_⟩
  · intro miniHeight threadID j images hj
    exact threadBody_other pow renderInput miniHeight threadID images j hj
  · unfold renderToTarga_parallel
    simp only [hfold]

/-- Witness of C19: the schedules `0, 1, 2` and `2, 0, 1`. -/
theorem parallel_order_independent_witness :
    [0, 1, 2].Perm [2, 0, 1] ∧
    renderToTarga_parallel samplePow (fun _ => sampleAlloc) [0, 1, 2] (sampleInput 3)
        emptyMachine =
      renderToTarga_parallel samplePow (fun _ => sampleAlloc) [2, 0, 1] (sampleInput 3)
        emptyMachine :=
  have hperm : [0, 1, 2].Perm [2, 0, 1] := by decide
  ⟨hperm,
    (parallel_order_independent samplePow (fun _ => sampleAlloc) [0, 1, 2] [2, 0, 1]
      (sampleInput 3) emptyMachine hperm).2.2⟩

/-- C20: for a thread count of at least one and a low-memory flag of `0` or
`1`, `main` calls exactly one renderer: the parallel one exactly when
`threadCount > 1`, whatever the flag; otherwise the streaming one when the
flag is `1` and the sequential one when it is `0`; and the status and the
state it continues with are those of that call. -/
theorem main_selects_renderer (pow : ℚ → ℚ → ℚ) (allocSeq : allocOracle)
    (allocPar : Nat → allocOracle) (order : List Nat) (renderInput : renderSettings)
    (lowMemoryFlag : Int) (m : machine)
    (hthreads : 1 ≤ renderInput.draw.threadCount)
    (hflag : lowMemoryFlag = 0 ∨ lowMemoryFlag = 1) :
    (rendererCall.parallel ∈ mainCalls renderInput.draw.threadCount lowMemoryFlag ↔
      renderInput.draw.threadCount > 1) ∧
    (renderInput.draw.threadCount > 1 →
      mainCalls renderInput.draw.threadCount lowMemoryFlag = [rendererCall.parallel]) ∧
    (¬ renderInput.draw.threadCount > 1 → lowMemoryFlag = 1 →
      mainCalls renderInput.draw.threadCount lowMemoryFlag = [rendererCall.lowMem]) ∧
    (¬ renderInput.draw.threadCount > 1 → lowMemoryFlag = 0 →
      mainCalls renderInput.draw.threadCount lowMemoryFlag = [rendererCall.sequential]) ∧
    (mainCalls renderInput.draw.threadCount lowMemoryFlag).length = 1 ∧
    mainRender pow allocSeq allocPar order renderInput lowMemoryFlag m =
      (if renderInput.draw.threadCount > 1 then
        renderToTarga_parallel pow allocPar order renderInput m
      else if lowMemoryFlag = 1 then renderToTarga_lowMem pow renderInput m
      else renderToTarga pow allocSeq renderInput m) := by
  unfold mainRender mainCalls
  rcases Nat.eq_or_lt_of_le hthreads with hone | ht
  · have ht : ¬ renderInput.draw.threadCount > 1 := by omega
    rcases hflag with h0 | h1
    · simp [ht, h0, rendererCall.run]
    · simp [ht, h1, rendererCall.run]
  · have ht' : renderInput.draw.threadCount > 1 := ht
    simp [ht', rendererCall.run]

/-- Witness of C20: three threads with the low-memory flag set. -/
theorem main_selects_renderer_witness :
    1 ≤ (sampleInput 3).draw.threadCount ∧ ((1 : Int) = 0 ∨ (1 : Int) = 1) ∧
    mainCalls (sampleInput 3).draw.threadCount 1 = [rendererCall.parallel] :=
  ⟨by decide, Or.inr rfl,
    (main_selects_renderer samplePow sampleAlloc (fun _ => sampleAlloc) [0, 1, 2]
      (sampleInput 3) 1 emptyMachine (by decide) (Or.inr rfl)).2.1 (by decide)⟩

/-! ## The claims on the streaming renderer and on the iteration budget -/

/-- C21: `renderToTarga_lowMem` returns the status `0` for every
configuration, never the allocation-failure status `1`, and logs no heap
event: it has no allocation path. -/
theorem renderToTarga_lowMem_status (pow : ℚ → ℚ → ℚ) (renderInput : renderSettings)
    (m : machine) :
    (renderToTarga_lowMem pow renderInput m).1 = 0 ∧
    (renderToTarga_lowMem pow renderInput m).1 ≠ 1 ∧
    (renderToTarga_lowMem pow renderInput m).2.heap = m.heap := by
  rw [renderToTarga_lowMem_eq]
  exact ⟨rfl, by norm_num, rfl⟩

/-- In Mandelbrot mode the full budget is returned exactly when the first
step from `(0, 0)` escapes. -/
theorem escapeTime_mandelbrot_eq_budget (n : Int) (h : 1 ≤ n) (c : tComplex)
    (calcSet : calcSettings) (hkind : calcSet.juliaFlag = 0) :
    escapeTime n c calcSet = n ↔ 4 ≤ sqMag (mandelbrot c { real := 0, imag := 0 }) := by
  have hcast : ((n.toNat : Nat) : Int) = n := Int.toNat_of_nonneg (by omega)
  have := escapeLoop_eq_budget c { real := 0, imag := 0 } n.toNat (by omega)
  rw [hcast] at this
  simpa [escapeTime, hkind] using this

/-- One more iteration of budget: a positive result grows by one, a zero
result becomes `0` or `1`. -/
theorem escapeLoop_budget_succ (c : tComplex) :
    ∀ (n : Nat) (z : tComplex),
      (0 < escapeLoop c n z → escapeLoop c (n + 1) z = escapeLoop c n z + 1) ∧
      (escapeLoop c n z = 0 →
        escapeLoop c (n + 1) z = 0 ∨ escapeLoop c (n + 1) z = 1) := by
  intro n
  induction n with
  | zero =>
    intro z
    constructor
    · intro h
      simp [escapeLoop] at h
    · intro _
      rw [escapeLoop_succ]
      split
      · right; rfl
      · left; rfl
  | succ n ih =>
    intro z
    rw [escapeLoop_succ c z (n + 1), escapeLoop_succ c z n]
    by_cases hesc : 4 ≤ sqMag (mandelbrot c z)
    · rw [if_pos hesc, if_pos hesc]
      constructor
      · intro _
        push_cast
        ring
      · intro h
        exfalso
        have : (0 : Int) < ((n + 1 : Nat) : Int) := by exact_mod_cast Nat.succ_pos n
        omega
    · rw [if_neg hesc, if_neg hesc]
      exact ih (mandelbrot c z)

/-- C24: for every budget `n >= 1`, point and fractal kind, a positive
`escapeTime n` gives `escapeTime (n + 1) = escapeTime n + 1`, and
`escapeTime n = 0` gives `escapeTime (n + 1)` equal to `0` or to `1`. -/
theorem escapeTime_budget_succ (n : Int) (h : 1 ≤ n) (p : tComplex)
    (calcSet : calcSettings) :
    (0 < escapeTime n p calcSet →
      escapeTime (n + 1) p calcSet = escapeTime n p calcSet + 1) ∧
    (escapeTime n p calcSet = 0 →
      escapeTime (n + 1) p calcSet = 0 ∨ escapeTime (n + 1) p calcSet = 1) := by
  have hnat : (n + 1).toNat = n.toNat + 1 := by omega
  rw [escapeTime_eq_loop, escapeTime_eq_loop, hnat]
  exact escapeLoop_budget_succ _ _ _

/-- Witness of C24: the point `(-2, 2)` with the budgets `50` and `51`. -/
theorem escapeTime_budget_succ_witness :
    (1 : Int) ≤ 50 ∧
    0 < escapeTime 50 { real := -2, imag := 2 } mandelbrotKind ∧
    escapeTime (50 + 1) { real := -2, imag := 2 } mandelbrotKind =
      escapeTime 50 { real := -2, imag := 2 } mandelbrotKind + 1 :=
  have h50 : escapeTime 50 { real := -2, imag := 2 } mandelbrotKind = 50 :=
    (escapeTime_mandelbrot_eq_budget 50 (by decide) { real := -2, imag := 2 } mandelbrotKind
      rfl).mpr (by norm_num [sqMag, mandelbrot])
  have hpos : 0 < escapeTime 50 { real := -2, imag := 2 } mandelbrotKind := by
    rw [h50]
    decide
  ⟨by decide, hpos,
    (escapeTime_budget_succ 50 (by decide) { real := -2, imag := 2 } mandelbrotKind).1 hpos⟩

/-! ## The claims on the points near the origin and on divergence -/

theorem orbitOfZero_succ (c : tComplex) (k : Nat) :
    orbitOfZero c (k + 1) = mandelbrot c (orbitOfZero c k) := by
  rw [orbitOfZero, Function.iterate_succ_apply', ← mandelbrot_eq_specStep]
  rfl

theorem orbitOfZero_eq (c : tComplex) (k : Nat) :
    orbitOfZero c k = (mandelbrot c)^[k] { real := 0, imag := 0 } := by
  have : mandelbrot c = specStep c := funext (mandelbrot_eq_specStep c)
  rw [orbitOfZero, this]

/-- A step with a constant of magnitude at most `1/4` keeps an iterate of
magnitude at most `1/2` within magnitude `1/2`. -/
theorem near_origin_step (c z : tComplex) (hc : sqMag c ≤ 1 / 16) (hz : sqMag z ≤ 1 / 4) :
    sqMag (mandelbrot c z) ≤ 1 / 4 := by
  unfold sqMag at *
  unfold mandelbrot
  simp only
  have hsq : (z.real * z.real - z.imag * z.imag) ^ 2 + (2 * z.real * z.imag) ^ 2 =
      (z.real * z.real + z.imag * z.imag) ^ 2 := by ring
  have h0 : 0 ≤ z.real * z.real + z.imag * z.imag := by
    nlinarith [mul_self_nonneg z.real, mul_self_nonneg z.imag]
  have h1 : (z.real * z.real + z.imag * z.imag) ^ 2 ≤ 1 / 16 := by nlinarith
  nlinarith [sq_nonneg (z.real * z.real - z.imag * z.imag - c.real),
    sq_nonneg (2 * z.real * z.imag - c.imag)]

/-- For a constant of magnitude at most `1/4` every iterate of the orbit of
`0` has magnitude at most `1/2`. -/
theorem near_origin_orbit (c : tComplex) (hc : sqMag c ≤ 1 / 16) :
    ∀ k : Nat, sqMag (orbitOfZero c k) ≤ 1 / 4 := by
  intro k
  induction k with
  | zero => norm_num [orbitOfZero, sqMag]
  | succ k ih =>
    rw [orbitOfZero_succ]
    exact near_origin_step c _ hc ih

/-- C25: for every point `c` with `c.real^2 + c.imag^2 <= 1/16`, every
iterate of the orbit stays within magnitude `1/2`, `escapeTime` returns `0` in
Mandelbrot mode for every budget, and `escapePixel` returns `(0, 0, 0)` for
every colour setting. -/
theorem near_origin_black (c : tComplex) (calcSet : calcSettings)
    (hc : c.real ^ 2 + c.imag ^ 2 ≤ 1 / 16) (hkind : calcSet.juliaFlag = 0) :
    (∀ k : Nat, sqMag (orbitOfZero c k) ≤ 1 / 4) ∧
    (∀ maxIterations : Int, escapeTime maxIterations c calcSet = 0) ∧
    (∀ (pow : ℚ → ℚ → ℚ) (color : colorSettings),
      escapePixel pow c color calcSet = { r := 0, g := 0, b := 0 }) := by
  have hc' : sqMag c ≤ 1 / 16 := by
    unfold sqMag
    nlinarith
  have horbit := near_origin_orbit c hc'
  have htime : ∀ maxIterations : Int, escapeTime maxIterations c calcSet = 0 := by
    intro maxIterations
    simp only [escapeTime, hkind, if_true]
    apply escapeLoop_none
    intro k _
    have := horbit (k + 1)
    rw [orbitOfZero_eq] at this
    intro h4
    linarith
  refine ⟨horbit, htime, ?_⟩
  intro pow color
  simp only [escapePixel, htime]
  simp [escapeColor]

/-- Witness of C25: the point `(1/8, -1/8)`. -/
theorem near_origin_black_witness :
    ((1 / 8 : ℚ) ^ 2 + (-1 / 8 : ℚ) ^ 2 ≤ 1 / 16) ∧ mandelbrotKind.juliaFlag = 0 ∧
    escapeTime 360 { real := 1 / 8, imag := -1 / 8 } mandelbrotKind = 0 ∧
    escapePixel samplePow { real := 1 / 8, imag := -1 / 8 } (sampleInput 1).color
      mandelbrotKind = { r := 0, g := 0, b := 0 } :=
  have hc : ((1 / 8 : ℚ) ^ 2 + (-1 / 8 : ℚ) ^ 2 ≤ 1 / 16) := by norm_num
  have h := near_origin_black { real := 1 / 8, imag := -1 / 8 } mandelbrotKind hc rfl
  ⟨hc, rfl, h.2.1 360, h.2.2 samplePow (sampleInput 1).color⟩

/-- The orbit of `0` for the constant `(-2, 0)` is `0, -2, 2, 2, ...`. -/
theorem orbitOfZero_minus_two (k : Nat) :
    orbitOfZero { real := -2, imag := 0 } (k + 2) = { real := 2, imag := 0 } := by
  induction k with
  | zero =>
    rw [orbitOfZero_succ, orbitOfZero_succ]
    norm_num [orbitOfZero, mandelbrot]
  | succ k ih =>
    rw [orbitOfZero_succ, ih]
    norm_num [mandelbrot]

/-- C22 as stated fails at `c = (-2, 0)`: `escapeTime` returns the full budget
`n`, which is not zero, for every `n >= 1`, while every iterate of the orbit
of `0` has squared magnitude at most `4`: the point does not diverge. -/
theorem escapeTime_reports_bounded_point :
    (∀ n : Int, 1 ≤ n → escapeTime n { real := -2, imag := 0 } mandelbrotKind = n) ∧
    escapeTime 1 { real := -2, imag := 0 } mandelbrotKind ≠ 0 ∧
    (∀ k : Nat, sqMag (orbitOfZero { real := -2, imag := 0 } k) ≤ 4) ∧
    ¬ diverges { real := -2, imag := 0 } := by
  have hfull : ∀ n : Int, 1 ≤ n →
      escapeTime n { real := -2, imag := 0 } mandelbrotKind = n := by
    intro n hn
    exact (escapeTime_mandelbrot_eq_budget n hn _ mandelbrotKind rfl).mpr
      (by norm_num [sqMag, mandelbrot])
  have hbound : ∀ k : Nat, sqMag (orbitOfZero { real := -2, imag := 0 } k) ≤ 4 := by
    intro k
    rcases k with _ | _ | k
    · norm_num [orbitOfZero, sqMag]
    · rw [orbitOfZero_succ]
      norm_num [orbitOfZero, sqMag, mandelbrot]
    · rw [orbitOfZero_minus_two]
      norm_num [sqMag]
  refine ⟨hfull, ?_, hbound, ?_⟩
  · rw [hfull 1 (by decide)]
    decide
  · intro hdiv
    obtain ⟨k, hk⟩ := hdiv 4
    exact absurd (hbound k) (not_le.mpr hk)

/-! ## The claims on the channels -/

/-- Every entry that the chain of comparisons of `escapeColor` selects lies
between `0` and the chroma. -/
theorem chain_range (h' chroma X : ℚ) (hc : 0 ≤ chroma) (hX0 : 0 ≤ X) (hX1 : X ≤ chroma) :
    (0 ≤ (if h' < 1 then (chroma, X, (0 : ℚ))
        else if h' < 2 then (X, chroma, 0)
        else if h' < 3 then (0, chroma, X)
        else if h' < 4 then (0, X, chroma)
        else if h' < 5 then (X, 0, chroma)
        else if h' < 6 then (chroma, 0, X)
        else (0, 0, 0)).1 ∧
      (if h' < 1 then (chroma, X, (0 : ℚ))
        else if h' < 2 then (X, chroma, 0)
        else if h' < 3 then (0, chroma, X)
        else if h' < 4 then (0, X, chroma)
        else if h' < 5 then (X, 0, chroma)
        else if h' < 6 then (chroma, 0, X)
        else (0, 0, 0)).1 ≤ chroma) ∧
    (0 ≤ (if h' < 1 then (chroma, X, (0 : ℚ))
        else if h' < 2 then (X, chroma, 0)
        else if h' < 3 then (0, chroma, X)
        else if h' < 4 then (0, X, chroma)
        else if h' < 5 then (X, 0, chroma)
        else if h' < 6 then (chroma, 0, X)
        else (0, 0, 0)).2.1 ∧
      (if h' < 1 then (chroma, X, (0 : ℚ))
        else if h' < 2 then (X, chroma, 0)
        else if h' < 3 then (0, chroma, X)
        else if h' < 4 then (0, X, chroma)
        else if h' < 5 then (X, 0, chroma)
        else if h' < 6 then (chroma, 0, X)
        else (0, 0, 0)).2.1 ≤ chroma) ∧
    (0 ≤ (if h' < 1 then (chroma, X, (0 : ℚ))
        else if h' < 2 then (X, chroma, 0)
        else if h' < 3 then (0, chroma, X)
        else if h' < 4 then (0, X, chroma)
        else if h' < 5 then (X, 0, chroma)
        else if h' < 6 then (chroma, 0, X)
        else (0, 0, 0)).2.2 ∧
      (if h' < 1 then (chroma, X, (0 : ℚ))
        else if h' < 2 then (X, chroma, 0)
        else if h' < 3 then (0, chroma, X)
        else if h' < 4 then (0, X, chroma)
        else if h' < 5 then (X, 0, chroma)
        else if h' < 6 then (chroma, 0, X)
        else (0, 0, 0)).2.2 ≤ chroma) := by
  by_cases h1 : h' < 1
  · simp only [if_pos h1]
    exact ⟨⟨hc, le_refl _⟩, ⟨hX0, hX1⟩, ⟨le_refl _, hc⟩⟩
  · by_cases h2 : h' < 2
    · simp only [if_neg h1, if_pos h2]
      exact ⟨⟨hX0, hX1⟩, ⟨hc, le_refl _⟩, ⟨le_refl _, hc⟩⟩
    · by_cases h3 : h' < 3
      · simp only [if_neg h1, if_neg h2, if_pos h3]
        exact ⟨⟨le_refl _, hc⟩, ⟨hc, le_refl _⟩, ⟨hX0, hX1⟩⟩
      · by_cases h4 : h' < 4
        · simp only [if_neg h1, if_neg h2, if_neg h3, if_pos h4]
          exact ⟨⟨le_refl _, hc⟩, ⟨hX0, hX1⟩, ⟨hc, le_refl _⟩⟩
        · by_cases h5 : h' < 5
          · simp only [if_neg h1, if_neg h2, if_neg h3, if_neg h4, if_pos h5]
            exact ⟨⟨hX0, hX1⟩, ⟨le_refl _, hc⟩, ⟨hc, le_refl _⟩⟩
          · by_cases h6 : h' < 6
            · simp only [if_neg h1, if_neg h2, if_neg h3, if_neg h4, if_neg h5, if_pos h6]
              exact ⟨⟨hc, le_refl _⟩, ⟨le_refl _, hc⟩, ⟨hX0, hX1⟩⟩
            · simp only [if_neg h1, if_neg h2, if_neg h3, if_neg h4, if_neg h5, if_neg h6]
              exact ⟨⟨le_refl _, hc⟩, ⟨le_refl _, hc⟩, ⟨le_refl _, hc⟩⟩

/-- A scaled value in `(-1, 255]` has its ceiling in `[0, 255]` and is
converted to that ceiling. -/
theorem toChannel_of_above (v : ℚ) (h0 : -1 < v) (h255 : v ≤ 255) :
    0 ≤ ⌈v⌉ ∧ ⌈v⌉ ≤ 255 ∧ ((toChannel v : Nat) : Int) = ⌈v⌉ := by
  have hc0 : 0 ≤ ⌈v⌉ := by
    have : (-1 : Int) < ⌈v⌉ := Int.lt_ceil.mpr (by exact_mod_cast h0)
    omega
  have hc1 : ⌈v⌉ ≤ 255 := Int.ceil_le.mpr (by exact_mod_cast h255)
  refine ⟨hc0, hc1, ?_⟩
  rw [toChannel_eq_specChannel]
  unfold specChannel
  omega

/-- A rounding to nearest keeps `0`. -/
theorem toNearest_zero (R : rounding) (hR : R.toNearest) : R.rnd 0 = 0 := by
  obtain ⟨_, hodd, _⟩ := hR
  have := hodd 0
  rw [neg_zero] at this
  linarith

/-- A rounding to nearest keeps the half of a number that it keeps. -/
theorem toNearest_half (R : rounding) (hR : R.toNearest) (x : ℚ) (hx : R.rnd x = x) :
    R.rnd (x / 2) = x / 2 := by
  obtain ⟨_, _, _, _, _, hdouble, _⟩ := hR
  have := hdouble (x / 2)
  rw [mul_div_cancel₀ x (by norm_num : (2 : ℚ) ≠ 0), hx] at this
  linarith

/-- A rounding to nearest keeps the powers `1 / 2^n`. -/
theorem toNearest_pow (R : rounding) (hR : R.toNearest) (n : Nat) :
    R.rnd (1 / 2 ^ n) = 1 / 2 ^ n := by
  induction n with
  | zero =>
    obtain ⟨_, _, _, hone, _⟩ := hR
    simpa using hone
  | succ n ih =>
    have := toNearest_half R hR _ ih
    have h2 : (1 : ℚ) / 2 ^ (n + 1) = 1 / 2 ^ n / 2 := by
      rw [pow_succ]
      field_simp
    rw [h2]
    exact this

/-- Under a rounding to nearest, a table entry `v` in `[0, chroma]` and a
translation `m` with `-2^-55 <= m` and `chroma + m <= 1` give a scaled value
in `[-2^-47, 255]`. -/
theorem scaled_channel_range (R : rounding) (hR : R.toNearest) (v m chroma : ℚ)
    (hv0 : 0 ≤ v) (hv1 : v ≤ chroma) (hm : -(1 / 2 ^ 55) ≤ m) (hcm : chroma + m ≤ 1) :
    -(1 / 2 ^ 47) ≤ R.mul (R.add v m) 255 ∧ R.mul (R.add v m) 255 ≤ 255 := by
  have hmono := hR.1
  have hodd := hR.2.1
  have hone := hR.2.2.2.1
  have h255 := hR.2.2.2.2.1
  have hp55 : R.rnd (-(1 / 2 ^ 55)) = -(1 / 2 ^ 55) := by
    rw [hodd, toNearest_pow R hR 55]
  have hp47 : R.rnd (-(1 / 2 ^ 47)) = -(1 / 2 ^ 47) := by
    rw [hodd, toNearest_pow R hR 47]
  have hs0 : -(1 / 2 ^ 55) ≤ R.add v m := by
    have := hmono (-(1 / 2 ^ 55)) (v + m) (by linarith)
    rw [hp55] at this
    exact this
  have hs1 : R.add v m ≤ 1 := by
    have := hmono (v + m) 1 (by linarith)
    rw [hone] at this
    exact this
  constructor
  · have := hmono (-(1 / 2 ^ 47)) (R.add v m * 255) (by
      have : (-(1 / 2 ^ 47) : ℚ) = -(1 / 2 ^ 55) * 256 := by norm_num
      nlinarith)
    rw [hp47] at this
    exact this
  · have := hmono (R.add v m * 255) 255 (by linarith)
    rw [h255] at this
    exact this

/-- Under a rounding to nearest, for a lightness in `[0, 1]` that the
rounding keeps, the chroma of `escapeColor` lies in `[0, 1]` and is kept, and
the translation `m = lightness - 0.5 * chroma` satisfies `-2^-55 <= m` and
`chroma + m <= 1`. -/
theorem chroma_translation (R : rounding) (hR : R.toNearest) (l : ℚ) (hl : R.rnd l = l)
    (hl0 : 0 ≤ l) (hl1 : l ≤ 1) :
    0 ≤ R.escapeChroma l ∧ R.rnd (R.escapeChroma l) = R.escapeChroma l ∧
    -(1 / 2 ^ 55) ≤ R.sub l (R.mul (1 / 2) (R.escapeChroma l)) ∧
    R.escapeChroma l + R.sub l (R.mul (1 / 2) (R.escapeChroma l)) ≤ 1 := by
  have hmono := hR.1
  have hodd := hR.2.1
  have hidem := hR.2.2.1
  have hone := hR.2.2.2.1
  have hdouble := hR.2.2.2.2.2.1
  have hsterbenz := hR.2.2.2.2.2.2.1
  have herr := hR.2.2.2.2.2.2.2
  have hzero := toNearest_zero R hR
  have hhalf : R.rnd (1 / 2) = 1 / 2 := by
    have := toNearest_half R hR 1 hone
    exact this
  have h2l : R.rnd (2 * l) = 2 * l := by rw [hdouble, hl]
  have hchroma : R.escapeChroma l = R.rnd (1 - |R.rnd (2 * l - 1)|) := by
    simp only [rounding.escapeChroma, rounding.mul, rounding.sub, fabs, mul_one, h2l, hidem]
  have hkept : R.rnd (R.escapeChroma l) = R.escapeChroma l := by
    rw [hchroma, hidem]
  have hmul : R.mul (1 / 2) (R.escapeChroma l) = R.escapeChroma l / 2 := by
    have := toNearest_half R hR _ hkept
    simp only [rounding.mul]
    rw [show (1 / 2 : ℚ) * R.escapeChroma l = R.escapeChroma l / 2 by ring]
    exact this
  rw [hmul]
  simp only [rounding.sub]
  by_cases hq : 1 / 4 ≤ l
  · -- the difference `2 * l - 1` is exact
    have ha : R.rnd (2 * l - 1) = 2 * l - 1 :=
      hsterbenz (2 * l) 1 h2l hone (by linarith) (by linarith)
    by_cases hh : 1 / 2 ≤ l
    · have habs : |2 * l - 1| = 2 * l - 1 := abs_of_nonneg (by linarith)
      have h1l : R.rnd (1 - l) = 1 - l :=
        hsterbenz 1 l hone hl (by linarith) (by linarith)
      have hc : R.escapeChroma l = 2 * (1 - l) := by
        rw [hchroma, ha, habs]
        have : (1 : ℚ) - (2 * l - 1) = 2 * (1 - l) := by ring
        rw [this, hdouble, h1l]
      have hm : R.rnd (l - R.escapeChroma l / 2) = 2 * l - 1 := by
        rw [hc]
        have : l - 2 * (1 - l) / 2 = 2 * l - 1 := by ring
        rw [this, ha]
      rw [hm, hc]
      refine ⟨by linarith, by rw [← hc]; exact hkept, ?_, by linarith⟩
      have : (0 : ℚ) ≤ 1 / 2 ^ 55 := by positivity
      linarith
    · push_neg at hh
      have habs : |2 * l - 1| = 1 - 2 * l := by
        rw [abs_of_nonpos (by linarith)]
        ring
      have hc : R.escapeChroma l = 2 * l := by
        rw [hchroma, ha, habs]
        have : (1 : ℚ) - (1 - 2 * l) = 2 * l := by ring
        rw [this, h2l]
      have hm : R.rnd (l - R.escapeChroma l / 2) = 0 := by
        rw [hc]
        have : l - 2 * l / 2 = 0 := by ring
        rw [this, hzero]
      rw [hm, hc]
      refine ⟨by linarith, by rw [← hc]; exact hkept, ?_, by linarith⟩
      have : (0 : ℚ) ≤ 1 / 2 ^ 55 := by positivity
      linarith
  · push_neg at hq
    -- `w` is the magnitude of the rounded difference
    have hw : R.rnd (2 * l - 1) = -R.rnd (1 - 2 * l) := by
      rw [← hodd]
      congr 1
      ring
    have hw0 : 1 / 2 ≤ R.rnd (1 - 2 * l) := by
      have := hmono (1 / 2) (1 - 2 * l) (by linarith)
      rw [hhalf] at this
      exact this
    have hw1 : R.rnd (1 - 2 * l) ≤ 1 := by
      have := hmono (1 - 2 * l) 1 (by linarith)
      rw [hone] at this
      exact this
    have habs : |R.rnd (2 * l - 1)| = R.rnd (1 - 2 * l) := by
      rw [hw, abs_neg, abs_of_nonneg (by linarith)]
    have hc : R.escapeChroma l = 1 - R.rnd (1 - 2 * l) := by
      rw [hchroma, habs]
      exact hsterbenz 1 (R.rnd (1 - 2 * l)) hone (hidem _) (by linarith) (by linarith)
    have hnear := herr (1 - 2 * l) (by linarith) (by linarith)
    rw [abs_le] at hnear
    have hp55 : R.rnd (-(1 / 2 ^ 55)) = -(1 / 2 ^ 55) := by
      rw [hodd, toNearest_pow R hR 55]
    have hm0 : -(1 / 2 ^ 55) ≤ R.rnd (l - R.escapeChroma l / 2) := by
      have := hmono (-(1 / 2 ^ 55)) (l - R.escapeChroma l / 2) (by
        rw [hc]
        have : (1 : ℚ) / 2 ^ 55 = 1 / 2 ^ 54 / 2 := by norm_num
        linarith [hnear.1, hnear.2])
      rw [hp55] at this
      exact this
    have hm1 : R.rnd (l - R.escapeChroma l / 2) ≤ l := by
      have := hmono (l - R.escapeChroma l / 2) l (by rw [hc]; linarith)
      rw [hl] at this
      exact this
    refine ⟨by rw [hc]; linarith, hkept, hm0, ?_⟩
    rw [hc] at hm1 ⊢
    linarith

/-- Under a rounding to nearest, for a quotient `hue / 60` that is not
negative the intermediate value `X` of `escapeColor` lies between `0` and the
chroma. -/
theorem intermediate_range (R : rounding) (hR : R.toNearest) (h' chroma : ℚ)
    (hh : 0 ≤ h') (hc0 : 0 ≤ chroma) (hck : R.rnd chroma = chroma) :
    0 ≤ R.mul (R.sub 1 (fabs (R.sub (fmod h' 2) 1))) chroma ∧
    R.mul (R.sub 1 (fabs (R.sub (fmod h' 2) 1))) chroma ≤ chroma := by
  have hmono := hR.1
  have hodd := hR.2.1
  have hone := hR.2.2.2.1
  have hzero := toNearest_zero R hR
  obtain ⟨_, hf0, hf2⟩ := fmod_of_nonneg h' 2 hh (by norm_num)
  have hu0 : -1 ≤ R.sub (fmod h' 2) 1 := by
    have := hmono (-1) (fmod h' 2 - 1) (by linarith)
    rw [hodd, hone] at this
    exact this
  have hu1 : R.sub (fmod h' 2) 1 ≤ 1 := by
    have := hmono (fmod h' 2 - 1) 1 (by linarith)
    rw [hone] at this
    exact this
  have habs : |R.sub (fmod h' 2) 1| ≤ 1 := abs_le.mpr ⟨hu0, hu1⟩
  have ht0 : 0 ≤ R.sub 1 (fabs (R.sub (fmod h' 2) 1)) := by
    have := hmono 0 (1 - |R.sub (fmod h' 2) 1|) (by linarith)
    rw [hzero] at this
    exact this
  have ht1 : R.sub 1 (fabs (R.sub (fmod h' 2) 1)) ≤ 1 := by
    have := hmono (1 - |R.sub (fmod h' 2) 1|) 1
      (by linarith [abs_nonneg (R.sub (fmod h' 2) 1)])
    rw [hone] at this
    exact this
  constructor
  · have := hmono 0 (R.sub 1 (fabs (R.sub (fmod h' 2) 1)) * chroma) (mul_nonneg ht0 hc0)
    rw [hzero] at this
    exact this
  · have := hmono (R.sub 1 (fabs (R.sub (fmod h' 2) 1)) * chroma) chroma (by nlinarith)
    rw [hck] at this
    exact this

/-- Under a rounding to nearest, for a lightness in `[0, 1]` that the
rounding keeps and a hue that is not negative the three scaled values lie in
`[-2^-47, 255]`. -/
theorem rounding_escapeScaled_range (R : rounding) (hR : R.toNearest) (hue lightness : ℚ)
    (hl : R.rnd lightness = lightness) (hl0 : 0 ≤ lightness) (hl1 : lightness ≤ 1)
    (hh0 : 0 ≤ hue) :
    (-(1 / 2 ^ 47) ≤ (R.escapeScaled hue lightness).1 ∧
      (R.escapeScaled hue lightness).1 ≤ 255) ∧
    (-(1 / 2 ^ 47) ≤ (R.escapeScaled hue lightness).2.1 ∧
      (R.escapeScaled hue lightness).2.1 ≤ 255) ∧
    (-(1 / 2 ^ 47) ≤ (R.escapeScaled hue lightness).2.2 ∧
      (R.escapeScaled hue lightness).2.2 ≤ 255) := by
  have hzero := toNearest_zero R hR
  have hH0 : 0 ≤ R.div hue 60 := by
    have := hR.1 0 (hue / 60) (by linarith)
    rw [hzero] at this
    exact this
  obtain ⟨hc0, hck, hm0, hcm⟩ := chroma_translation R hR lightness hl hl0 hl1
  obtain ⟨hX0, hX1⟩ := intermediate_range R hR (R.div hue 60) (R.escapeChroma lightness)
    hH0 hc0 hck
  obtain ⟨⟨a0, a1⟩, ⟨b0, b1⟩, ⟨c0, c1⟩⟩ := chain_range (R.div hue 60)
    (R.escapeChroma lightness)
    (R.mul (R.sub 1 (fabs (R.sub (fmod (R.div hue 60) 2) 1))) (R.escapeChroma lightness))
    hc0 hX0 hX1
  simp only [rounding.escapeScaled]
  exact ⟨scaled_channel_range R hR _ _ _ a0 a1 hm0 hcm,
    scaled_channel_range R hR _ _ _ b0 b1 hm0 hcm,
    scaled_channel_range R hR _ _ _ c0 c1 hm0 hcm⟩

/-- Exact arithmetic is a rounding to nearest. -/
theorem noRounding_toNearest : noRounding.toNearest := by
  refine ⟨fun x y h => h, fun x => rfl, fun x => rfl, rfl, rfl, fun x => rfl,
    fun x y _ _ _ _ => rfl, fun x _ _ => ?_⟩
  simp only [noRounding, sub_self, abs_zero]
  positivity

/-! ## The channels of the lightness `0.001` in binary64 -/

theorem roundBinary64_360 : roundBinary64 360 = 360 :=
  roundBinary64_eq _ _ (8) (6333186975989760) (by norm_num) (by norm_num)
    (by norm_num) (by norm_num)

theorem roundBinary64_dim :
    roundBinary64 (1152921504606847 / 1152921504606846976) =
      1152921504606847 / 1152921504606846976 :=
  roundBinary64_eq _ _ (-10) (4611686018427388) (by norm_num) (by norm_num)
    (by norm_num) (by norm_num)

theorem roundBinary64_dim_double :
    roundBinary64 (1152921504606847 / 576460752303423488) =
      1152921504606847 / 576460752303423488 :=
  roundBinary64_eq _ _ (-9) (4611686018427388) (by norm_num) (by norm_num)
    (by norm_num) (by norm_num)

theorem roundBinary64_dim_difference :
    roundBinary64 (575307830798816641 / 576460752303423488) =
      4494592428115755 / 4503599627370496 :=
  roundBinary64_eq _ _ (-1) (8989184856231510) (by norm_num) (by norm_num)
    (by norm_num) (by norm_num)

theorem roundBinary64_dim_chroma :
    roundBinary64 (9007199254741 / 4503599627370496) =
      9007199254741 / 4503599627370496 :=
  roundBinary64_eq _ _ (-9) (4611686018427392) (by norm_num) (by norm_num)
    (by norm_num) (by norm_num)

theorem roundBinary64_dim_half :
    roundBinary64 (9007199254741 / 9007199254740992) =
      9007199254741 / 9007199254740992 :=
  roundBinary64_eq _ _ (-10) (4611686018427392) (by norm_num) (by norm_num)
    (by norm_num) (by norm_num)

theorem roundBinary64_dim_translation :
    roundBinary64 (1 / 1152921504606846976) = 1 / 1152921504606846976 :=
  roundBinary64_eq _ _ (-60) (4503599627370496) (by norm_num) (by norm_num)
    (by norm_num) (by norm_num)

theorem roundBinary64_dim_sum :
    roundBinary64 (2305843009213695 / 1152921504606846976) =
      2305843009213695 / 1152921504606846976 :=
  roundBinary64_eq _ _ (-9) (4611686018427390) (by norm_num) (by norm_num)
    (by norm_num) (by norm_num)

theorem roundBinary64_dim_first :
    roundBinary64 (587989967349492225 / 1152921504606846976) =
      1148417904979477 / 2251799813685248 :=
  roundBinary64_eq _ _ (-1) (4593671619917908) (by norm_num) (by norm_num)
    (by norm_num) (by norm_num)

theorem roundBinary64_dim_second :
    roundBinary64 (255 / 1152921504606846976) = 255 / 1152921504606846976 :=
  roundBinary64_eq _ _ (-53) (8972014882652160) (by norm_num) (by norm_num)
    (by norm_num) (by norm_num)

theorem fmod_zero (y : ℚ) : fmod 0 y = 0 := by
  simp [fmod]

/-- In binary64 the hue of the escape value `360` of `360` under the default
colours with the lightness `0.001` is `0`. -/
theorem binary64_escapeHue_dim : binary64.escapeHue 360 dimColor = 0 := by
  norm_num [rounding.escapeHue, rounding.div, rounding.sub, rounding.mul, rounding.add,
    binary64, dimColor, roundBinary64_one, roundBinary64_360, roundBinary64_zero, fmod_zero]

/-- In binary64 the hue `0` and the lightness `0.001` have the scaled values
`1148417904979477 / 2^51`, `-255 / 2^60` and `-255 / 2^60`. -/
theorem binary64_escapeScaled_dim :
    binary64.escapeScaled 0 (1152921504606847 / 1152921504606846976) =
      (1148417904979477 / 2251799813685248, -255 / 1152921504606846976,
        -255 / 1152921504606846976) := by
  have a1 : |(4494592428115755 / 4503599627370496 : ℚ)| =
      4494592428115755 / 4503599627370496 := abs_of_pos (by norm_num)
  norm_num [a1, roundBinary64_neg, rounding.escapeScaled, rounding.escapeChroma, rounding.div, rounding.sub,
    rounding.mul, rounding.add, binary64, fabs, fmod_zero, roundBinary64_zero,
    roundBinary64_one, roundBinary64_neg_one, roundBinary64_dim_double,
    roundBinary64_dim_difference, roundBinary64_dim_chroma, roundBinary64_dim_half,
    roundBinary64_dim_translation, roundBinary64_dim_sum, roundBinary64_dim_first,
    roundBinary64_dim_second]

/-! ## The claim on the channels under a rounding -/

/-- C23 as stated fails in binary64 at the escape value `360` of `360` under
the default colours with the constant lightness `-c 0.001`: the lightness is
in `[0, 1]` and the hue is `0`, in `[0, 360)`, but the scaled values of the
green and of the blue channel are `-255 / 2^60`, below `0`; their ceiling is
`0` all the same. -/
theorem escapeColor_scaled_negative :
    (360 : Int) ≠ 0 ∧
    (0 ≤ binary64.escapeLightness samplePow 360 dimColor ∧
      binary64.escapeLightness samplePow 360 dimColor ≤ 1) ∧
    (0 ≤ binary64.escapeHue 360 dimColor ∧ binary64.escapeHue 360 dimColor < 360) ∧
    (binary64.escapeScaled (binary64.escapeHue 360 dimColor)
      (binary64.escapeLightness samplePow 360 dimColor)).2.2 =
        -255 / 1152921504606846976 ∧
    ¬ (0 ≤ (binary64.escapeScaled (binary64.escapeHue 360 dimColor)
      (binary64.escapeLightness samplePow 360 dimColor)).2.2) ∧
    ⌈(binary64.escapeScaled (binary64.escapeHue 360 dimColor)
      (binary64.escapeLightness samplePow 360 dimColor)).2.2⌉ = 0 := by
  have hlight : binary64.escapeLightness samplePow 360 dimColor =
      1152921504606847 / 1152921504606846976 := by
    norm_num [rounding.escapeLightness, dimColor]
  rw [hlight, binary64_escapeHue_dim, binary64_escapeScaled_dim]
  refine ⟨by decide, ⟨by norm_num, by norm_num⟩, ⟨by norm_num, by norm_num⟩, rfl,
    by norm_num, ?_⟩
  exact Int.ceil_eq_iff.mpr ⟨by norm_num, by norm_num⟩

/-- C23, amended: under every rounding to nearest of `double`, for a non-zero
escape value whose lightness is a number of `[0, 1]` that the rounding keeps
and whose hue is in `[0, 360)`, each of the three scaled channel values of
`escapeColor` lies in `[-2^-47, 255]` (the rounding can take it just below
`0`), its ceiling is an integer in `[0, 255]`, and the channel returned is
that ceiling: the mask and the store into the 8-bit field change nothing. -/
theorem escapeColor_no_wrap (R : rounding) (hR : R.toNearest) (pow : ℚ → ℚ → ℚ) (e : Int)
    (color : colorSettings) (he : e ≠ 0)
    (hkept : R.rnd (R.escapeLightness pow e color) = R.escapeLightness pow e color)
    (hl0 : 0 ≤ R.escapeLightness pow e color) (hl1 : R.escapeLightness pow e color ≤ 1)
    (hh0 : 0 ≤ R.escapeHue e color) (hh360 : R.escapeHue e color < 360) :
    ((-(1 / 2 ^ 47) ≤ (R.escapeScaled (R.escapeHue e color)
          (R.escapeLightness pow e color)).1 ∧
        (R.escapeScaled (R.escapeHue e color) (R.escapeLightness pow e color)).1 ≤ 255) ∧
      (-(1 / 2 ^ 47) ≤ (R.escapeScaled (R.escapeHue e color)
          (R.escapeLightness pow e color)).2.1 ∧
        (R.escapeScaled (R.escapeHue e color) (R.escapeLightness pow e color)).2.1 ≤ 255) ∧
      (-(1 / 2 ^ 47) ≤ (R.escapeScaled (R.escapeHue e color)
          (R.escapeLightness pow e color)).2.2 ∧
        (R.escapeScaled (R.escapeHue e color) (R.escapeLightness pow e color)).2.2 ≤ 255)) ∧
    (0 ≤ ⌈(R.escapeScaled (R.escapeHue e color) (R.escapeLightness pow e color)).1⌉ ∧
      ⌈(R.escapeScaled (R.escapeHue e color) (R.escapeLightness pow e color)).1⌉ ≤ 255 ∧
      (((R.escapeColor pow e color).r : Nat) : Int) =
        ⌈(R.escapeScaled (R.escapeHue e color) (R.escapeLightness pow e color)).1⌉) ∧
    (0 ≤ ⌈(R.escapeScaled (R.escapeHue e color) (R.escapeLightness pow e color)).2.1⌉ ∧
      ⌈(R.escapeScaled (R.escapeHue e color) (R.escapeLightness pow e color)).2.1⌉ ≤ 255 ∧
      (((R.escapeColor pow e color).g : Nat) : Int) =
        ⌈(R.escapeScaled (R.escapeHue e color) (R.escapeLightness pow e color)).2.1⌉) ∧
    (0 ≤ ⌈(R.escapeScaled (R.escapeHue e color) (R.escapeLightness pow e color)).2.2⌉ ∧
      ⌈(R.escapeScaled (R.escapeHue e color) (R.escapeLightness pow e color)).2.2⌉ ≤ 255 ∧
      (((R.escapeColor pow e color).b : Nat) : Int) =
        ⌈(R.escapeScaled (R.escapeHue e color) (R.escapeLightness pow e color)).2.2⌉) := by
  have hsextant : R.div (R.escapeHue e color) 60 ≤ R.rnd 6 :=
    hR.1 _ _ (by linarith)
  have hrange := rounding_escapeScaled_range R hR _ _ hkept hl0 hl1 hh0
  have habove : ∀ v : ℚ, -(1 / 2 ^ 47) ≤ v → -1 < v := by
    intro v hv
    have : (1 : ℚ) / 2 ^ 47 < 1 := by norm_num
    linarith
  rw [rounding_escapeColor_eq R pow e color he]
  exact ⟨hrange,
    toChannel_of_above _ (habove _ hrange.1.1) hrange.1.2,
    toChannel_of_above _ (habove _ hrange.2.1.1) hrange.2.1.2,
    toChannel_of_above _ (habove _ hrange.2.2.1) hrange.2.2.2⟩

/-- Witness of C23, amended, in binary64: the default colours with the
constant lightness `-c 0.001`, escape value `360` of `360`; the blue channel
is the ceiling of its scaled value. -/
theorem escapeColor_no_wrap_witness :
    binary64.toNearest ∧ (360 : Int) ≠ 0 ∧
    binary64.rnd (binary64.escapeLightness samplePow 360 dimColor) =
      binary64.escapeLightness samplePow 360 dimColor ∧
    (0 ≤ binary64.escapeLightness samplePow 360 dimColor ∧
      binary64.escapeLightness samplePow 360 dimColor ≤ 1) ∧
    (0 ≤ binary64.escapeHue 360 dimColor ∧ binary64.escapeHue 360 dimColor < 360) ∧
    (((binary64.escapeColor samplePow 360 dimColor).b : Nat) : Int) =
      ⌈(binary64.escapeScaled (binary64.escapeHue 360 dimColor)
        (binary64.escapeLightness samplePow 360 dimColor)).2.2⌉ :=
  have hlight : binary64.escapeLightness samplePow 360 dimColor =
      1152921504606847 / 1152921504606846976 := by
    norm_num [rounding.escapeLightness, dimColor]
  have hkept : binary64.rnd (binary64.escapeLightness samplePow 360 dimColor) =
      binary64.escapeLightness samplePow 360 dimColor := by
    rw [hlight]
    exact roundBinary64_dim
  have hl0 : 0 ≤ binary64.escapeLightness samplePow 360 dimColor := by
    rw [hlight]; norm_num
  have hl1 : binary64.escapeLightness samplePow 360 dimColor ≤ 1 := by
    rw [hlight]; norm_num
  have hh0 : 0 ≤ binary64.escapeHue 360 dimColor := by
    rw [binary64_escapeHue_dim]
  have hh360 : binary64.escapeHue 360 dimColor < 360 := by
    rw [binary64_escapeHue_dim]; norm_num
  ⟨binary64_toNearest, by decide, hkept, ⟨hl0, hl1⟩, ⟨hh0, hh360⟩,
    (escapeColor_no_wrap binary64 binary64_toNearest samplePow 360 dimColor (by decide)
      hkept hl0 hl1 hh0 hh360).2.2.2.2.2⟩

/-- In escape-dependent mode with lightness `0` the conversion from HSL
gives black, whatever the hue. -/
theorem escapeColorHSL_zero (hue : ℚ) :
    escapeColorHSL hue 0 = { r := 0, g := 0, b := 0 } := by
  have hch : toChannel 0 = 0 := by norm_num [toChannel]
  have habs : |(2 : ℚ) * 0 - 1| = 1 := by norm_num
  simp only [escapeColorHSL, fabs, habs]
  split_ifs <;> norm_num [hch]

/-- C28: with `constantLight = 0` and `pow(1, d) = 1`, the escape value
`maxIterations` (escape on the first iteration, ratio `1`) gets the lightness
`lightMax - lightMax * 1 = 0` and the pixel `(0, 0, 0)`, for every hue
limiter, hue offset, maximal lightness and light distribution; so does
every point whose escape time is `maxIterations`. -/
theorem first_escape_black (pow : ℚ → ℚ → ℚ) (color : colorSettings)
    (hconst : color.constantLight = 0) (hmax : 1 ≤ color.maxIterations)
    (hpow : pow 1 color.lightDistribution = 1) :
    escapeLightness pow color.maxIterations color = 0 ∧
    escapeColor pow color.maxIterations color = { r := 0, g := 0, b := 0 } ∧
    (∀ (c : tComplex) (calcSet : calcSettings),
      escapeTime color.maxIterations c calcSet = color.maxIterations →
      escapePixel pow c color calcSet = { r := 0, g := 0, b := 0 }) := by
  have hm : (color.maxIterations : ℚ) ≠ 0 := by
    have : color.maxIterations ≠ 0 := by omega
    exact_mod_cast this
  have hlight : escapeLightness pow color.maxIterations color = 0 := by
    simp only [escapeLightness, hconst, if_true, div_self hm, hpow]
    ring
  have hcolor : escapeColor pow color.maxIterations color = { r := 0, g := 0, b := 0 } := by
    rw [escapeColor_eq pow _ color (by omega), hlight, escapeColorHSL_zero]
  refine ⟨hlight, hcolor, ?_⟩
  intro c calcSet htime
  simp only [escapePixel, htime, hcolor]

/-- Witness of C28: the colours of `main` with `-c 0`. -/
theorem first_escape_black_witness :
    ({ (sampleInput 1).color with constantLight := 0 } : colorSettings).constantLight = 0 ∧
    (1 : Int) ≤ ({ (sampleInput 1).color with constantLight := 0 } : colorSettings).maxIterations ∧
    escapeColor samplePow 360 { (sampleInput 1).color with constantLight := 0 } =
      { r := 0, g := 0, b := 0 } :=
  ⟨rfl, by decide,
    (first_escape_black samplePow { (sampleInput 1).color with constantLight := 0 } rfl
      (by decide) rfl).2.1⟩

/-! ## The claims on the grid and on the header -/

/-- The high byte that the header stores. -/
theorem high_byte (w : Nat) : (w &&& 0xFF00) / 256 = w / 256 % 256 := by
  have h1 : ∀ v : Nat, v / 256 = v >>> 8 := fun v => by
    rw [Nat.shiftRight_eq_div_pow]
  have h2 : ∀ v : Nat, v % 256 = v &&& (2 ^ 8 - 1) := fun v =>
    (Nat.and_pow_two_sub_one_eq_mod v 8).symm
  rw [h1, h1, h2]
  apply Nat.eq_of_testBit_eq
  intro i
  have h3 : (0xFF00 : Nat) = (2 ^ 8 - 1) <<< 8 := by decide
  rw [h3]
  simp only [Nat.testBit_shiftRight, Nat.testBit_and, Nat.testBit_shiftLeft,
    Nat.testBit_two_pow_sub_one]
  simp

/-- The low byte that the header stores. -/
theorem low_byte (w : Nat) : w &&& 0x00FF = w % 256 :=
  Nat.and_pow_two_sub_one_eq_mod w 8

/-- The function `targaWriteHeader_RGB24` appends the header of the
specification. -/
theorem targaWriteHeader_RGB24_spec (width height : Nat) (file : List Nat) :
    targaWriteHeader_RGB24 width height file = file ++ specHeader width height := by
  simp only [targaWriteHeader_RGB24, specHeader, fputc, List.foldl_cons, List.foldl_nil,
    low_byte, high_byte, List.append_assoc, List.singleton_append, Nat.mod_mod]
  norm_num

/-- C27: `targaWriteHeader_RGB24` appends exactly `18` bytes; byte `2` is `2`,
byte `16` is `24`, and every byte other than `12 .. 15` is the same for all
dimensions; the bytes `12, 13` are the low and the high byte of the width and
the bytes `14, 15` those of the height, so that for a width and a height of
at most `65535`, `byte12 + 256 * byte13 = width` and
`byte14 + 256 * byte15 = height`. -/
theorem header_bytes (width height : Nat) (file : List Nat) :
    targaWriteHeader_RGB24 width height file =
      file ++ targaWriteHeader_RGB24 width height [] ∧
    (targaWriteHeader_RGB24 width height []).length = 18 ∧
    (targaWriteHeader_RGB24 width height [])[2]? = some 2 ∧
    (targaWriteHeader_RGB24 width height [])[16]? = some 24 ∧
    (∀ (width' height' i : Nat), i < 12 ∨ 15 < i →
      (targaWriteHeader_RGB24 width height [])[i]? =
        (targaWriteHeader_RGB24 width' height' [])[i]?) ∧
    ((targaWriteHeader_RGB24 width height [])[12]? = some (width % 256) ∧
      (targaWriteHeader_RGB24 width height [])[13]? = some (width / 256 % 256) ∧
      (targaWriteHeader_RGB24 width height [])[14]? = some (height % 256) ∧
      (targaWriteHeader_RGB24 width height [])[15]? = some (height / 256 % 256)) ∧
    (width ≤ 65535 →
      (targaWriteHeader_RGB24 width height []).getD 12 0 +
        256 * (targaWriteHeader_RGB24 width height []).getD 13 0 = width) ∧
    (height ≤ 65535 →
      (targaWriteHeader_RGB24 width height []).getD 14 0 +
        256 * (targaWriteHeader_RGB24 width height []).getD 15 0 = height) := by
  have hspec : ∀ w h : Nat, targaWriteHeader_RGB24 w h [] = specHeader w h := by
    intro w h
    rw [targaWriteHeader_RGB24_spec]
    rfl
  refine ⟨targaWriteHeader_RGB24_eq width height file,
    targaWriteHeader_RGB24_length width height, ?_, ?_, ?_, ?_, ?_, ?_⟩
  · rw [hspec]; rfl
  · rw [hspec]; rfl
  · intro width' height' i hi
    rw [hspec, hspec]
    by_cases h18 : i < 18
    · interval_cases i <;> first | rfl | omega
    · have hlen : ∀ w h : Nat, (specHeader w h).length ≤ i := by
        intro w h
        simp only [specHeader, List.length_cons, List.length_nil]
        omega
      rw [List.getElem?_eq_none (hlen width height),
        List.getElem?_eq_none (hlen width' height')]
  · rw [hspec]
    exact ⟨rfl, rfl, rfl, rfl⟩
  · intro hw
    rw [hspec]
    show width % 256 + 256 * (width / 256 % 256) = width
    omega
  · intro hh
    rw [hspec]
    show height % 256 + 256 * (height / 256 % 256) = height
    omega

/-- Witness of C27: the dimensions `1920` by `1080`. -/
theorem header_bytes_witness :
    (1920 : Nat) ≤ 65535 ∧ (1080 : Nat) ≤ 65535 ∧
    (targaWriteHeader_RGB24 1920 1080 []).getD 12 0 +
        256 * (targaWriteHeader_RGB24 1920 1080 []).getD 13 0 = 1920 ∧
    (targaWriteHeader_RGB24 1920 1080 []).getD 14 0 +
        256 * (targaWriteHeader_RGB24 1920 1080 []).getD 15 0 = 1080 :=
  ⟨by decide, by decide,
    (header_bytes 1920 1080 []).2.2.2.2.2.2.1 (by decide),
    (header_bytes 1920 1080 []).2.2.2.2.2.2.2 (by decide)⟩

/-! ## Divergence away from the point `(-2, 0)` -/

/-- A lower bound for the squared magnitude after one step. -/
theorem step_lower (c z : tComplex) :
    sqMag z ^ 2 / 2 - sqMag c ≤ sqMag (mandelbrot c z) := by
  unfold sqMag mandelbrot
  simp only
  nlinarith [sq_nonneg (z.real * z.real - z.imag * z.imag + 2 * c.real),
    sq_nonneg (2 * z.real * z.imag + 2 * c.imag)]

/-- Beyond the circle of radius two, and at least as far out as the constant,
the distance to the circle at least triples with every step. -/
theorem step_growth (c z : tComplex) (hc : sqMag c ≤ sqMag z) (h4 : 4 ≤ sqMag z) :
    3 * (sqMag z - 4) ≤ sqMag (mandelbrot c z) - 4 ∧
    sqMag z ≤ sqMag (mandelbrot c z) := by
  have h := step_lower c z
  constructor <;> nlinarith

theorem orbit_growth (c : tComplex) (k : Nat) (hc : sqMag c ≤ sqMag (orbitOfZero c k))
    (h4 : 4 ≤ sqMag (orbitOfZero c k)) :
    ∀ j : Nat, 3 ^ j * (sqMag (orbitOfZero c k) - 4) ≤ sqMag (orbitOfZero c (k + j)) - 4 ∧
      sqMag (orbitOfZero c k) ≤ sqMag (orbitOfZero c (k + j)) := by
  intro j
  induction j with
  | zero => simp
  | succ j ih =>
    obtain ⟨ih1, ih2⟩ := ih
    have hstep := step_growth c (orbitOfZero c (k + j)) (le_trans hc ih2) (le_trans h4 ih2)
    rw [← Nat.add_assoc, orbitOfZero_succ]
    have hd : 0 ≤ sqMag (orbitOfZero c k) - 4 := by linarith
    have hpow : (0 : ℚ) ≤ 3 ^ j := by positivity
    constructor
    · rw [pow_succ]
      nlinarith [hstep.1, mul_nonneg hpow hd]
    · linarith [hstep.2]

/-- An iterate strictly outside the circle of radius two and at least as far
out as the constant makes the orbit unbounded. -/
theorem diverges_of_outside (c : tComplex) (k : Nat)
    (hc : sqMag c ≤ sqMag (orbitOfZero c k)) (h4 : 4 < sqMag (orbitOfZero c k)) :
    diverges c := by
  intro B
  have hd : 0 < sqMag (orbitOfZero c k) - 4 := by linarith
  obtain ⟨j, hj⟩ := pow_unbounded_of_one_lt (B / (sqMag (orbitOfZero c k) - 4))
    (by norm_num : (1 : ℚ) < 3)
  refine ⟨k + j, ?_⟩
  have hg := (orbit_growth c k hc h4.le j).1
  have hB : B < 3 ^ j * (sqMag (orbitOfZero c k) - 4) := (div_lt_iff₀ hd).mp hj
  linarith

theorem orbitOfZero_one (c : tComplex) : sqMag (orbitOfZero c 1) = sqMag c := by
  rw [orbitOfZero_succ]
  simp [orbitOfZero, sqMag, mandelbrot]

/-- The only constant on the circle of radius two with real part `-2` is
`(-2, 0)`. -/
theorem real_part_above (c : tComplex) (hne : c ≠ { real := -2, imag := 0 })
    (hc : sqMag c = 4) : -2 < c.real := by
  unfold sqMag at hc
  by_contra hle
  have hle' : c.real ≤ -2 := not_lt.mp hle
  have him : c.imag * c.imag = 0 := by nlinarith [mul_self_nonneg c.imag]
  have hre : c.real = -2 := by nlinarith [mul_self_nonneg c.imag]
  have him0 : c.imag = 0 := mul_self_eq_zero.mp him
  apply hne
  cases c
  simp only [tComplex.mk.injEq]
  exact ⟨hre, him0⟩

/-- Two consecutive iterates on the circle of radius two, with the constant
on that circle: the next iterate is strictly outside unless the constant is
`(-2, 0)`. -/
theorem leaves_circle (c z : tComplex) (hne : c ≠ { real := -2, imag := 0 })
    (hc : sqMag c = 4) (hz : sqMag z = 4) (hz' : sqMag (mandelbrot c z) = 4) :
    4 < sqMag (mandelbrot c (mandelbrot c z)) := by
  have hp := real_part_above c hne hc
  have hre : (mandelbrot c z).real = -c.real := by
    unfold sqMag mandelbrot at *
    simp only at hz' ⊢
    have h0 : (z.real * z.real - z.imag * z.imag + 2 * c.real) ^ 2 = 0 := by
      nlinarith [sq_nonneg (z.real * z.real - z.imag * z.imag + 2 * c.real),
        sq_nonneg (2 * z.real * z.imag + 2 * c.imag)]
    have := pow_eq_zero_iff (two_ne_zero) |>.mp h0
    linarith
  have him : (mandelbrot c z).imag = -c.imag := by
    unfold sqMag mandelbrot at *
    simp only at hz' ⊢
    have h0 : (2 * z.real * z.imag + 2 * c.imag) ^ 2 = 0 := by
      nlinarith [sq_nonneg (z.real * z.real - z.imag * z.imag + 2 * c.real),
        sq_nonneg (2 * z.real * z.imag + 2 * c.imag)]
    have := pow_eq_zero_iff (two_ne_zero) |>.mp h0
    linarith
  have hval : sqMag (mandelbrot c (mandelbrot c z)) = 4 * (5 + 2 * c.real) := by
    have hc' : c.real * c.real + c.imag * c.imag = 4 := hc
    show ((mandelbrot c z).real * (mandelbrot c z).real -
        (mandelbrot c z).imag * (mandelbrot c z).imag + c.real) *
        ((mandelbrot c z).real * (mandelbrot c z).real -
        (mandelbrot c z).imag * (mandelbrot c z).imag + c.real) +
      (2 * (mandelbrot c z).real * (mandelbrot c z).imag + c.imag) *
        (2 * (mandelbrot c z).real * (mandelbrot c z).imag + c.imag) = 4 * (5 + 2 * c.real)
    rw [hre, him]
    have hfac : (-c.real * -c.real - -c.imag * -c.imag + c.real) *
        (-c.real * -c.real - -c.imag * -c.imag + c.real) +
        (2 * -c.real * -c.imag + c.imag) * (2 * -c.real * -c.imag + c.imag) =
        (c.real * c.real + c.imag * c.imag) *
          ((c.real * c.real + c.imag * c.imag) + 2 * c.real + 1) := by ring
    rw [hfac, hc']
    ring
  rw [hval]
  linarith

/-- Away from the constant `(-2, 0)`, an iterate of squared magnitude at
least four makes the orbit unbounded. -/
theorem diverges_of_reached (c : tComplex) (hne : c ≠ { real := -2, imag := 0 }) (k : Nat)
    (hk : 4 ≤ sqMag (orbitOfZero c (k + 1))) : diverges c := by
  by_cases hc4 : 4 < sqMag c
  · exact diverges_of_outside c 1 (by rw [orbitOfZero_one]) (by rw [orbitOfZero_one]; exact hc4)
  · have hc : sqMag c ≤ 4 := not_lt.mp hc4
    by_cases h1 : 4 < sqMag (orbitOfZero c (k + 1))
    · exact diverges_of_outside c (k + 1) (by linarith) h1
    · have hN : sqMag (orbitOfZero c (k + 1)) = 4 := le_antisymm (not_lt.mp h1) hk
      have hlow := step_lower c (orbitOfZero c (k + 1))
      rw [hN, ← orbitOfZero_succ] at hlow
      by_cases h2 : 4 < sqMag (orbitOfZero c (k + 1 + 1))
      · exact diverges_of_outside c (k + 1 + 1) (by linarith) h2
      · have hN2 : sqMag (orbitOfZero c (k + 1 + 1)) ≤ 4 := not_lt.mp h2
        have hc' : sqMag c = 4 := by
          apply le_antisymm hc
          norm_num at hlow
          linarith
        have hN2' : sqMag (orbitOfZero c (k + 1 + 1)) = 4 := by
          apply le_antisymm hN2
          norm_num at hlow
          linarith
        have h3 : 4 < sqMag (orbitOfZero c (k + 1 + 1 + 1)) := by
          rw [orbitOfZero_succ c (k + 1 + 1), orbitOfZero_succ c (k + 1)]
          rw [orbitOfZero_succ c (k + 1)] at hN2'
          exact leaves_circle c _ hne hc' hN hN2'
        exact diverges_of_outside c (k + 1 + 1 + 1) (by linarith) h3

/-- C22, amended: over exact arithmetic, for every budget and every point `c`
other than `(-2, 0)`, the report of `escapeTime` is sound in Mandelbrot mode:
a non-zero result means that the point diverges, the orbit of `0` under
`z -> z^2 + c` being unbounded. -/
theorem escapeTime_sound_off_boundary (n : Int) (c : tComplex) (calcSet : calcSettings)
    (hkind : calcSet.juliaFlag = 0) (hne : c ≠ { real := -2, imag := 0 })
    (hnz : escapeTime n c calcSet ≠ 0) : diverges c := by
  have hex : ∃ k : Nat, 4 ≤ sqMag (orbitOfZero c (k + 1)) := by
    by_contra hnone
    push_neg at hnone
    apply hnz
    simp only [escapeTime, hkind, if_true]
    apply escapeLoop_none
    intro k _
    have := hnone k
    rw [orbitOfZero_eq] at this
    exact not_le.mpr this
  obtain ⟨k, hk⟩ := hex
  exact diverges_of_reached c hne k hk

/-- Witness of C22, amended: the point `(-2, 2)` with the budget `50`. -/
theorem escapeTime_sound_off_boundary_witness :
    mandelbrotKind.juliaFlag = 0 ∧
    ({ real := -2, imag := 2 } : tComplex) ≠ { real := -2, imag := 0 } ∧
    escapeTime 50 { real := -2, imag := 2 } mandelbrotKind ≠ 0 ∧
    diverges { real := -2, imag := 2 } :=
  have hne : ({ real := -2, imag := 2 } : tComplex) ≠ { real := -2, imag := 0 } := by
    intro h
    have := congrArg tComplex.imag h
    norm_num at this
  have hfull : escapeTime 50 { real := -2, imag := 2 } mandelbrotKind = 50 :=
    (escapeTime_mandelbrot_eq_budget 50 (by decide) { real := -2, imag := 2 } mandelbrotKind
      rfl).mpr (by norm_num [sqMag, mandelbrot])
  have hnz : escapeTime 50 { real := -2, imag := 2 } mandelbrotKind ≠ 0 := by
    rw [hfull]
    decide
  ⟨rfl, hne, hnz,
    escapeTime_sound_off_boundary 50 { real := -2, imag := 2 } mandelbrotKind rfl hne hnz⟩

end Mandelbrot
